import Mathlib

/-!
Signed-distance-font atlas generator (`src/main.cpp`).

A shallow embedding of the atlas generation engine of `main.cpp`:

* the size search of `render_signed_distance_font` (doubling, bisection,
  decrement-by-one fallback) over an abstract pack attempt,
* `gen_pack_list` over an abstract glyph source and an abstract bin packer,
* `get_SDF_radial`, the square-ring nearest-boundary search and its byte mapping,
* the per-glyph compositing loop that writes the atlas buffer,
* the zero-padded holding buffer `smooth_buf` the glyph is copied into, and the list of
  buffer indices a call of `get_SDF_radial` reads,
* the two-value scan of `render_signed_distance_image` that sets `needs_threshold`.

Conventions.  C++ `int` values are `Int`.  Where a 32-bit `int` can leave its range, in
the size search (`sz <<= 1`, `sz += sz_step`, `sz -= sz_step`, `--sz`) and in the two
squares `max_radius*max_radius` and `radius*radius` of `get_SDF_radial`, the result is
reduced by `wrap32` to the two's complement value; `>>` is the arithmetic shift (floor
division).  Pixel coordinates, loop counters and buffer indices are not reduced: for a
raster whose indices fit an `int` (`w*h < 2^31`) and an in-bounds centre, none of these
operations leaves the `int` range where its result is used.  `unsigned char` buffers are
functions from an index to a byte value.

`float` and `double` values are rationals, and every floating-point operation of
`get_SDF_radial` is followed by the IEEE-754 rounding of the format it is evaluated in
(`fl 24` for `float`, `fl 53` for `double`, round-to-nearest-even; `sqrtF32` for `sqrtf`):
an operation on two `float` operands is evaluated in `float`, an operation with a `double`
operand in `double`, and a store to the `float` variable `d2` rounds to `float`; no
product and sum are fused.  A NaN, which arises only as the square root of a negative
`d2`, is modelled by its observable effect, the returned byte 0.  `sdf_byte_8941` and
`sdf_byte_10313` evaluate the byte mapping at two inputs where it differs from the mapping
over exact reals.

The definitions with the suffix `_exact` are the same radius loop and byte mapping over
exact integers and reals, the arithmetic the specification names for the boundary
symmetry; `get_SDF_d2_eq_exact` shows that the loop of the code computes the same `d2` for
`max_radius <= 4095`.
-/

namespace SDFont

/-! ## Definitions -/

/-- Number of rendered pixels per SDF pixel (`const int scaler = 16;`). -/
def scaler : Int := 16

/-! ### Machine arithmetic -/

/-- The value of a 32-bit two's complement `int` after an operation whose mathematical
result is `n`: `n` reduced modulo `2^32` into `[-2^31, 2^31)`. -/
def wrap32 (n : Int) : Int := (n + 2147483648) % 4294967296 - 2147483648

/-- Nearest integer to a rational, a tie going to the even neighbour. -/
def roundHalfEven (q : ℚ) : Int :=
  if q - ⌊q⌋ < 1 / 2 then ⌊q⌋
  else if 1 / 2 < q - ⌊q⌋ then ⌊q⌋ + 1
  else if ⌊q⌋ % 2 = 0 then ⌊q⌋ else ⌊q⌋ + 1

/-- Rounding of a positive rational `x` to `p` significant bits, nearest-even: with
`e = floor(log2 x)` the result is the multiple of `2^(e-p+1)` nearest to `x`. -/
def flPos (p : Nat) (x : ℚ) : ℚ :=
  (roundHalfEven (x / 2 ^ (Int.log 2 x - ((p : Int) - 1))) : ℚ)
    * 2 ^ (Int.log 2 x - ((p : Int) - 1))

/-- The IEEE-754 rounding of a rational to a binary floating-point number with `p`
significant bits, round-to-nearest-even: `fl 24` is the rounding to `float`, `fl 53` the
rounding to `double`.  The exponent range is not bounded: every non-zero value that
`get_SDF_radial` computes has a magnitude between `2^-25` and `2^64`, inside the normal
range of both formats. -/
def fl (p : Nat) (x : ℚ) : ℚ :=
  if 0 < x then flPos p x else if x < 0 then -flPos p (-x) else 0

/-- The integer nearest to the square root of `X >= 0` (a tie going to the even
neighbour), from the integer square root of the integer part of `X`. -/
def sqrtRound (X : ℚ) : Int :=
  let n : Int := (Nat.sqrt ⌊X⌋.toNat : Nat)
  let h : ℚ := (n : ℚ) + 1 / 2
  if X < h * h then n else if h * h < X then n + 1 else if n % 2 = 0 then n else n + 1

/-- Function `sqrtf` on a non-negative `float`: the correctly rounded square root.  With
`k = floor(floor(log2 x) / 2) - 23` the scaled argument `x / 4^k` lies in `[2^46, 2^48)`,
its square root in `[2^23, 2^24)`, and the result is the nearest integer to that root times
`2^k`.  `sqrtf( 0 )` is 0; a negative argument (a NaN in C) is handled by the caller. -/
def sqrtF32 (x : ℚ) : ℚ :=
  if x ≤ 0 then 0
  else (sqrtRound (x / (2 ^ (Int.log 2 x / 2 - 23) * 2 ^ (Int.log 2 x / 2 - 23))) : ℚ)
    * 2 ^ (Int.log 2 x / 2 - 23)

/-- Record `struct sdf_glyph`; the three `float` fields hold exact rationals. -/
structure sdf_glyph where
  ID : Int
  width : Int
  height : Int
  x : Int
  y : Int
  xoff : ℚ
  yoff : ℚ
  xadv : ℚ
deriving DecidableEq

/-- Bounded `while (cond) body`: `none` when the bound on iterations is used up before
the condition turns false, otherwise the state at loop exit. -/
def whileLoop {σ : Type} (cond : σ → Bool) (body : σ → σ) : Nat → σ → Option σ
  | 0, _ => none
  | n + 1, s => if cond s then whileLoop cond body n (body s) else some s

/-- Local variables of the size search in `render_signed_distance_font`:
`sz`, `sz_step`, `keep_going`, the glyph vector `all_glyphs` that every call of
`gen_pack_list` overwrites, and the trace of sizes printed by `printf( " %i", sz )`
just before each pack attempt (most recent first). -/
structure SearchState where
  sz : Int
  sz_step : Int
  keep_going : Bool
  all_glyphs : List sdf_glyph
  attempts : List Int
deriving DecidableEq

/-- Body of the first loop: `sz <<= 1; keep_going = gen_pack_list( .., sz, .., all_glyphs );`.
The shift is a 32-bit operation: `2^30 << 1` is `INT_MIN` and `INT_MIN << 1` is 0. -/
def doubleBody (gen : Int → Bool × List sdf_glyph) (s : SearchState) : SearchState :=
  let sz := wrap32 (s.sz * 2)
  { sz := sz, sz_step := s.sz_step, keep_going := (gen sz).1,
    all_glyphs := (gen sz).2, attempts := sz :: s.attempts }

/-- Body of the second loop: move `sz` by `sz_step` up after a success and down after a
failure (32-bit operations), `sz_step >>= 1` (arithmetic shift, so a negative step stays
negative), then a pack attempt at the new `sz`. -/
def bisectBody (gen : Int → Bool × List sdf_glyph) (s : SearchState) : SearchState :=
  let sz := wrap32 (if s.keep_going then s.sz + s.sz_step else s.sz - s.sz_step)
  { sz := sz, sz_step := s.sz_step / 2, keep_going := (gen sz).1,
    all_glyphs := (gen sz).2, attempts := sz :: s.attempts }

/-- Body of the third loop: `--sz;` then a pack attempt. -/
def fallbackBody (gen : Int → Bool × List sdf_glyph) (s : SearchState) : SearchState :=
  let sz := wrap32 (s.sz - 1)
  { sz := sz, sz_step := s.sz_step, keep_going := (gen sz).1,
    all_glyphs := (gen sz).2, attempts := sz :: s.attempts }

/-- State before the first loop: `sz = 4`, `keep_going = true`, `all_glyphs` empty. -/
def searchInit : SearchState :=
  { sz := 4, sz_step := 0, keep_going := true, all_glyphs := [], attempts := [] }

/-- First loop, `while( keep_going )`. -/
def doublingPhase (gen : Int → Bool × List sdf_glyph) (fuel : Nat) : Option SearchState :=
  whileLoop (fun s => s.keep_going) (doubleBody gen) fuel searchInit

/-- Second loop, `int sz_step = sz >> 2; while( sz_step )`. -/
def bisectPhase (gen : Int → Bool × List sdf_glyph) (fuel : Nat) (s : SearchState) :
    Option SearchState :=
  whileLoop (fun t => t.sz_step != 0) (bisectBody gen) fuel { s with sz_step := s.sz / 4 }

/-- Third loop, `while( (!keep_going) && (sz > 1) )`. -/
def fallbackPhase (gen : Int → Bool × List sdf_glyph) (fuel : Nat) (s : SearchState) :
    Option SearchState :=
  whileLoop (fun t => !t.keep_going && decide (t.sz > 1)) (fallbackBody gen) fuel s

/-- The three loops of the size search in sequence, each allowed `fuel` iterations;
`gen sz` stands for `gen_pack_list( ft_face, sz, texture_size, render_list, all_glyphs )`:
its success flag and the glyph vector it leaves in `all_glyphs`. -/
def sizeSearch (gen : Int → Bool × List sdf_glyph) (fuel : Nat) : Option SearchState :=
  (doublingPhase gen fuel).bind fun s1 =>
  (bisectPhase gen fuel s1).bind fun s2 =>
  fallbackPhase gen fuel s2

/-- What `render_signed_distance_font` does right after the search: `none` is the early
`return -1` taken when `keep_going` is false, before `pdata` is allocated and before any
glyph is rendered; otherwise the search result is passed on to the compositing stage. -/
def afterSearch (s : SearchState) : Option SearchState :=
  if !s.keep_going then none else some s

/-- The state is the outcome of a pack attempt at its current `sz`: the flag and the glyph
vector are those of `gen sz`, and `sz` is the size printed last. -/
def Fresh (gen : Int → Bool × List sdf_glyph) (s : SearchState) : Prop :=
  s.keep_going = (gen s.sz).1 ∧ s.all_glyphs = (gen s.sz).2 ∧ s.attempts.head? = some s.sz

/-! ### `get_SDF_radial` -/

/-- The pixel test shared by the four edge loops:
`if( fontmap[idx] != v ) { float nx = ..; float ny = ..; float nd2 = nx*nx+ny*ny;
if( nd2 < d2 ) d2 = nd2; }`.
The arguments `nx` and `ny` are the `int` differences (`i - x`, `line - y`) that initialise
the two `float` variables; the two products and the sum are `float` operations, each
rounded to 24 bits. -/
def checkPixel (fontmap : Int → Nat) (v : Nat) (idx nx ny : Int) (d2 : ℚ) : ℚ :=
  if fontmap idx ≠ v then
    let fx := fl 24 (nx : ℚ)
    let fy := fl 24 (ny : ℚ)
    let nd2 := fl 24 (fl 24 (fx * fx) + fl 24 (fy * fy))
    if nd2 < d2 then nd2 else d2
  else d2

/-- The loop `for( int i = lo; i <= hi; ++i ) { ...; ++idx; }` of the north and south
edges, with `nx = i - x`, `ny = line - y`; the first argument is the number of iterations
left, `hi - i + 1`. -/
def scanRow (fontmap : Int → Nat) (v : Nat) (x y line : Int) : Nat → Int → Int → ℚ → ℚ
  | 0, _, _, d2 => d2
  | n + 1, i, idx, d2 =>
    scanRow fontmap v x y line n (i + 1) (idx + 1) (checkPixel fontmap v idx (i - x) (line - y) d2)

/-- The loop `for( int i = lo; i <= hi; ++i ) { ...; idx += w; }` of the west and east
edges, with `nx = line - x`, `ny = i - y`. -/
def scanCol (fontmap : Int → Nat) (v : Nat) (w x y line : Int) : Nat → Int → Int → ℚ → ℚ
  | 0, _, _, d2 => d2
  | n + 1, i, idx, d2 =>
    scanCol fontmap v w x y line n (i + 1) (idx + w)
      (checkPixel fontmap v idx (line - x) (i - y) d2)

/-- The `//	north` and `//	south` blocks (`line = y - radius`, `line = y + radius`):
a row of the ring, corners included, clipped to the raster. -/
def rowEdge (fontmap : Int → Nat) (v : Nat) (w h x y radius line : Int) (d2 : ℚ) : ℚ :=
  if 0 ≤ line ∧ line < h then
    let lo := x - radius
    let hi := x + radius
    let lo := if lo < 0 then 0 else lo
    let hi := if hi ≥ w then w - 1 else hi
    scanRow fontmap v x y line (hi - lo + 1).toNat lo (line * w + lo) d2
  else d2

/-- The `//	west` and `//	east` blocks (`line = x - radius`, `line = x + radius`):
a column of the ring without its two corners, clipped to the raster. -/
def colEdge (fontmap : Int → Nat) (v : Nat) (w h x y radius line : Int) (d2 : ℚ) : ℚ :=
  if 0 ≤ line ∧ line < w then
    let lo := y - radius + 1
    let hi := y + radius - 1
    let lo := if lo < 0 then 0 else lo
    let hi := if hi ≥ h then h - 1 else hi
    scanCol fontmap v w x y line (hi - lo + 1).toNat lo (lo * w + line) d2
  else d2

/-- One iteration of the radius loop: north, south, west, east. -/
def ringStep (fontmap : Int → Nat) (v : Nat) (w h x y radius : Int) (d2 : ℚ) : ℚ :=
  let d2 := rowEdge fontmap v w h x y radius (y - radius) d2
  let d2 := rowEdge fontmap v w h x y radius (y + radius) d2
  let d2 := colEdge fontmap v w h x y radius (x - radius) d2
  colEdge fontmap v w h x y radius (x + radius) d2

/-- The loop `for( int radius = 1; (radius <= max_radius) && (radius*radius < d2); ++radius )`.
The product `radius*radius` is a 32-bit `int` product, converted to `float` for the
comparison with `d2`.  The first argument bounds the iterations left (`max_radius` of them
always suffice, see `radialLoop_fuel`). -/
def radialLoop (fontmap : Int → Nat) (v : Nat) (w h x y max_radius : Int) :
    Nat → Int → ℚ → ℚ
  | 0, _, d2 => d2
  | n + 1, radius, d2 =>
    if radius ≤ max_radius ∧ fl 24 ((wrap32 (radius * radius) : Int) : ℚ) < d2 then
      radialLoop fontmap v w h x y max_radius n (radius + 1)
        (ringStep fontmap v w h x y radius d2)
    else d2

/-- Initial value of `d2`, `float d2 = max_radius*max_radius+1.0;`: a 32-bit `int`
product, converted to `double`, plus `1.0` in `double`, converted to `float`. -/
def d2_init (max_radius : Int) : ℚ :=
  fl 24 (fl 53 (((wrap32 (max_radius * max_radius) : Int) : ℚ) + 1))

/-- The value of the `float` variable `d2` when the radius loop of `get_SDF_radial` ends,
with `v = fontmap[x+y*w]`. -/
def get_SDF_d2 (fontmap : Int → Nat) (w h x y max_radius : Int) : ℚ :=
  radialLoop fontmap (fontmap (x + y * w)) w h x y max_radius max_radius.toNat 1
    (d2_init max_radius)

/-- The last three statements of `get_SDF_radial` on a finite `float` `a`:
`if( d2 < 0.0 ) d2 = 0.0; if( d2 > 255.0 ) d2 = 255.0; return (unsigned char)(d2 + 0.5);`
(the sum is a `double` operation, the conversion truncates). -/
def clampByte (a : ℚ) : Nat :=
  let a := if a < 0 then 0 else a
  let a := if a > 255 then 255 else a
  (⌊fl 53 (a + 0.5)⌋).toNat

/-- The tail of `get_SDF_radial` after the radius loop, in the arithmetic of the code:
`d2 = sqrtf( d2 ); if( v==0 ) d2 = -d2;`, then `d2 *= 127.5 / max_radius;` (the quotient
and the product are `double` operations, the product is stored to the `float`),
`d2 += 127.5;` (a `double` sum stored to the `float`), the clamp to `[0.0, 255.0]` and
`(unsigned char)(d2 + 0.5)` (a `double` sum, truncated).  A negative `d2`, which only a
wrapped `max_radius*max_radius` produces, makes `sqrtf` return a NaN, both clamp tests
fail and the conversion of the NaN gives the byte 0.  For `max_radius == 0` the quotient
is `+inf`: the product is a NaN when `d2` is 0 and an infinity otherwise, which the clamp
turns into 0 or 255. -/
def sdf_byte (v : Nat) (d2 : ℚ) (max_radius : Int) : Nat :=
  if d2 < 0 then 0
  else if max_radius = 0 then (if v = 0 ∨ d2 = 0 then 0 else 255)
  else
    let t := sqrtF32 d2
    let t := if v = 0 then -t else t
    let c := fl 53 (127.5 / (max_radius : ℚ))
    let m := fl 24 (fl 53 (t * c))
    let a := fl 24 (fl 53 (m + 127.5))
    clampByte a

/-- Function `get_SDF_radial( fontmap, w, h, x, y, max_radius )`. -/
def get_SDF_radial (fontmap : Int → Nat) (w h x y max_radius : Int) : Nat :=
  sdf_byte (fontmap (x + y * w)) (get_SDF_d2 fontmap w h x y max_radius) max_radius

/-! ### `get_SDF_radial` over exact arithmetic

The same function with every `int` and `float` operation replaced by the exact operation
on integers and reals: the reading "arithmetic taken over exact reals, rounding as
`floor(v + 0.5)`" of the specification, and the reference the code's arithmetic is
compared with. -/

/-- The pixel test over exact integers: `nd2 = nx*nx+ny*ny; if( nd2 < d2 ) d2 = nd2;`. -/
def checkPixel_exact (fontmap : Int → Nat) (v : Nat) (idx nx ny d2 : Int) : Int :=
  if fontmap idx ≠ v then
    let nd2 := nx * nx + ny * ny
    if nd2 < d2 then nd2 else d2
  else d2

/-- The north and south loop over exact integers. -/
def scanRow_exact (fontmap : Int → Nat) (v : Nat) (x y line : Int) :
    Nat → Int → Int → Int → Int
  | 0, _, _, d2 => d2
  | n + 1, i, idx, d2 =>
    scanRow_exact fontmap v x y line n (i + 1) (idx + 1)
      (checkPixel_exact fontmap v idx (i - x) (line - y) d2)

/-- The west and east loop over exact integers. -/
def scanCol_exact (fontmap : Int → Nat) (v : Nat) (w x y line : Int) :
    Nat → Int → Int → Int → Int
  | 0, _, _, d2 => d2
  | n + 1, i, idx, d2 =>
    scanCol_exact fontmap v w x y line n (i + 1) (idx + w)
      (checkPixel_exact fontmap v idx (line - x) (i - y) d2)

/-- The north and south blocks over exact integers. -/
def rowEdge_exact (fontmap : Int → Nat) (v : Nat) (w h x y radius line d2 : Int) : Int :=
  if 0 ≤ line ∧ line < h then
    let lo := x - radius
    let hi := x + radius
    let lo := if lo < 0 then 0 else lo
    let hi := if hi ≥ w then w - 1 else hi
    scanRow_exact fontmap v x y line (hi - lo + 1).toNat lo (line * w + lo) d2
  else d2

/-- The west and east blocks over exact integers. -/
def colEdge_exact (fontmap : Int → Nat) (v : Nat) (w h x y radius line d2 : Int) : Int :=
  if 0 ≤ line ∧ line < w then
    let lo := y - radius + 1
    let hi := y + radius - 1
    let lo := if lo < 0 then 0 else lo
    let hi := if hi ≥ h then h - 1 else hi
    scanCol_exact fontmap v w x y line (hi - lo + 1).toNat lo (lo * w + line) d2
  else d2

/-- One iteration of the radius loop over exact integers. -/
def ringStep_exact (fontmap : Int → Nat) (v : Nat) (w h x y radius d2 : Int) : Int :=
  let d2 := rowEdge_exact fontmap v w h x y radius (y - radius) d2
  let d2 := rowEdge_exact fontmap v w h x y radius (y + radius) d2
  let d2 := colEdge_exact fontmap v w h x y radius (x - radius) d2
  colEdge_exact fontmap v w h x y radius (x + radius) d2

/-- The radius loop over exact integers. -/
def radialLoop_exact (fontmap : Int → Nat) (v : Nat) (w h x y max_radius : Int) :
    Nat → Int → Int → Int
  | 0, _, d2 => d2
  | n + 1, radius, d2 =>
    if radius ≤ max_radius ∧ radius * radius < d2 then
      radialLoop_exact fontmap v w h x y max_radius n (radius + 1)
        (ringStep_exact fontmap v w h x y radius d2)
    else d2

/-- The squared distance at the end of the radius loop over exact integers, started at
`max_radius^2 + 1`. -/
def get_SDF_d2_exact (fontmap : Int → Nat) (w h x y max_radius : Int) : Int :=
  radialLoop_exact fontmap (fontmap (x + y * w)) w h x y max_radius max_radius.toNat 1
    (max_radius * max_radius + 1)

/-- Least natural number whose square is at least `n`. -/
def ceilSqrt (n : Nat) : Nat :=
  if Nat.sqrt n * Nat.sqrt n = n then Nat.sqrt n else Nat.sqrt n + 1

/-- The byte mapping over exact reals: `sqrt(d2)`, negated for a background centre, times
`127.5 / max_radius`, plus `127.5`, clamped to `[0, 255]`, then `floor(. + 0.5)`.  With
`s = sqrt(d2) * 255 / (2*max_radius) = sqrt(65025 * d2) / (2*max_radius)` the result is
`floor(128 + s)` capped at 255 for a foreground centre and `floor(128 - s) = 128 - ceil(s)`
floored at 0 for a background one; `floor(s)` and `ceil(s)` are computed from the integer
square root (`sdf_byte_exact_eq_real` relates this to the real-number formula). -/
def sdf_byte_exact (v : Nat) (d2 max_radius : Int) : Nat :=
  let n := (65025 * d2).toNat
  let r2 := (2 * max_radius).toNat
  if v = 0 then 128 - (ceilSqrt n + r2 - 1) / r2
  else min 255 (128 + Nat.sqrt n / r2)

/-- Property "`d` is the smaller of `d0` and the least squared distance from `(x, y)` to
a pixel of the set `S`". -/
def IsMinDist (S : Int → Int → Prop) (x y d0 d : Int) : Prop :=
  d ≤ d0 ∧ (∀ i j, S i j → d ≤ (i - x) * (i - x) + (j - y) * (j - y)) ∧
    (d = d0 ∨ ∃ i j, S i j ∧ d = (i - x) * (i - x) + (j - y) * (j - y))

/-- Pixels of the `w x h` raster whose value differs from `v` and whose square-ring
(Chebyshev) distance from `(x, y)` is at least `lo` and less than `hi`. -/
def Differs (fontmap : Int → Nat) (v : Nat) (w h x y lo hi : Int) (i j : Int) : Prop :=
  0 ≤ i ∧ i < w ∧ 0 ≤ j ∧ j < h ∧ fontmap (j * w + i) ≠ v ∧
    lo ≤ max |i - x| |j - y| ∧ max |i - x| |j - y| < hi

/-- Squared distances from `(x, y)` to the pixels of the `w x h` raster whose value
differs from the centre's and whose square-ring distance `max(|i-x|, |j-y|)` lies in
`[1, max_radius]`, row by row. -/
def ringCandidates (fontmap : Int → Nat) (w h x y max_radius : Int) : List Int :=
  (List.range h.toNat).flatMap fun (j : Nat) =>
    (List.range w.toNat).filterMap fun (i : Nat) =>
      if fontmap ((j : Int) * w + (i : Int)) ≠ fontmap (x + y * w) ∧
          1 ≤ max |(i : Int) - x| |(j : Int) - y| ∧
          max |(i : Int) - x| |(j : Int) - y| ≤ max_radius then
        some (((i : Int) - x) * ((i : Int) - x) + ((j : Int) - y) * ((j : Int) - y))
      else none

/-- The exhaustive search as the specification words it: the minimum of
`(i-x)^2 + (j-y)^2` over all in-bounds pixels with `1 <= max(|i-x|,|j-y|) <= max_radius`
whose value differs from the centre's, or `max_radius^2 + 1` if there is no such pixel. -/
def exhaustive_d2 (fontmap : Int → Nat) (w h x y max_radius : Int) : Int :=
  match (ringCandidates fontmap w h x y max_radius).min? with
  | some m => m
  | none => max_radius * max_radius + 1

/-! ### `gen_pack_list` -/

/-- What `load_glyph` leaves in `ft_face->glyph` when it succeeds: the fields of the
rendered monochrome bitmap and the metrics that `gen_pack_list` and the compositing
loop read. -/
structure Glyph where
  width : Int
  rows : Int
  pitch : Int
  buffer : Int → Nat
  bitmap_left : Int
  bitmap_top : Int
  advance_x : Int

/-- The body of the loop of `gen_pack_list` for a code whose glyph loaded: the entry
`add_me` pushed on `packed_glyphs`.  `sdfw = sw / scaler` and `sdfh = sh / scaler` are
C++ integer divisions of non-negative numbers. -/
def glyphEntry (code : Int) (g : Glyph) : sdf_glyph :=
  let w := g.width
  let h := g.rows
  let sw := w + scaler * 8
  let sh := h + scaler * 8
  let sdfw := sw / scaler
  let sdfh := sh / scaler
  { ID := code, width := sdfw, height := sdfh, x := -1, y := -1,
    xoff := (g.bitmap_left : ℚ) / (scaler : ℚ) - 3,
    yoff := (g.bitmap_top : ℚ) / (scaler : ℚ) + 3,
    xadv := (g.advance_x : ℚ) / 64 / (scaler : ℚ) }

/-- The loop of `gen_pack_list` over `render_list`, threading `rectangle_info` and
`packed_glyphs`.  `face code` is `load_glyph( ft_face, code )` at the pixel size in
force: `none` stands for the return value `-1` (no charmap yields a glyph), on which
the loop `continue`s. -/
def packListLoop (face : Int → Option Glyph) :
    List Int → List Int × List sdf_glyph → List Int × List sdf_glyph
  | [], acc => acc
  | code :: rest, (rectangle_info, packed_glyphs) =>
    match face code with
    | none => packListLoop face rest (rectangle_info, packed_glyphs)
    | some g =>
      let add_me := glyphEntry code g
      packListLoop face rest
        (rectangle_info ++ [add_me.width, add_me.height], packed_glyphs ++ [add_me])

/-- Assignment `packed_glyphs[idx].x = px; packed_glyphs[idx].y = py;`. -/
def setXY : List sdf_glyph → Nat → Int → Int → List sdf_glyph
  | [], _, _, _ => []
  | g :: gs, 0, px, py => { g with x := px, y := py } :: gs
  | g :: gs, n + 1, px, py => g :: setXY gs n px py

/-- The loop `for( i = 0; i < lim; i += 4 )` over the packer's output
`index, x, y, rotated, ...` that fills in the coordinates.  The packer emits whole groups
of four and indices of existing glyphs; a trailing partial group or an index past the
end, on which the source would read or write out of bounds, changes nothing here. -/
def populate : List Int → List sdf_glyph → List sdf_glyph
  | idx :: px :: py :: _ :: rest, glyphs => populate rest (setXY glyphs idx.toNat px py)
  | _, glyphs => glyphs

/-- Function `gen_pack_list( ft_face, pixel_size, pack_tex_size, render_list, packed_glyphs )`:
the returned flag and the final content of `packed_glyphs`.  `face` is the glyph source
by pixel size (`FT_Set_Pixel_Sizes( ft_face, pixel_size * scaler, 0 )`) and character
code; `pack` is `BinPacker::Pack`, mapping the rectangle list, the page size and the
rotation flag to the list of pages. -/
def gen_pack_list (face : Int → Int → Option Glyph)
    (pack : List Int → Int → Bool → List (List Int))
    (pixel_size pack_tex_size : Int) (render_list : List Int) : Bool × List sdf_glyph :=
  let acc := packListLoop (face (pixel_size * scaler)) render_list ([], [])
  match pack acc.1 pack_tex_size false with
  | [page] => (true, populate page acc.2)
  | _ => (false, acc.2)

/-! ### Compositing -/

/-- Body of the inner compositing loop of `render_signed_distance_font`: the byte
computed by `get_SDF_radial` is stored at `pd_idx` and copied to the next three bytes. -/
def writePixel (smooth_buf : Int → Nat) (sw sh sdfx sdfy texture_size j i : Int)
    (pdata : Int → Nat) : Int → Nat :=
  let pd_idx := (i + sdfx + (j + sdfy) * texture_size) * 4
  let p0 := Function.update pdata pd_idx
    (get_SDF_radial smooth_buf sw sh (i * scaler + scaler / 2) (j * scaler + scaler / 2)
      (2 * scaler))
  let p1 := Function.update p0 (pd_idx + 1) (p0 pd_idx)
  let p2 := Function.update p1 (pd_idx + 2) (p1 pd_idx)
  Function.update p2 (pd_idx + 3) (p2 pd_idx)

/-- The loop `for( int i = 0; i < sdfw; ++i )`; the first argument is the number of
iterations left. -/
def compositeRow (smooth_buf : Int → Nat) (sw sh sdfx sdfy texture_size j : Int) :
    Nat → Int → (Int → Nat) → (Int → Nat)
  | 0, _, pdata => pdata
  | n + 1, i, pdata =>
    compositeRow smooth_buf sw sh sdfx sdfy texture_size j n (i + 1)
      (writePixel smooth_buf sw sh sdfx sdfy texture_size j i pdata)

/-- The loop `for( int j = 0; j < sdfh; ++j )` around the row loop. -/
def compositeRows (smooth_buf : Int → Nat) (sw sh sdfw sdfx sdfy texture_size : Int) :
    Nat → Int → (Int → Nat) → (Int → Nat)
  | 0, _, pdata => pdata
  | n + 1, j, pdata =>
    compositeRows smooth_buf sw sh sdfw sdfx sdfy texture_size n (j + 1)
      (compositeRow smooth_buf sw sh sdfx sdfy texture_size j sdfw.toNat 0 pdata)

/-- The per-glyph compositing loop: the glyph of output size `sdfw x sdfh` placed at
`(sdfx, sdfy)` is written into the atlas `pdata` of row length `texture_size`. -/
def compositeGlyph (smooth_buf : Int → Nat) (sw sh sdfw sdfh sdfx sdfy texture_size : Int)
    (pdata : Int → Nat) : Int → Nat :=
  compositeRows smooth_buf sw sh sdfw sdfx sdfy texture_size sdfh.toNat 0 pdata

/-! ### The padded glyph buffer -/

/-- The pixel `(i, j)` of the packed monochrome bitmap as the copy loop reads it:
`255 * ((buf[j * p + (i>>3)] >> (7 - (i & 7))) & 1)`, for `i >= 0`. -/
def glyphPixel (g : Glyph) (i j : Int) : Nat :=
  255 * ((g.buffer (j * g.pitch + i / 8) >>> (7 - i % 8).toNat) &&& 1)

/-- Body of the copy loop: `smooth_buf[i + scaler*2 + (j + scaler*2) * sw] = value;`. -/
def copyPixel (g : Glyph) (sw j i : Int) (smooth_buf : Int → Nat) : Int → Nat :=
  Function.update smooth_buf (i + scaler * 2 + (j + scaler * 2) * sw) (glyphPixel g i j)

/-- The loop `for( int i = 0; i < w; ++i )` of the copy; the first argument is the number
of iterations left. -/
def copyRow (g : Glyph) (sw j : Int) : Nat → Int → (Int → Nat) → (Int → Nat)
  | 0, _, smooth_buf => smooth_buf
  | n + 1, i, smooth_buf => copyRow g sw j n (i + 1) (copyPixel g sw j i smooth_buf)

/-- The loop `for( int j = 0; j < h; ++j )` of the copy. -/
def copyRows (g : Glyph) (sw : Int) : Nat → Int → (Int → Nat) → (Int → Nat)
  | 0, _, smooth_buf => smooth_buf
  | n + 1, j, smooth_buf =>
    copyRows g sw n (j + 1) (copyRow g sw j g.width.toNat 0 smooth_buf)

/-- Width `sw = w + scaler * 8` of the holding buffer. -/
def paddedWidth (g : Glyph) : Int := g.width + scaler * 8

/-- Height `sh = h + scaler * 8` of the holding buffer. -/
def paddedHeight (g : Glyph) : Int := g.rows + scaler * 8

/-- The holding buffer `smooth_buf[sw * sh]` of `render_signed_distance_font` before the
SDF is computed: every element is set to 0, then the glyph is copied in.  The buffer is
a function of the index; only the indices in `[0, sw * sh)` exist in the source. -/
def smooth_buf (g : Glyph) : Int → Nat :=
  copyRows g (paddedWidth g) g.rows.toNat 0 (fun _ => 0)

/-! ### Indices read by `get_SDF_radial` -/

/-- Indices of `fontmap` read by a north or south loop of `n` iterations starting at
`idx` (`++idx`). -/
def scanRowReads : Nat → Int → List Int
  | 0, _ => []
  | n + 1, idx => idx :: scanRowReads n (idx + 1)

/-- Indices of `fontmap` read by a west or east loop of `n` iterations starting at `idx`
(`idx += w`). -/
def scanColReads (w : Int) : Nat → Int → List Int
  | 0, _ => []
  | n + 1, idx => idx :: scanColReads w n (idx + w)

/-- Indices read by the north or south block, with the guards and clamps of `rowEdge`. -/
def rowEdgeReads (w h x radius line : Int) : List Int :=
  if 0 ≤ line ∧ line < h then
    let lo := x - radius
    let hi := x + radius
    let lo := if lo < 0 then 0 else lo
    let hi := if hi ≥ w then w - 1 else hi
    scanRowReads (hi - lo + 1).toNat (line * w + lo)
  else []

/-- Indices read by the west or east block, with the guards and clamps of `colEdge`. -/
def colEdgeReads (w h y radius line : Int) : List Int :=
  if 0 ≤ line ∧ line < w then
    let lo := y - radius + 1
    let hi := y + radius - 1
    let lo := if lo < 0 then 0 else lo
    let hi := if hi ≥ h then h - 1 else hi
    scanColReads w (hi - lo + 1).toNat (lo * w + line)
  else []

/-- Indices read in one iteration of the radius loop, in the order north, south, west,
east. -/
def ringReads (w h x y radius : Int) : List Int :=
  rowEdgeReads w h x radius (y - radius) ++ rowEdgeReads w h x radius (y + radius) ++
    colEdgeReads w h y radius (x - radius) ++ colEdgeReads w h y radius (x + radius)

/-- Indices read by the radius loop; it runs the same iterations as `radialLoop`, the
running `d2` being updated by `ringStep`. -/
def radialReads (fontmap : Int → Nat) (v : Nat) (w h x y max_radius : Int) :
    Nat → Int → ℚ → List Int
  | 0, _, _ => []
  | n + 1, radius, d2 =>
    if radius ≤ max_radius ∧ fl 24 ((wrap32 (radius * radius) : Int) : ℚ) < d2 then
      ringReads w h x y radius ++
        radialReads fontmap v w h x y max_radius n (radius + 1)
          (ringStep fontmap v w h x y radius d2)
    else []

/-- Every index at which a call `get_SDF_radial( fontmap, w, h, x, y, max_radius )` reads
`fontmap`, in order: the centre `fontmap[x+y*w]`, then the rings. -/
def get_SDF_reads (fontmap : Int → Nat) (w h x y max_radius : Int) : List Int :=
  (x + y * w) ::
    radialReads fontmap (fontmap (x + y * w)) w h x y max_radius max_radius.toNat 1
      (d2_init max_radius)

/-! ### The two-value scan of `render_signed_distance_image` -/

/-- Variables of the scan: `val` (the second value, `-1` until one is seen),
`needs_threshold`, `vmin` and `vmax`. -/
structure ThresholdScan where
  val : Int
  needs_threshold : Bool
  vmin : Int
  vmax : Int
deriving DecidableEq

/-- Body of the scan loop for the pixel value `b = img_data[i]`, with `val0 = img_data[0]`. -/
def thresholdStep (val0 : Int) (s : ThresholdScan) (b : Nat) : ThresholdScan :=
  let s1 : ThresholdScan :=
    if (b : Int) ≠ val0 then
      if s.val < 0 then { s with val := (b : Int) }
      else { s with needs_threshold := decide (s.val ≠ (b : Int)) }
    else s
  let s2 : ThresholdScan := if (b : Int) < s1.vmin then { s1 with vmin := (b : Int) } else s1
  if (b : Int) > s2.vmax then { s2 with vmax := (b : Int) } else s2

/-- The scan `for( int i = 0; i < w*h; ++i )` over the selected channel `img_data`
(of `w*h` bytes, non-empty in the source). -/
def thresholdScan (img_data : List Nat) : ThresholdScan :=
  let val0 : Int := ((img_data.headD 0 : Nat) : Int)
  img_data.foldl (thresholdStep val0)
    { val := -1, needs_threshold := false, vmin := val0, vmax := val0 }

/-- The channel handed to `get_SDF_radial`: when `needs_threshold` is set the user's
threshold `thresh` is clamped into `(vmin, vmax]` and every byte becomes 0 or 255,
otherwise the channel is passed on as it is. -/
def thresholdChannel (img_data : List Nat) (thresh : Int) : List Nat :=
  let s := thresholdScan img_data
  if s.needs_threshold then
    let thresh := if thresh ≤ s.vmin then s.vmin + 1 else if thresh > s.vmax then s.vmax
      else thresh
    img_data.map fun b => if (b : Int) < thresh then 0 else 255
  else img_data

/-! ## Theorems -/

/-! ### Bounded loops -/

theorem whileLoop_mono {σ : Type} (c : σ → Bool) (b : σ → σ) (n : Nat) :
    ∀ (s r : σ), whileLoop c b n s = some r → ∀ m, n ≤ m → whileLoop c b m s = some r := by
  induction n with
  | zero => intro s r h; simp [whileLoop] at h
  | succ n ih =>
    intro s r h m hm
    obtain ⟨k, rfl⟩ : ∃ k, m = k + 1 := ⟨m - 1, by omega⟩
    by_cases hc : c s = true
    · simp only [whileLoop, hc, if_true] at h ⊢
      exact ih _ _ h k (by omega)
    · simp only [whileLoop, hc] at h ⊢
      exact h

theorem whileLoop_inv {σ : Type} (c : σ → Bool) (b : σ → σ) (I : σ → Prop)
    (hI : ∀ s, I s → c s = true → I (b s)) (n : Nat) :
    ∀ (s r : σ), I s → whileLoop c b n s = some r → I r ∧ c r = false := by
  induction n with
  | zero => intro s r _ h; simp [whileLoop] at h
  | succ n ih =>
    intro s r hs h
    by_cases hc : c s = true
    · simp only [whileLoop, hc, if_true] at h
      exact ih _ _ (hI s hs hc) h
    · simp only [whileLoop, hc] at h
      have hr : s = r := by simpa using h
      subst hr
      exact ⟨hs, by simpa using hc⟩

theorem whileLoop_count {σ : Type} (c : σ → Bool) (b : σ → σ) (f : σ → Nat)
    (hf : ∀ s, f (b s) ≤ f s + 1) (n : Nat) :
    ∀ (s r : σ), whileLoop c b n s = some r → f r ≤ f s + n := by
  induction n with
  | zero => intro s r h; simp [whileLoop] at h
  | succ n ih =>
    intro s r h
    by_cases hc : c s = true
    · simp only [whileLoop, hc, if_true] at h
      have := ih _ _ h
      have := hf s
      omega
    · simp only [whileLoop, hc] at h
      have hr : s = r := by simpa using h
      subst hr
      omega

theorem whileLoop_exit {σ : Type} (c : σ → Bool) (b : σ → σ) (n : Nat) (s : σ)
    (hc : c s = false) : whileLoop c b (n + 1) s = some s := by
  simp [whileLoop, hc]

theorem whileLoop_step {σ : Type} (c : σ → Bool) (b : σ → σ) (n : Nat) (s : σ)
    (hc : c s = true) : whileLoop c b (n + 1) s = whileLoop c b n (b s) := by
  simp [whileLoop, hc]

theorem whileLoop_skip {σ : Type} (c : σ → Bool) (b : σ → σ) (n : Nat) (s r : σ)
    (hc : c s = false) (h : whileLoop c b n s = some r) : r = s := by
  cases n with
  | zero => simp [whileLoop] at h
  | succ n =>
    simp [whileLoop, hc] at h
    exact h.symm

/-! ### 32-bit arithmetic -/

theorem wrap32_of_range (n : Int) (h1 : -2147483648 ≤ n) (h2 : n < 2147483648) :
    wrap32 n = n := by
  unfold wrap32
  omega

theorem wrap32_range (n : Int) : -2147483648 ≤ wrap32 n ∧ wrap32 n < 2147483648 := by
  unfold wrap32
  omega

theorem pow_two_int_pos (j : Nat) : (1 : Int) ≤ 2 ^ j := by
  have : (0 : Int) < 2 ^ j := by positivity
  omega

theorem pow_two_le_27 (j : Nat) (hj : j ≤ 27) : (8 : Int) * 2 ^ j ≤ 1073741824 := by
  have h : (2 : Int) ^ j ≤ 2 ^ 27 := pow_le_pow_right₀ (by norm_num) hj
  have e : (2 : Int) ^ 27 = 134217728 := by norm_num
  omega

/-! ### Termination of the three loops -/

theorem doubleBody_sz (gen : Int → Bool × List sdf_glyph) (s : SearchState) (i : Nat)
    (hi : i ≤ 27) (hs : s.sz = 4 * 2 ^ i) : (doubleBody gen s).sz = 8 * 2 ^ i := by
  have h1 := pow_two_int_pos i
  have h2 := pow_two_le_27 i hi
  show wrap32 (s.sz * 2) = 8 * 2 ^ i
  rw [hs, wrap32_of_range _ (by omega) (by omega)]
  ring

theorem doubling_terminates (gen : Int → Bool × List sdf_glyph) (k : Nat) :
    ∀ (i : Nat) (s : SearchState), i + k ≤ 27 → s.sz = 4 * 2 ^ i →
      (gen (8 * 2 ^ (i + k))).1 = false →
      ∃ n r, whileLoop (fun s => s.keep_going) (doubleBody gen) n (doubleBody gen s) = some r := by
  induction k with
  | zero =>
    intro i s hi hs h
    refine ⟨1, doubleBody gen s, whileLoop_exit _ _ 0 _ ?_⟩
    have hsz := doubleBody_sz gen s i (by omega) hs
    show ((gen (doubleBody gen s).sz).1) = false
    rw [hsz]
    simpa using h
  | succ k ih =>
    intro i s hi hs h
    by_cases hk : (doubleBody gen s).keep_going = true
    · have hsz := doubleBody_sz gen s i (by omega) hs
      obtain ⟨n, r, hr⟩ := ih (i + 1) (doubleBody gen s) (by omega)
        (by rw [hsz, pow_succ]; ring)
        (by
          have : i + 1 + k = i + (k + 1) := by omega
          rw [this]; exact h)
      exact ⟨n + 1, r, by rw [whileLoop_step _ _ _ _ hk]; exact hr⟩
    · exact ⟨1, doubleBody gen s, whileLoop_exit _ _ 0 _ (by simpa using hk)⟩

theorem bisect_terminates (gen : Int → Bool × List sdf_glyph) (p : Nat) :
    ∀ s : SearchState, 0 ≤ s.sz_step → s.sz_step.toNat ≤ p →
      ∃ n r, whileLoop (fun t => t.sz_step != 0) (bisectBody gen) n s = some r := by
  induction p with
  | zero =>
    intro s h0 hp
    have : s.sz_step = 0 := by omega
    exact ⟨1, s, whileLoop_exit _ _ 0 _ (by simp [this])⟩
  | succ p ih =>
    intro s h0 hp
    by_cases hz : s.sz_step = 0
    · exact ⟨1, s, whileLoop_exit _ _ 0 _ (by simp [hz])⟩
    · obtain ⟨n, r, hr⟩ := ih (bisectBody gen s)
        (by simp only [bisectBody]; omega) (by simp only [bisectBody]; omega)
      exact ⟨n + 1, r, by rw [whileLoop_step _ _ _ _ (by simpa using hz)]; exact hr⟩

/-- With a negative step the second loop never ends: `sz_step >>= 1` keeps a negative
step negative (`-1 >> 1` is `-1`), so `while( sz_step )` stays true. -/
theorem bisect_diverges (gen : Int → Bool × List sdf_glyph) (n : Nat) :
    ∀ s : SearchState, s.sz_step < 0 →
      whileLoop (fun t => t.sz_step != 0) (bisectBody gen) n s = none := by
  induction n with
  | zero => intro s _; rfl
  | succ n ih =>
    intro s hs
    have hc : (fun t : SearchState => t.sz_step != 0) s = true := by
      have : s.sz_step ≠ 0 := by omega
      simpa using this
    rw [whileLoop_step (fun t : SearchState => t.sz_step != 0) (bisectBody gen) n s hc]
    exact ih _ (by simp only [bisectBody]; omega)

theorem fallback_terminates (gen : Int → Bool × List sdf_glyph) (p : Nat) :
    ∀ s : SearchState, s.sz ≤ 2147483647 → (s.sz - 1).toNat ≤ p →
      ∃ n r, whileLoop (fun t => !t.keep_going && decide (t.sz > 1)) (fallbackBody gen) n s
        = some r := by
  induction p with
  | zero =>
    intro s _ hp
    exact ⟨1, s, whileLoop_exit _ _ 0 _ (by
      have : ¬ s.sz > 1 := by omega
      simp [this])⟩
  | succ p ih =>
    intro s hmax hp
    by_cases hc : (!s.keep_going && decide (s.sz > 1)) = true
    · have hgt : s.sz > 1 := by
        simp only [Bool.and_eq_true, decide_eq_true_eq] at hc
        exact hc.2
      have hsz : (fallbackBody gen s).sz = s.sz - 1 := by
        show wrap32 (s.sz - 1) = s.sz - 1
        exact wrap32_of_range _ (by omega) (by omega)
      obtain ⟨n, r, hr⟩ := ih (fallbackBody gen s) (by omega) (by omega)
      exact ⟨n + 1, r, by
        rw [whileLoop_step (fun t : SearchState => !t.keep_going && decide (t.sz > 1))
          (fallbackBody gen) n s hc]
        exact hr⟩
    · exact ⟨1, s, whileLoop_exit _ _ 0 _ (by simpa using hc)⟩

/-! ### Invariants of the three loops, for an arbitrary pack oracle -/

theorem fresh_doubleBody (gen : Int → Bool × List sdf_glyph) (s : SearchState) :
    Fresh gen (doubleBody gen s) := by
  simp [Fresh, doubleBody]

theorem fresh_bisectBody (gen : Int → Bool × List sdf_glyph) (s : SearchState) :
    Fresh gen (bisectBody gen s) := by
  simp [Fresh, bisectBody]

theorem fresh_fallbackBody (gen : Int → Bool × List sdf_glyph) (s : SearchState) :
    Fresh gen (fallbackBody gen s) := by
  simp [Fresh, fallbackBody]

/-- Exit of the first loop.  The sizes tried are 8, 16, ..., `2^30`, then `INT_MIN`
(the wrapped `2^31`), then 0 for ever; the loop is left at the first of them at which the
pack attempt fails, all earlier ones having succeeded. -/
theorem doublingPhase_spec (gen : Int → Bool × List sdf_glyph) (n : Nat) (r : SearchState)
    (h : doublingPhase gen n = some r) :
    Fresh gen r ∧ r.keep_going = false ∧
      ((∃ j : Nat, j ≤ 27 ∧ r.sz = 8 * 2 ^ j ∧ (∀ i, i < j → (gen (8 * 2 ^ i)).1 = true) ∧
          ∀ a ∈ r.attempts, 1 ≤ a ∧ a ≤ r.sz) ∨
        (r.sz = -2147483648 ∧ ∀ i, i ≤ 27 → (gen (8 * 2 ^ i)).1 = true) ∨
        (r.sz = 0 ∧ (∀ i, i ≤ 27 → (gen (8 * 2 ^ i)).1 = true) ∧
          (gen (-2147483648)).1 = true)) := by
  have key := whileLoop_inv (fun s : SearchState => s.keep_going) (doubleBody gen)
    (fun s => (s.sz = 4 ∧ s.keep_going = true ∧ s.attempts = []) ∨
      (Fresh gen s ∧
        ((∃ j : Nat, j ≤ 27 ∧ s.sz = 8 * 2 ^ j ∧ (∀ i, i < j → (gen (8 * 2 ^ i)).1 = true) ∧
            ∀ a ∈ s.attempts, 1 ≤ a ∧ a ≤ s.sz) ∨
          (s.sz = -2147483648 ∧ ∀ i, i ≤ 27 → (gen (8 * 2 ^ i)).1 = true) ∨
          (s.sz = 0 ∧ (∀ i, i ≤ 27 → (gen (8 * 2 ^ i)).1 = true) ∧
            (gen (-2147483648)).1 = true))))
    (by
      intro s hs hc
      have hc' : s.keep_going = true := hc
      right
      refine ⟨fresh_doubleBody gen s, ?_⟩
      have hszdef : (doubleBody gen s).sz = wrap32 (s.sz * 2) := rfl
      have hattdef : (doubleBody gen s).attempts = wrap32 (s.sz * 2) :: s.attempts := rfl
      rcases hs with ⟨h4, _, hnil⟩ | ⟨hfr, hE⟩
      · left
        have e8 : wrap32 (s.sz * 2) = 8 := by
          rw [h4]; exact wrap32_of_range _ (by norm_num) (by norm_num)
        refine ⟨0, by omega, by rw [hszdef, e8]; norm_num,
          fun i hi => absurd hi (Nat.not_lt_zero i), ?_⟩
        intro a ha
        rw [hattdef, hnil, e8, List.mem_singleton] at ha
        rw [hszdef, e8, ha]
        omega
      · rcases hE with ⟨j, hj, hsz, hall, hatt⟩ | ⟨hsz, hall⟩ | ⟨hsz, hall, hmin⟩
        · have hfit : (gen (8 * 2 ^ j)).1 = true := by rw [← hsz, ← hfr.1]; exact hc'
          have hp := pow_two_int_pos j
          have hb := pow_two_le_27 j hj
          by_cases hj27 : j = 27
          · right; left
            have e : wrap32 (s.sz * 2) = -2147483648 := by
              rw [hsz, hj27]; unfold wrap32; norm_num
            refine ⟨by rw [hszdef, e], ?_⟩
            intro i hi
            by_cases hij : i = j
            · rw [hij]; exact hfit
            · exact hall i (by omega)
          · left
            have hb' := pow_two_le_27 (j + 1) (by omega)
            have e : wrap32 (s.sz * 2) = 8 * 2 ^ (j + 1) := by
              rw [hsz, wrap32_of_range _ (by omega) (by rw [pow_succ] at hb'; omega), pow_succ]
              ring
            refine ⟨j + 1, by omega, by rw [hszdef, e], ?_, ?_⟩
            · intro i hi
              by_cases hij : i = j
              · rw [hij]; exact hfit
              · exact hall i (by omega)
            · intro a ha
              rw [hattdef, List.mem_cons] at ha
              rw [hszdef, e]
              rw [pow_succ] at hb' ⊢
              rcases ha with ha | ha
              · rw [ha, e, pow_succ]; omega
              · have := hatt a ha; omega
        · right; right
          have e : wrap32 (s.sz * 2) = 0 := by rw [hsz]; unfold wrap32; norm_num
          refine ⟨by rw [hszdef, e], hall, ?_⟩
          rw [← hsz, ← hfr.1]; exact hc'
        · right; right
          have e : wrap32 (s.sz * 2) = 0 := by rw [hsz]; unfold wrap32; norm_num
          exact ⟨by rw [hszdef, e], hall, hmin⟩)
    n searchInit r (Or.inl ⟨rfl, rfl, rfl⟩) h
  obtain ⟨hI, hc⟩ := key
  have hc' : r.keep_going = false := hc
  rcases hI with ⟨_, ht, _⟩ | ⟨hf, hE⟩
  · rw [hc'] at ht; cases ht
  · exact ⟨hf, hc', hE⟩

/-- When some size `8 * 2^k <= 2^30` of the doubling sequence fails, the first loop is
left at the first such size, without wrapping. -/
theorem doublingPhase_pos (gen : Int → Bool × List sdf_glyph) (n : Nat) (r : SearchState)
    (k : Nat) (hk : k ≤ 27) (hfail : (gen (8 * 2 ^ k)).1 = false)
    (h : doublingPhase gen n = some r) :
    Fresh gen r ∧ r.keep_going = false ∧
      ∃ j : Nat, j ≤ 27 ∧ r.sz = 8 * 2 ^ j ∧ (gen (8 * 2 ^ j)).1 = false ∧
        (∀ i, i < j → (gen (8 * 2 ^ i)).1 = true) ∧ ∀ a ∈ r.attempts, 1 ≤ a ∧ a ≤ r.sz := by
  obtain ⟨hf, hkg, hE⟩ := doublingPhase_spec gen n r h
  refine ⟨hf, hkg, ?_⟩
  rcases hE with ⟨j, hj, hsz, hall, hatt⟩ | ⟨_, hall⟩ | ⟨_, hall, _⟩
  · exact ⟨j, hj, hsz, by rw [← hsz, ← hf.1]; exact hkg, hall, hatt⟩
  · have := hall k hk; rw [hfail] at this; cases this
  · have := hall k hk; rw [hfail] at this; cases this

theorem bisectBody_sz (gen : Int → Bool × List sdf_glyph) (t : SearchState) (F : Int)
    (hF : F ≤ 1073741824) (h0 : 0 ≤ t.sz_step) (h2 : 2 * t.sz_step < t.sz) (hle : t.sz ≤ F)
    (hk : t.keep_going = true → t.sz + 2 * t.sz_step ≤ F) :
    (bisectBody gen t).sz = (if t.keep_going then t.sz + t.sz_step else t.sz - t.sz_step) := by
  show wrap32 (if t.keep_going then t.sz + t.sz_step else t.sz - t.sz_step) = _
  cases hkg : t.keep_going
  · simp only [Bool.false_eq_true, if_false]
    exact wrap32_of_range _ (by omega) (by omega)
  · have := hk hkg
    simp only [if_true]
    exact wrap32_of_range _ (by omega) (by omega)

/-- The second loop, entered at a failing size `F = s.sz` with `8 <= F <= 2^30`: it ends
with `sz_step = 0`, every size it tries lies in `[2, F]`, and no addition wraps. -/
theorem bisectPhase_spec (gen : Int → Bool × List sdf_glyph) (n : Nat) (s r : SearchState)
    (hf : Fresh gen s) (hk : s.keep_going = false) (h8 : 8 ≤ s.sz) (hF : s.sz ≤ 1073741824)
    (hatt : ∀ a ∈ s.attempts, 1 ≤ a ∧ a ≤ s.sz) (h : bisectPhase gen n s = some r) :
    Fresh gen r ∧ r.sz_step = 0 ∧ 2 ≤ r.sz ∧ r.sz ≤ s.sz ∧
      ∀ a ∈ r.attempts, 1 ≤ a ∧ a ≤ s.sz := by
  have key := whileLoop_inv (fun t : SearchState => t.sz_step != 0) (bisectBody gen)
    (fun t => Fresh gen t ∧ 0 ≤ t.sz_step ∧ 2 * t.sz_step < t.sz ∧ 2 ≤ t.sz ∧ t.sz ≤ s.sz ∧
      (t.keep_going = true → t.sz + 2 * t.sz_step ≤ s.sz) ∧
      ∀ a ∈ t.attempts, 1 ≤ a ∧ a ≤ s.sz)
    (by
      intro t ⟨_, h0, h2, _, hle, hkt, hat⟩ hc
      have hne : t.sz_step ≠ 0 := by simpa using hc
      have hsz := bisectBody_sz gen t s.sz hF h0 h2 hle hkt
      have hst : (bisectBody gen t).sz_step = t.sz_step / 2 := rfl
      have hat' : (bisectBody gen t).attempts = (bisectBody gen t).sz :: t.attempts := rfl
      have hb : 2 ≤ (bisectBody gen t).sz ∧ (bisectBody gen t).sz ≤ s.sz ∧
          (bisectBody gen t).sz + 2 * (t.sz_step / 2) ≤ s.sz ∧
          2 * (t.sz_step / 2) < (bisectBody gen t).sz := by
        rw [hsz]
        cases hkg : t.keep_going
        · simp only [Bool.false_eq_true, if_false]; omega
        · have := hkt hkg
          simp only [if_true]; omega
      refine ⟨fresh_bisectBody gen t, by rw [hst]; omega, by rw [hst]; exact hb.2.2.2,
        hb.1, hb.2.1, fun _ => by rw [hst]; exact hb.2.2.1, ?_⟩
      intro a ha
      rw [hat', List.mem_cons] at ha
      rcases ha with ha | ha
      · rw [ha]; omega
      · exact hat a ha)
    n { s with sz_step := s.sz / 4 } r
    ⟨hf, by show 0 ≤ s.sz / 4; omega, by show 2 * (s.sz / 4) < s.sz; omega,
      by show 2 ≤ s.sz; omega, le_refl _,
      fun hk' => absurd (hk.symm.trans hk') (by decide), hatt⟩ h
  obtain ⟨⟨hfr, _, _, h2, hle, _, hat⟩, hc⟩ := key
  exact ⟨hfr, by simpa using hc, h2, hle, hat⟩

theorem fallbackPhase_spec (gen : Int → Bool × List sdf_glyph) (n : Nat) (s r : SearchState)
    (F : Int) (hf : Fresh gen s) (h1 : 1 ≤ s.sz) (hmax : s.sz ≤ F) (hF : F ≤ 1073741824)
    (hatt : ∀ a ∈ s.attempts, 1 ≤ a ∧ a ≤ F) (h : fallbackPhase gen n s = some r) :
    Fresh gen r ∧ 1 ≤ r.sz ∧ (r.keep_going = false → r.sz = 1) ∧
      ∀ a ∈ r.attempts, 1 ≤ a ∧ a ≤ F := by
  have key := whileLoop_inv (fun t : SearchState => !t.keep_going && decide (t.sz > 1))
    (fallbackBody gen)
    (fun t => Fresh gen t ∧ 1 ≤ t.sz ∧ t.sz ≤ F ∧ ∀ a ∈ t.attempts, 1 ≤ a ∧ a ≤ F)
    (by
      intro t ⟨_, _, hle, hat⟩ hc
      have hgt : t.sz > 1 := by
        simp only [Bool.and_eq_true, decide_eq_true_eq] at hc
        exact hc.2
      have hsz : (fallbackBody gen t).sz = t.sz - 1 := by
        show wrap32 (t.sz - 1) = t.sz - 1
        exact wrap32_of_range _ (by omega) (by omega)
      have hat' : (fallbackBody gen t).attempts = (fallbackBody gen t).sz :: t.attempts := rfl
      refine ⟨fresh_fallbackBody gen t, by omega, by omega, ?_⟩
      intro a ha
      rw [hat', List.mem_cons] at ha
      rcases ha with ha | ha
      · rw [ha]; omega
      · exact hat a ha)
    n s r ⟨hf, h1, hmax, hatt⟩ h
  obtain ⟨⟨hfr, hr1, _, hat⟩, hc⟩ := key
  refine ⟨hfr, hr1, fun hk => ?_, hat⟩
  simp only [hk, Bool.not_false, Bool.true_and, decide_eq_false_iff_not] at hc
  omega

theorem sizeSearch_phases (gen : Int → Bool × List sdf_glyph) (n : Nat) (r : SearchState)
    (h : sizeSearch gen n = some r) :
    ∃ s1 s2, doublingPhase gen n = some s1 ∧ bisectPhase gen n s1 = some s2 ∧
      fallbackPhase gen n s2 = some r := by
  simp only [sizeSearch, Option.bind_eq_some] at h
  obtain ⟨s1, h1, s2, h2, h3⟩ := h
  exact ⟨s1, s2, h1, h2, h3⟩

theorem sizeSearch_of_phases (gen : Int → Bool × List sdf_glyph) (n1 n2 n3 : Nat)
    (s1 s2 r : SearchState) (h1 : doublingPhase gen n1 = some s1)
    (h2 : bisectPhase gen n2 s1 = some s2) (h3 : fallbackPhase gen n3 s2 = some r) :
    ∀ m, n1 + n2 + n3 ≤ m → sizeSearch gen m = some r := by
  intro m hm
  have e1 : doublingPhase gen m = some s1 := whileLoop_mono _ _ n1 _ _ h1 m (by omega)
  have e2 : bisectPhase gen m s1 = some s2 := whileLoop_mono _ _ n2 _ _ h2 m (by omega)
  have e3 : fallbackPhase gen m s2 = some r := whileLoop_mono _ _ n3 _ _ h3 m (by omega)
  simp [sizeSearch, e1, e2, e3]

theorem sizeSearch_total (gen : Int → Bool × List sdf_glyph) (k : Nat) (hk : k ≤ 27)
    (h : (gen (8 * 2 ^ k)).1 = false) :
    ∃ fuel r, ∀ m, fuel ≤ m → sizeSearch gen m = some r := by
  obtain ⟨n1, s1, h1⟩ := doubling_terminates gen k 0 searchInit (by omega) (by simp [searchInit])
    (by rw [Nat.zero_add]; exact h)
  have h1' : doublingPhase gen (n1 + 1) = some s1 := by
    rw [doublingPhase, whileLoop_step (fun s : SearchState => s.keep_going) _ _ _ rfl]
    exact h1
  obtain ⟨hf1, hk1, j, hj, hsz, _, _, hatt⟩ := doublingPhase_pos gen _ _ k hk h h1'
  have hp := pow_two_int_pos j
  have hb := pow_two_le_27 j hj
  obtain ⟨n2, s2, h2⟩ := bisect_terminates gen (s1.sz / 4).toNat
    { s1 with sz_step := s1.sz / 4 } (by show 0 ≤ s1.sz / 4; omega) (le_refl _)
  obtain ⟨_, _, _, hle2, _⟩ := bisectPhase_spec gen n2 s1 s2 hf1 hk1 (by omega) (by omega)
    hatt h2
  obtain ⟨n3, r, h3⟩ := fallback_terminates gen (s2.sz - 1).toNat s2 (by omega) (le_refl _)
  exact ⟨n1 + 1 + n2 + n3, r, sizeSearch_of_phases gen _ _ _ s1 s2 r h1' h2 h3⟩

/-- Range of the sizes tried: when some size `8 * 2^k <= 2^30` of the doubling sequence
fails, the first loop stops at the first failing size `F = 8 * 2^j` of that sequence and
every size the search hands to `gen_pack_list` lies between 1 and `F`, so that no 32-bit
operation wraps. -/
theorem sizeSearch_attempts_range (gen : Int → Bool × List sdf_glyph) (fuel : Nat)
    (r : SearchState) (k : Nat) (hk : k ≤ 27) (hfail : (gen (8 * 2 ^ k)).1 = false)
    (h : sizeSearch gen fuel = some r) :
    ∃ j : Nat, j ≤ 27 ∧ (gen (8 * 2 ^ j)).1 = false ∧
      (∀ i, i < j → (gen (8 * 2 ^ i)).1 = true) ∧
      ∀ a ∈ r.attempts, 1 ≤ a ∧ a ≤ 8 * 2 ^ j := by
  obtain ⟨s1, s2, e1, e2, e3⟩ := sizeSearch_phases gen fuel r h
  obtain ⟨hf1, hk1, j, hj, hsz, hfj, hall, hatt1⟩ := doublingPhase_pos gen _ _ k hk hfail e1
  have hp := pow_two_int_pos j
  have hb := pow_two_le_27 j hj
  obtain ⟨hf2, _, h22, hle2, hatt2⟩ := bisectPhase_spec gen fuel s1 s2 hf1 hk1 (by omega)
    (by omega) hatt1 e2
  obtain ⟨_, _, _, hatt3⟩ := fallbackPhase_spec gen fuel s2 r s1.sz hf2 (by omega) hle2
    (by omega) hatt2 e3
  refine ⟨j, hj, hfj, hall, ?_⟩
  rw [← hsz]
  exact hatt3

/-! ### The search against a monotone oracle -/

theorem exists_threshold (fits : Int → Bool)
    (hmono : ∀ s s' : Int, 1 ≤ s' → s' ≤ s → fits s = true → fits s' = true)
    (hfail : ∃ f : Int, 1 ≤ f ∧ fits f = false) (h1 : fits 1 = true) :
    ∃ T : Int, 1 ≤ T ∧ ∀ s : Int, 1 ≤ s → (fits s = true ↔ s ≤ T) := by
  classical
  obtain ⟨f, hf1, hf⟩ := hfail
  have hex : ∃ n : Nat, fits ((n : Int) + 1) = false :=
    ⟨(f - 1).toNat, by
      have : (((f - 1).toNat : Nat) : Int) + 1 = f := by omega
      rw [this]; exact hf⟩
  have hspec := Nat.find_spec hex
  have hmin := fun m => Nat.find_min hex (m := m)
  generalize Nat.find hex = n0 at hspec hmin
  have hn0 : n0 ≠ 0 := by
    rintro rfl
    simp only [Nat.cast_zero, zero_add] at hspec
    rw [h1] at hspec; cases hspec
  refine ⟨(n0 : Int), by omega, fun s hs => ⟨fun hfit => ?_, fun hle => ?_⟩⟩
  · by_contra hgt
    have := hmono s ((n0 : Int) + 1) (by omega) (by omega) hfit
    rw [this] at hspec; cases hspec
  · have hlt : (s - 1).toNat < n0 := by omega
    have := hmin _ hlt
    have e : (((s - 1).toNat : Nat) : Int) + 1 = s := by omega
    rw [e] at this
    simpa using this

theorem bisect_threshold (gen : Int → Bool × List sdf_glyph) (T : Int)
    (hT : ∀ s : Int, 1 ≤ s → ((gen s).1 = true ↔ s ≤ T)) (n : Nat) (s r : SearchState)
    (hf : Fresh gen s) (hk : s.keep_going = false) (j : Nat) (hj27 : j ≤ 27)
    (hj : s.sz = 8 * 2 ^ j) (h : bisectPhase gen n s = some r) :
    Fresh gen r ∧ 1 ≤ r.sz ∧ r.sz ≤ s.sz ∧ (r.keep_going = true → r.sz = T) ∧
      (r.keep_going = false → T < r.sz) := by
  have hp := pow_two_int_pos j
  have hb := pow_two_le_27 j hj27
  have hfalse : ∀ t : SearchState, Fresh gen t → 1 ≤ t.sz → t.keep_going = false → T < t.sz := by
    intro t ht h1 hk
    have := hT t.sz h1
    rw [← ht.1, hk] at this
    by_contra hle
    have := this.2 (by omega)
    cases this
  have htrue : ∀ t : SearchState, Fresh gen t → 1 ≤ t.sz → t.keep_going = true → t.sz ≤ T := by
    intro t ht h1 hk
    have := hT t.sz h1
    rw [← ht.1, hk] at this
    exact this.1 rfl
  have key := whileLoop_inv (fun t : SearchState => t.sz_step != 0) (bisectBody gen)
    (fun t => Fresh gen t ∧ (t.sz_step = 0 ∨ ∃ m : Nat, t.sz_step = 2 ^ m) ∧
      2 * t.sz_step < t.sz ∧ 1 ≤ t.sz ∧ t.sz ≤ s.sz ∧
      (t.keep_going = true → t.sz + 2 * t.sz_step ≤ s.sz) ∧
      (t.keep_going = true → T < t.sz + max (2 * t.sz_step) 1) ∧
      (t.keep_going = false → T < t.sz))
    (by
      intro t ⟨_, hpow, h2, h1, hle, hku, hkt, hkf⟩ hc
      have hne : t.sz_step ≠ 0 := by simpa using hc
      rcases hpow with h0 | ⟨m, hm⟩
      · exact absurd h0 hne
      have hq := pow_two_int_pos m
      have hfr := fresh_bisectBody gen t
      have hsz := bisectBody_sz gen t s.sz (by omega) (by omega) h2 hle hku
      have hst : (bisectBody gen t).sz_step = t.sz_step / 2 := rfl
      have hcase : (t.keep_going = true ∧ (bisectBody gen t).sz = t.sz + t.sz_step ∧
            t.sz + 2 * t.sz_step ≤ s.sz ∧ T < t.sz + max (2 * t.sz_step) 1) ∨
          (t.keep_going = false ∧ (bisectBody gen t).sz = t.sz - t.sz_step ∧ T < t.sz) := by
        cases hkg : t.keep_going
        · right; exact ⟨rfl, by rw [hsz, hkg]; simp, hkf hkg⟩
        · left; exact ⟨rfl, by rw [hsz, hkg]; simp, hku hkg, hkt hkg⟩
      have hsz1 : 1 ≤ (bisectBody gen t).sz := by
        rcases hcase with ⟨_, e, _, _⟩ | ⟨_, e, _⟩ <;> rw [e] <;> omega
      refine ⟨hfr, ?_, ?_, hsz1, ?_, ?_, ?_, hfalse _ hfr hsz1⟩
      · rw [hst]
        cases m with
        | zero => left; rw [hm]; norm_num
        | succ m => right; exact ⟨m, by rw [hm, pow_succ]; omega⟩
      · rw [hst]
        rcases hcase with ⟨_, e, _, _⟩ | ⟨_, e, _⟩ <;> rw [e] <;> omega
      · rcases hcase with ⟨_, e, _, _⟩ | ⟨_, e, _⟩ <;> rw [e] <;> omega
      · intro _
        rw [hst]
        rcases hcase with ⟨_, e, _, _⟩ | ⟨_, e, _⟩ <;> rw [e] <;> omega
      · intro _
        rw [hst]
        cases m with
        | zero =>
          simp only [pow_zero] at hm
          rw [hm] at hcase ⊢
          norm_num at hcase ⊢
          rcases hcase with ⟨_, e, _, _⟩ | ⟨_, e, _⟩ <;> rw [e] <;> omega
        | succ m =>
          have hq' := pow_two_int_pos m
          have hm' : t.sz_step = 2 * 2 ^ m := by rw [hm, pow_succ]; ring
          generalize (2 : Int) ^ m = q at hq' hm'
          rw [hm'] at hcase ⊢
          have e2 : 2 * q / 2 = q := by omega
          have e3 : max (2 * (2 * q)) 1 = 2 * (2 * q) := max_eq_left (by omega)
          have e4 : max (2 * q) 1 = 2 * q := max_eq_left (by omega)
          rw [e2, e4]
          rw [e3] at hcase
          rcases hcase with ⟨_, e, _, _⟩ | ⟨_, e, _⟩ <;> rw [e] <;> omega)
    n { s with sz_step := s.sz / 4 } r
    ⟨hf, Or.inr ⟨j + 1, by show s.sz / 4 = 2 ^ (j + 1); rw [hj, pow_succ]; omega⟩,
      by show 2 * (s.sz / 4) < s.sz; omega, by show 1 ≤ s.sz; omega, le_refl _,
      fun hk' => absurd (hk.symm.trans hk') (by decide),
      fun hk' => absurd (hk.symm.trans hk') (by decide),
      fun _ => hfalse s hf (by omega) hk⟩ h
  obtain ⟨⟨hfr, _, _, h1, hle, _, hkt, hkf⟩, hc⟩ := key
  have h0 : r.sz_step = 0 := by simpa using hc
  refine ⟨hfr, h1, hle, fun hk => ?_, hkf⟩
  have h3 := hkt hk
  have h4 := htrue r hfr h1 hk
  rw [h0] at h3
  norm_num at h3
  omega

theorem fallback_threshold (gen : Int → Bool × List sdf_glyph) (T : Int) (hT1 : 1 ≤ T)
    (hT : ∀ s : Int, 1 ≤ s → ((gen s).1 = true ↔ s ≤ T)) (n : Nat) (s r : SearchState)
    (hf : Fresh gen s) (h1 : 1 ≤ s.sz) (hmax : s.sz ≤ 1073741824)
    (hkt : s.keep_going = true → s.sz = T)
    (hkf : s.keep_going = false → T < s.sz) (h : fallbackPhase gen n s = some r) :
    Fresh gen r ∧ r.keep_going = true ∧ r.sz = T := by
  have key := whileLoop_inv (fun t : SearchState => !t.keep_going && decide (t.sz > 1))
    (fallbackBody gen)
    (fun t => Fresh gen t ∧ 1 ≤ t.sz ∧ t.sz ≤ 1073741824 ∧ (t.keep_going = true → t.sz = T) ∧
      (t.keep_going = false → T < t.sz))
    (by
      intro t ⟨_, _, hle, _, hkf⟩ hc
      simp only [Bool.and_eq_true, Bool.not_eq_true', decide_eq_true_eq] at hc
      have hlt := hkf hc.1
      have hfr := fresh_fallbackBody gen t
      have hsz : (fallbackBody gen t).sz = t.sz - 1 := by
        show wrap32 (t.sz - 1) = t.sz - 1
        exact wrap32_of_range _ (by omega) (by omega)
      have hiff := hT (fallbackBody gen t).sz (by omega)
      rw [← hfr.1] at hiff
      refine ⟨hfr, by omega, by omega, fun hk => ?_, fun hk => ?_⟩
      · have := hiff.1 hk; omega
      · by_contra hle
        have := hiff.2 (by omega)
        rw [hk] at this; cases this)
    n s r ⟨hf, h1, hmax, hkt, hkf⟩ h
  obtain ⟨⟨hfr, hr1, _, hrt, hrf⟩, hc⟩ := key
  cases hk : r.keep_going
  · exfalso
    have := hrf hk
    simp only [hk, Bool.not_false, Bool.true_and, decide_eq_false_iff_not] at hc
    omega
  · exact ⟨hfr, rfl, hrt hk⟩

theorem always_true_diverges (n : Nat) :
    ∀ s : SearchState, s.keep_going = true →
      whileLoop (fun s : SearchState => s.keep_going)
        (doubleBody (fun _ => (true, []))) n s = none := by
  induction n with
  | zero => intro s _; rfl
  | succ n ih =>
    intro s hs
    rw [whileLoop_step (fun s : SearchState => s.keep_going) _ n s hs]
    exact ih _ rfl

/-- Outcome of a completed search, by the way the first loop was left: either at a size
`8 * 2^j <= 2^30`, and then a failing result has `sz = 1`; or at size 0 after `sz` wrapped
through `INT_MIN`, and then the two later loops do nothing.  A first loop left at
`INT_MIN` gives a negative `sz_step` and the second loop never ends. -/
theorem sizeSearch_exit (gen : Int → Bool × List sdf_glyph) (fuel : Nat) (r : SearchState)
    (h : sizeSearch gen fuel = some r) :
    Fresh gen r ∧
      ((1 ≤ r.sz ∧ (r.keep_going = false → r.sz = 1)) ∨
        (r.sz = 0 ∧ r.keep_going = false ∧ (∀ i, i ≤ 27 → (gen (8 * 2 ^ i)).1 = true) ∧
          (gen (-2147483648)).1 = true)) := by
  obtain ⟨s1, s2, e1, e2, e3⟩ := sizeSearch_phases gen fuel r h
  obtain ⟨hf1, hk1, hE⟩ := doublingPhase_spec gen fuel s1 e1
  rcases hE with ⟨j, hj, hsz, _, hatt⟩ | ⟨hsz, _⟩ | ⟨hsz, hall, hmin⟩
  · have hp := pow_two_int_pos j
    have hb := pow_two_le_27 j hj
    obtain ⟨hf2, _, h22, hle2, hatt2⟩ := bisectPhase_spec gen fuel s1 s2 hf1 hk1 (by omega)
      (by omega) hatt e2
    obtain ⟨hf3, h31, hone, _⟩ := fallbackPhase_spec gen fuel s2 r s1.sz hf2 (by omega) hle2
      (by omega) hatt2 e3
    exact ⟨hf3, Or.inl ⟨h31, hone⟩⟩
  · exfalso
    have hd := bisect_diverges gen fuel { s1 with sz_step := s1.sz / 4 }
      (by show s1.sz / 4 < 0; omega)
    rw [bisectPhase, hd] at e2
    cases e2
  · have hs2 : s2 = { s1 with sz_step := s1.sz / 4 } :=
      whileLoop_skip (fun t : SearchState => t.sz_step != 0) (bisectBody gen) fuel _ s2
        (by show ((s1.sz / 4) != 0) = false; rw [hsz]; rfl) e2
    have hk2 : s2.keep_going = false := by rw [hs2]; exact hk1
    have hz2 : s2.sz = 0 := by rw [hs2]; exact hsz
    have hr : r = s2 :=
      whileLoop_skip (fun t : SearchState => !t.keep_going && decide (t.sz > 1))
        (fallbackBody gen) fuel s2 r (by simp [hk2, hz2]) e3
    have hf2 : Fresh gen s2 := by rw [hs2]; exact hf1
    rw [hr]
    exact ⟨hf2, Or.inr ⟨hz2, hk2, hall, hmin⟩⟩

/-! ### Claims on the size search -/

/-- C1 as stated fails: the oracle that fits exactly the sizes `1 .. 2^30` is monotone on
positive sizes, fails at the positive size `2^30 + 1` and fits at size 1, yet the search
returns under no bound on the iterations.  The first loop passes 8, 16, ..., `2^30`, the
next `sz <<= 1` gives `INT_MIN`, which fails, and the second loop starts with the negative
step `INT_MIN >> 2`, which `sz_step >>= 1` never brings to 0. -/
theorem sizeSearch_maximal_counterexample :
    (∀ s s' : Int, 1 ≤ s' → s' ≤ s →
        ((fun s : Int => ((decide (1 ≤ s ∧ s ≤ 1073741824), []) : Bool × List sdf_glyph)) s).1
          = true →
        ((fun s : Int => ((decide (1 ≤ s ∧ s ≤ 1073741824), []) : Bool × List sdf_glyph)) s').1
          = true) ∧
      ((fun s : Int => ((decide (1 ≤ s ∧ s ≤ 1073741824), []) : Bool × List sdf_glyph))
        1073741825).1 = false ∧
      ((fun s : Int => ((decide (1 ≤ s ∧ s ≤ 1073741824), []) : Bool × List sdf_glyph)) 1).1
        = true ∧
      ∀ fuel : Nat,
        sizeSearch (fun s : Int => (decide (1 ≤ s ∧ s ≤ 1073741824), [])) fuel = none := by
  refine ⟨fun s s' h1 hle h => ?_, by decide, by decide, fun fuel => ?_⟩
  · simp only [decide_eq_true_eq] at h ⊢
    omega
  · cases hres : sizeSearch (fun s : Int => (decide (1 ≤ s ∧ s ≤ 1073741824), [])) fuel with
    | none => rfl
    | some r =>
      exfalso
      obtain ⟨s1, s2, e1, e2, _⟩ := sizeSearch_phases _ fuel r hres
      obtain ⟨hf1, hk1, hE⟩ := doublingPhase_spec _ fuel s1 e1
      rcases hE with ⟨j, hj, hsz, _, _⟩ | ⟨hsz, _⟩ | ⟨_, _, hmin⟩
      · have hp := pow_two_int_pos j
        have hb := pow_two_le_27 j hj
        have hfit : s1.keep_going = true := by
          rw [hf1.1, hsz]
          simp only [decide_eq_true_eq]
          omega
        rw [hk1] at hfit
        cases hfit
      · have hd := bisect_diverges (fun s : Int => (decide (1 ≤ s ∧ s ≤ 1073741824), [])) fuel
          { s1 with sz_step := s1.sz / 4 } (by show s1.sz / 4 < 0; omega)
        rw [bisectPhase, hd] at e2
        cases e2
      · revert hmin
        decide

/-- C1 (size search maximality, amended).  For a pack oracle `gen` whose success flag is
monotone on positive sizes, fails at some positive size not above `2^30` and succeeds at
size 1, the three-phase search ends (for every sufficiently large iteration bound, with one
and the same final state) reporting success, its final `sz` is the largest positive size at
which the pack attempt succeeds, and the last attempt made, whose glyph list is the one kept
in `all_glyphs`, was at exactly that `sz`. -/
theorem sizeSearch_maximal (gen : Int → Bool × List sdf_glyph)
    (hmono : ∀ s s' : Int, 1 ≤ s' → s' ≤ s → (gen s).1 = true → (gen s').1 = true)
    (hfail : ∃ f : Int, 1 ≤ f ∧ f ≤ 1073741824 ∧ (gen f).1 = false) (h1 : (gen 1).1 = true) :
    ∃ fuel r, (∀ m, fuel ≤ m → sizeSearch gen m = some r) ∧
      r.keep_going = true ∧ 1 ≤ r.sz ∧ (gen r.sz).1 = true ∧
      (∀ s : Int, 1 ≤ s → (gen s).1 = true → s ≤ r.sz) ∧
      r.attempts.head? = some r.sz ∧ r.all_glyphs = (gen r.sz).2 := by
  obtain ⟨f, hf1, hf2, hff⟩ := hfail
  obtain ⟨T, hT1, hT⟩ := exists_threshold (fun s => (gen s).1) hmono ⟨f, hf1, hff⟩ h1
  have hTf : T < f := by
    by_contra hle
    have := (hT f hf1).2 (by omega)
    rw [hff] at this; cases this
  have hbig : (gen (8 * 2 ^ 27)).1 = false := by
    cases hg : (gen (8 * 2 ^ 27)).1
    · rfl
    · have := (hT (8 * 2 ^ 27) (by norm_num)).1 hg
      norm_num at this
      omega
  obtain ⟨fuel, r, hr⟩ := sizeSearch_total gen 27 (le_refl _) hbig
  obtain ⟨s1, s2, e1, e2, e3⟩ := sizeSearch_phases gen fuel r (hr fuel (le_refl _))
  obtain ⟨hf1', hk1, j, hj27, hj, _, _, _⟩ :=
    doublingPhase_pos gen fuel s1 27 (le_refl _) hbig e1
  have hb := pow_two_le_27 j hj27
  obtain ⟨hf2', h21, h2le, h2t, h2f⟩ :=
    bisect_threshold gen T hT fuel s1 s2 hf1' hk1 j hj27 hj e2
  obtain ⟨hf3, hk3, hsz⟩ :=
    fallback_threshold gen T hT1 hT fuel s2 r hf2' h21 (by omega) h2t h2f e3
  refine ⟨fuel, r, hr, hk3, by omega, ?_, ?_, hf3.2.2, hf3.2.1⟩
  · rw [← hf3.1]; exact hk3
  · intro s hs hfit
    have := (hT s hs).1 hfit
    omega

/-- Witness for C1: the oracle that fits exactly the sizes up to 10. -/
theorem sizeSearch_maximal_witness :
    ∃ fuel r, (∀ m, fuel ≤ m →
        sizeSearch (fun s : Int => (decide (s ≤ 10), [])) m = some r) ∧
      r.keep_going = true ∧ 1 ≤ r.sz ∧
      ((fun s : Int => ((decide (s ≤ 10), []) : Bool × List sdf_glyph)) r.sz).1 = true ∧
      (∀ s : Int, 1 ≤ s →
        ((fun s : Int => ((decide (s ≤ 10), []) : Bool × List sdf_glyph)) s).1 = true →
          s ≤ r.sz) ∧
      r.attempts.head? = some r.sz ∧
      r.all_glyphs = ((fun s : Int => ((decide (s ≤ 10), []) : Bool × List sdf_glyph)) r.sz).2 :=
  sizeSearch_maximal (fun s : Int => (decide (s ≤ 10), []))
    (fun s s' _ hle h => by
      simp only [decide_eq_true_eq] at h ⊢
      omega)
    ⟨11, by decide, by decide, by decide⟩ (by decide)

/-- C2 as stated fails: against the oracle that fails at size 0 only, the first loop passes
8, 16, ..., `2^30` and `INT_MIN` and is left at the wrapped size 0; `sz_step` is then 0 and
`sz > 1` is false, so the two later loops are skipped and the search ends with the failure
flag at size 0, not 1, without any pack attempt at size 1. -/
theorem sizeSearch_failure_counterexample :
    (sizeSearch (fun s : Int => (decide (s ≠ 0), [])) 40).map
        (fun r => (r.keep_going, r.sz, r.sz_step, r.attempts.head?, decide ((1 : Int) ∈ r.attempts)))
      = some (false, 0, 0, some 0, false) := by
  decide

/-- C2 (hard failure, amended).  Whenever the search ends with `keep_going == false`,
either its final size is exactly 1 and the last pack attempt was made at size 1 and failed,
or the first loop ran through every doubled size 8, 16, ..., `2^30` and the wrapped size
`INT_MIN` with success and the search ends at the wrapped size 0, where the last attempt
failed; in both cases the function takes the early `return -1` before the atlas buffer
exists.  When some doubled size up to `2^30` fails, only the first case occurs.  For an
oracle that fails at every size the search does end, at size 1 with the failure flag. -/
theorem sizeSearch_failure (gen : Int → Bool × List sdf_glyph) :
    (∀ (fuel : Nat) (r : SearchState), sizeSearch gen fuel = some r → r.keep_going = false →
      ((r.sz = 1 ∧ r.attempts.head? = some 1 ∧ (gen 1).1 = false ∧ r.all_glyphs = (gen 1).2) ∨
        (r.sz = 0 ∧ r.attempts.head? = some 0 ∧ (gen 0).1 = false ∧
          (∀ i : Nat, i ≤ 27 → (gen (8 * 2 ^ i)).1 = true) ∧
          (gen (-2147483648)).1 = true)) ∧
        afterSearch r = none) ∧
    (∀ (fuel : Nat) (r : SearchState) (k : Nat), k ≤ 27 → (gen (8 * 2 ^ k)).1 = false →
      sizeSearch gen fuel = some r → r.keep_going = false →
        r.sz = 1 ∧ r.attempts.head? = some 1 ∧ (gen 1).1 = false ∧
          r.all_glyphs = (gen 1).2) ∧
    ((∀ s : Int, (gen s).1 = false) →
      ∃ n r, (∀ m, n ≤ m → sizeSearch gen m = some r) ∧ r.keep_going = false ∧ r.sz = 1 ∧
        afterSearch r = none) := by
  have spec : ∀ (fuel : Nat) (r : SearchState), sizeSearch gen fuel = some r →
      r.keep_going = false →
      ((r.sz = 1 ∧ r.attempts.head? = some 1 ∧ (gen 1).1 = false ∧ r.all_glyphs = (gen 1).2) ∨
        (r.sz = 0 ∧ r.attempts.head? = some 0 ∧ (gen 0).1 = false ∧
          (∀ i : Nat, i ≤ 27 → (gen (8 * 2 ^ i)).1 = true) ∧
          (gen (-2147483648)).1 = true)) := by
    intro fuel r h hk
    obtain ⟨⟨ha, hb, hc⟩, hE⟩ := sizeSearch_exit gen fuel r h
    rcases hE with ⟨_, hone⟩ | ⟨hz, _, hall, hmin⟩
    · have hsz := hone hk
      rw [hsz] at ha hb hc
      exact Or.inl ⟨hsz, hc, by rw [← ha]; exact hk, hb⟩
    · rw [hz] at ha hb hc
      exact Or.inr ⟨hz, hc, by rw [← ha]; exact hk, hall, hmin⟩
  refine ⟨fun fuel r h hk => ⟨spec fuel r h hk, by simp [afterSearch, hk]⟩, ?_, ?_⟩
  · intro fuel r k hk27 hfail h hk
    rcases spec fuel r h hk with h1 | ⟨_, _, _, hall, _⟩
    · exact h1
    · have := hall k hk27
      rw [hfail] at this; cases this
  · intro hall
    obtain ⟨n, r, hr⟩ := sizeSearch_total gen 0 (by omega) (hall _)
    obtain ⟨hfr, _⟩ := sizeSearch_exit gen n r (hr n (le_refl _))
    have hkr : r.keep_going = false := by rw [hfr.1]; exact hall _
    rcases spec n r (hr n (le_refl _)) hkr with ⟨h1, _⟩ | ⟨_, _, _, hall', _⟩
    · exact ⟨n, r, hr, hkr, h1, by simp [afterSearch, hkr]⟩
    · have := hall' 0 (by omega)
      rw [hall _] at this; cases this

/-- Witness for C2 (amended): the oracle that fails at every size; the search tries
8, 6, 5, 4, 3, 2, 1 and stops at size 1 with the failure flag. -/
theorem sizeSearch_failure_witness :
    sizeSearch (fun _ => (false, [])) 8
        = some { sz := 1, sz_step := 0, keep_going := false, all_glyphs := [],
                 attempts := [1, 2, 3, 4, 5, 6, 8] } ∧
      afterSearch { sz := 1, sz_step := 0, keep_going := false, all_glyphs := [],
                    attempts := [1, 2, 3, 4, 5, 6, 8] } = none ∧
      ∃ n r, (∀ m, n ≤ m →
          sizeSearch (fun _ => ((false, []) : Bool × List sdf_glyph)) m = some r) ∧
        r.keep_going = false ∧ r.sz = 1 ∧ afterSearch r = none :=
  ⟨by decide,
   ((sizeSearch_failure (fun _ => (false, []))).1 8
      { sz := 1, sz_step := 0, keep_going := false, all_glyphs := [],
        attempts := [1, 2, 3, 4, 5, 6, 8] } (by decide) rfl).2,
   (sizeSearch_failure (fun _ => (false, []))).2.2 (fun _ => rfl)⟩

/-- C3 as stated fails: against the oracle that succeeds at every size the first loop
never exits, so the search yields no result under any bound on the iterations. -/
theorem sizeSearch_terminates_counterexample :
    ¬ (∀ gen : Int → Bool × List sdf_glyph, ∃ fuel r, sizeSearch gen fuel = some r) := by
  intro h
  obtain ⟨fuel, r, hr⟩ := h (fun _ => (true, []))
  have hd : doublingPhase (fun _ => (true, [])) fuel = none :=
    always_true_diverges fuel searchInit rfl
  simp [sizeSearch, hd] at hr

/-- C3 (termination, amended).  For every pack oracle that fails at some size
`8 * 2^k <= 2^30` of the doubling sequence 8, 16, 32, ..., `2^30` the three-phase search
terminates: there is a final state, with a finite list of pack attempts, that the search
returns under every sufficiently large bound on the iterations. -/
theorem sizeSearch_terminates (gen : Int → Bool × List sdf_glyph) (k : Nat) (hk : k ≤ 27)
    (h : (gen (8 * 2 ^ k)).1 = false) :
    ∃ fuel r, (∀ m, fuel ≤ m → sizeSearch gen m = some r) ∧ r.attempts.length ≤ 3 * fuel := by
  obtain ⟨fuel, r, hr⟩ := sizeSearch_total gen k hk h
  refine ⟨fuel, r, hr, ?_⟩
  obtain ⟨s1, s2, e1, e2, e3⟩ := sizeSearch_phases gen fuel r (hr fuel (le_refl _))
  have a1 := whileLoop_count _ _ (fun t : SearchState => t.attempts.length)
    (fun t => by simp [doubleBody]) fuel _ _ e1
  have a2 := whileLoop_count _ _ (fun t : SearchState => t.attempts.length)
    (fun t => by simp [bisectBody]) fuel _ _ e2
  have a3 := whileLoop_count _ _ (fun t : SearchState => t.attempts.length)
    (fun t => by simp [fallbackBody]) fuel _ _ e3
  simp only [searchInit, List.length_nil] at a1 a2 a3
  omega

/-- Witness for C3 (amended): the oracle that fails at every size fails at 8. -/
theorem sizeSearch_terminates_witness :
    ∃ fuel r, (∀ m, fuel ≤ m →
        sizeSearch (fun _ => ((false, []) : Bool × List sdf_glyph)) m = some r) ∧
      r.attempts.length ≤ 3 * fuel :=
  sizeSearch_terminates (fun _ => (false, [])) 0 (by decide) rfl

/-! ### Rounding to a floating-point format -/

theorem roundHalfEven_cases (q : ℚ) :
    roundHalfEven q = ⌊q⌋ ∨ roundHalfEven q = ⌊q⌋ + 1 := by
  unfold roundHalfEven
  split_ifs <;> simp

theorem roundHalfEven_ge (q : ℚ) : q - 1 / 2 ≤ (roundHalfEven q : ℚ) := by
  unfold roundHalfEven
  have h1 := Int.floor_le q
  have h2 := Int.lt_floor_add_one q
  split_ifs with a b c
  · linarith
  · push_cast; linarith
  · linarith
  · push_cast; linarith

theorem roundHalfEven_le (q : ℚ) : (roundHalfEven q : ℚ) ≤ q + 1 / 2 := by
  unfold roundHalfEven
  have h1 := Int.floor_le q
  have h2 := Int.lt_floor_add_one q
  split_ifs with a b c
  · linarith
  · push_cast; linarith
  · linarith
  · push_cast; linarith

theorem roundHalfEven_intCast (n : Int) : roundHalfEven (n : ℚ) = n := by
  unfold roundHalfEven
  simp

theorem roundHalfEven_mono (q q' : ℚ) (h : q ≤ q') : roundHalfEven q ≤ roundHalfEven q' := by
  have hf : ⌊q⌋ ≤ ⌊q'⌋ := Int.floor_mono h
  rcases lt_or_eq_of_le hf with hlt | heq
  · have h1 : roundHalfEven q ≤ ⌊q⌋ + 1 := by
      rcases roundHalfEven_cases q with e | e <;> omega
    have h2 : ⌊q'⌋ ≤ roundHalfEven q' := by
      rcases roundHalfEven_cases q' with e | e <;> omega
    omega
  · unfold roundHalfEven
    rw [← heq]
    have hr : q - ⌊q⌋ ≤ q' - ⌊q⌋ := by linarith
    split_ifs <;> first | omega | (exfalso; linarith)


theorem log2_spec (x : ℚ) (hx : 0 < x) :
    (2 : ℚ) ^ Int.log 2 x ≤ x ∧ x < (2 : ℚ) ^ (Int.log 2 x + 1) := by
  have h1 : ((2 : ℕ) : ℚ) ^ Int.log 2 x ≤ x := Int.zpow_log_le_self (by norm_num) hx
  have h2 : x < ((2 : ℕ) : ℚ) ^ (Int.log 2 x + 1) := Int.lt_zpow_succ_log_self (by norm_num) x
  simpa using And.intro h1 h2

theorem two_zpow_pos (z : Int) : (0 : ℚ) < 2 ^ z := zpow_pos (by norm_num) z

theorem ulp_mul (e : Int) (P : Nat) : (2 : ℚ) ^ (P : Int) * 2 ^ (e - (P : Int)) = 2 ^ e := by
  rw [← zpow_add₀ (by norm_num : (2 : ℚ) ≠ 0)]
  congr 1
  ring

theorem flPos_bounds (P : Nat) (x : ℚ) (hx : 0 < x) :
    (2 : ℚ) ^ Int.log 2 x ≤ flPos (P + 1) x ∧ flPos (P + 1) x ≤ (2 : ℚ) ^ (Int.log 2 x + 1) := by
  obtain ⟨h1, h2⟩ := log2_spec x hx
  unfold flPos
  have hP : ((P + 1 : Nat) : Int) - 1 = (P : Int) := by push_cast; ring
  rw [hP]
  set e := Int.log 2 x
  set u : ℚ := 2 ^ (e - (P : Int)) with hu
  have hu0 : 0 < u := two_zpow_pos _
  have hmul : (2 : ℚ) ^ (P : Int) * u = 2 ^ e := ulp_mul e P
  have hmul2 : (2 : ℚ) ^ ((P : Int) + 1) * u = 2 ^ (e + 1) := by
    rw [zpow_add₀ (by norm_num : (2 : ℚ) ≠ 0), zpow_add₀ (by norm_num : (2 : ℚ) ≠ 0), zpow_one,
      mul_right_comm, hmul]
  have hlo : (((2 ^ P : Nat) : Int) : ℚ) ≤ x / u := by
    rw [le_div_iff₀ hu0]
    have : (((2 ^ P : Nat) : Int) : ℚ) = (2 : ℚ) ^ (P : Int) := by push_cast; rw [zpow_natCast]
    rw [this, hmul]; exact h1
  have hhi : x / u ≤ (((2 ^ (P + 1) : Nat) : Int) : ℚ) := by
    rw [div_le_iff₀ hu0]
    have : (((2 ^ (P + 1) : Nat) : Int) : ℚ) = (2 : ℚ) ^ ((P : Int) + 1) := by
      push_cast; rw [← zpow_natCast]; push_cast; rfl
    rw [this, hmul2]; exact h2.le
  have r1 := roundHalfEven_mono _ _ hlo
  have r2 := roundHalfEven_mono _ _ hhi
  rw [roundHalfEven_intCast] at r1 r2
  have r1' : (2 : ℚ) ^ (P : Int) ≤ (roundHalfEven (x / u) : ℚ) := by
    have : (((2 ^ P : Nat) : Int) : ℚ) ≤ (roundHalfEven (x / u) : ℚ) := by exact_mod_cast r1
    have e2 : (((2 ^ P : Nat) : Int) : ℚ) = (2 : ℚ) ^ (P : Int) := by push_cast; rw [zpow_natCast]
    rw [e2] at this; exact this
  have r2' : (roundHalfEven (x / u) : ℚ) ≤ (2 : ℚ) ^ ((P : Int) + 1) := by
    have : (roundHalfEven (x / u) : ℚ) ≤ (((2 ^ (P + 1) : Nat) : Int) : ℚ) := by exact_mod_cast r2
    have e2 : (((2 ^ (P + 1) : Nat) : Int) : ℚ) = (2 : ℚ) ^ ((P : Int) + 1) := by
      push_cast; rw [← zpow_natCast]; push_cast; rfl
    rw [e2] at this; exact this
  constructor
  · rw [← hmul]; exact mul_le_mul_of_nonneg_right r1' hu0.le
  · rw [← hmul2]; exact mul_le_mul_of_nonneg_right r2' hu0.le

theorem flPos_pos (P : Nat) (x : ℚ) (hx : 0 < x) : 0 < flPos (P + 1) x :=
  lt_of_lt_of_le (two_zpow_pos _) (flPos_bounds P x hx).1

theorem flPos_mono (P : Nat) (x y : ℚ) (hx : 0 < x) (hxy : x ≤ y) :
    flPos (P + 1) x ≤ flPos (P + 1) y := by
  have hy : 0 < y := lt_of_lt_of_le hx hxy
  have hlog : Int.log 2 x ≤ Int.log 2 y := Int.log_mono_right hx hxy
  rcases lt_or_eq_of_le hlog with hlt | heq
  · have b1 := (flPos_bounds P x hx).2
    have b2 := (flPos_bounds P y hy).1
    have : (2 : ℚ) ^ (Int.log 2 x + 1) ≤ 2 ^ Int.log 2 y :=
      zpow_le_zpow_right₀ (by norm_num) (by omega)
    linarith
  · unfold flPos
    rw [heq]
    have hu0 : (0 : ℚ) < 2 ^ (Int.log 2 y - (((P + 1 : Nat) : Int) - 1)) := two_zpow_pos _
    apply mul_le_mul_of_nonneg_right _ hu0.le
    have : roundHalfEven (x / 2 ^ (Int.log 2 y - (((P + 1 : Nat) : Int) - 1)))
        ≤ roundHalfEven (y / 2 ^ (Int.log 2 y - (((P + 1 : Nat) : Int) - 1))) :=
      roundHalfEven_mono _ _ (div_le_div_of_nonneg_right hxy hu0.le)
    exact_mod_cast this

theorem flPos_rel (P : Nat) (x : ℚ) (hx : 0 < x) :
    x * (1 - 1 / 2 ^ (P + 1)) ≤ flPos (P + 1) x := by
  obtain ⟨h1, _⟩ := log2_spec x hx
  unfold flPos
  have hP : ((P + 1 : Nat) : Int) - 1 = (P : Int) := by push_cast; ring
  rw [hP]
  set e := Int.log 2 x
  set u : ℚ := 2 ^ (e - (P : Int)) with hu
  have hu0 : 0 < u := two_zpow_pos _
  have hmul : (2 : ℚ) ^ (P : Int) * u = 2 ^ e := ulp_mul e P
  have hge := roundHalfEven_ge (x / u)
  have hxu : x / u * u = x := div_mul_cancel₀ x hu0.ne'
  have h2 : x - u / 2 ≤ (roundHalfEven (x / u) : ℚ) * u := by
    have := mul_le_mul_of_nonneg_right hge hu0.le
    rw [sub_mul, hxu] at this
    linarith
  have hpow : (2 : ℚ) ^ (P : Int) = 2 ^ P := zpow_natCast 2 P
  have hPpos : (0 : ℚ) < 2 ^ P := by positivity
  have hux : u * 2 ^ P ≤ x := by rw [mul_comm, ← hpow, hmul]; exact h1
  have hu2 : u / 2 ≤ x / 2 ^ (P + 1) := by
    rw [div_le_div_iff₀ (by norm_num) (by positivity), pow_succ]
    nlinarith
  have : x * (1 - 1 / 2 ^ (P + 1)) = x - x / 2 ^ (P + 1) := by ring
  rw [this]
  linarith

theorem flPos_exact (P : Nat) (m : Nat) (z : Int) (hm0 : 0 < m) (hm : m < 2 ^ (P + 1)) :
    flPos (P + 1) ((m : ℚ) * 2 ^ z) = (m : ℚ) * 2 ^ z := by
  have hx : (0 : ℚ) < (m : ℚ) * 2 ^ z := mul_pos (by exact_mod_cast hm0) (two_zpow_pos z)
  obtain ⟨h1, _⟩ := log2_spec _ hx
  unfold flPos
  have hP : ((P + 1 : Nat) : Int) - 1 = (P : Int) := by push_cast; ring
  rw [hP]
  set e := Int.log 2 ((m : ℚ) * 2 ^ z)
  have hlt : (2 : ℚ) ^ e < 2 ^ (((P + 1 : Nat) : Int) + z) := by
    refine lt_of_le_of_lt h1 ?_
    rw [zpow_add₀ (by norm_num : (2 : ℚ) ≠ 0), zpow_natCast]
    apply mul_lt_mul_of_pos_right _ (two_zpow_pos z)
    exact_mod_cast hm
  have he : e < ((P + 1 : Nat) : Int) + z := (zpow_lt_zpow_iff_right₀ (by norm_num)).1 hlt
  have hk : 0 ≤ z - (e - (P : Int)) := by push_cast at he; omega
  obtain ⟨k, hk'⟩ := Int.eq_ofNat_of_zero_le hk
  have hu0 : (0 : ℚ) < 2 ^ (e - (P : Int)) := two_zpow_pos _
  have hdiv : (m : ℚ) * 2 ^ z / 2 ^ (e - (P : Int)) = (((m * 2 ^ k : Nat) : Int) : ℚ) := by
    rw [mul_div_assoc, ← zpow_sub₀ (by norm_num : (2 : ℚ) ≠ 0), hk']
    push_cast
    rw [zpow_natCast]
  rw [hdiv, roundHalfEven_intCast, ← hdiv, div_mul_cancel₀ _ hu0.ne']


theorem fl_zero (p : Nat) : fl p 0 = 0 := by simp [fl]

theorem fl_of_pos (p : Nat) (x : ℚ) (hx : 0 < x) : fl p x = flPos p x := by simp [fl, hx]

theorem fl_of_neg (p : Nat) (x : ℚ) (hx : x < 0) : fl p x = -flPos p (-x) := by
  simp [fl, hx, not_lt.2 hx.le]

theorem fl_neg (p : Nat) (x : ℚ) : fl p (-x) = -fl p x := by
  rcases lt_trichotomy x 0 with h | h | h
  · rw [fl_of_neg p x h, fl_of_pos p (-x) (by linarith), neg_neg]
  · subst h; simp [fl_zero]
  · rw [fl_of_pos p x h, fl_of_neg p (-x) (by linarith), neg_neg]

theorem fl_nonneg (P : Nat) (x : ℚ) (hx : 0 ≤ x) : 0 ≤ fl (P + 1) x := by
  rcases lt_or_eq_of_le hx with h | h
  · rw [fl_of_pos _ _ h]; exact (flPos_pos P x h).le
  · rw [← h, fl_zero]

theorem fl_pos (P : Nat) (x : ℚ) (hx : 0 < x) : 0 < fl (P + 1) x := by
  rw [fl_of_pos _ _ hx]; exact flPos_pos P x hx

theorem fl_nonpos (P : Nat) (x : ℚ) (hx : x ≤ 0) : fl (P + 1) x ≤ 0 := by
  have := fl_nonneg P (-x) (by linarith)
  rw [fl_neg] at this
  linarith

theorem fl_mono (P : Nat) (x y : ℚ) (hxy : x ≤ y) : fl (P + 1) x ≤ fl (P + 1) y := by
  rcases lt_trichotomy 0 x with hx | hx | hx
  · rw [fl_of_pos _ _ hx, fl_of_pos _ _ (lt_of_lt_of_le hx hxy)]
    exact flPos_mono P x y hx hxy
  · rw [← hx, fl_zero]; exact fl_nonneg P y (by linarith)
  · rcases lt_or_le y 0 with hy | hy
    · rw [fl_of_neg _ _ hx, fl_of_neg _ _ hy]
      have := flPos_mono P (-y) (-x) (by linarith) (by linarith)
      linarith
    · exact le_trans (fl_nonpos P x hx.le) (fl_nonneg P y hy)

theorem fl_exact (P : Nat) (m z : Int) (hm : |m| < 2 ^ (P + 1)) :
    fl (P + 1) ((m : ℚ) * 2 ^ z) = (m : ℚ) * 2 ^ z := by
  have h2 := two_zpow_pos z
  rcases lt_trichotomy m 0 with h | h | h
  · have hx : (m : ℚ) * 2 ^ z < 0 := mul_neg_of_neg_of_pos (by exact_mod_cast h) h2
    rw [fl_of_neg _ _ hx]
    obtain ⟨k, hk⟩ := Int.eq_ofNat_of_zero_le (by omega : 0 ≤ -m)
    have hk0 : 0 < k := by omega
    have hklt : k < 2 ^ (P + 1) := by
      have : ((k : Nat) : Int) < 2 ^ (P + 1) := by rw [← hk]; rwa [abs_of_neg h] at hm
      exact_mod_cast this
    have e : -((m : ℚ) * 2 ^ z) = (k : ℚ) * 2 ^ z := by
      have : (m : ℚ) = -(k : ℚ) := by
        have : m = -(k : Int) := by omega
        rw [this]; push_cast; ring
      rw [this]; ring
    rw [e, flPos_exact P k z hk0 hklt, ← e, neg_neg]
  · subst h; simp [fl_zero]
  · have hx : 0 < (m : ℚ) * 2 ^ z := mul_pos (by exact_mod_cast h) h2
    rw [fl_of_pos _ _ hx]
    obtain ⟨k, hk⟩ := Int.eq_ofNat_of_zero_le (by omega : 0 ≤ m)
    subst hk
    have hk0 : 0 < k := by omega
    have hklt : k < 2 ^ (P + 1) := by
      rw [abs_of_pos h] at hm
      exact_mod_cast hm
    have := flPos_exact P k z hk0 hklt
    simpa using this

theorem fl_exact_int (P : Nat) (m : Int) (hm : |m| < 2 ^ (P + 1)) :
    fl (P + 1) (m : ℚ) = (m : ℚ) := by
  have := fl_exact P m 0 hm
  simpa using this

theorem fl_rel (P : Nat) (x : ℚ) (hx : 0 ≤ x) : x * (1 - 1 / 2 ^ (P + 1)) ≤ fl (P + 1) x := by
  rcases lt_or_eq_of_le hx with h | h
  · rw [fl_of_pos _ _ h]; exact flPos_rel P x h
  · rw [← h, fl_zero]; simp


theorem sqrtRound_ge (X : ℚ) : ((Nat.sqrt ⌊X⌋.toNat : Nat) : Int) ≤ sqrtRound X := by
  unfold sqrtRound
  simp only
  split_ifs <;> omega

theorem sqrtRound_ge_round (X q : ℚ) (hq0 : 0 ≤ q) (hqX : q * q ≤ X) :
    roundHalfEven q ≤ sqrtRound X := by
  have hX0 : 0 ≤ X := le_trans (mul_self_nonneg q) hqX
  have hfl0 : 0 ≤ ⌊X⌋ := Int.floor_nonneg.2 hX0
  have hf0 : 0 ≤ ⌊q⌋ := Int.floor_nonneg.2 hq0
  have hfq : (⌊q⌋ : ℚ) ≤ q := Int.floor_le q
  have hf0' : (0 : ℚ) ≤ (⌊q⌋ : ℚ) := by exact_mod_cast hf0
  -- the integer part of `q` is at most the integer square root
  have hfn : ⌊q⌋ ≤ ((Nat.sqrt ⌊X⌋.toNat : Nat) : Int) := by
    have h1 : ((⌊q⌋ * ⌊q⌋ : Int) : ℚ) ≤ X := by
      push_cast
      exact le_trans (mul_le_mul hfq hfq hf0' hq0) hqX
    have h2 : ⌊q⌋ * ⌊q⌋ ≤ ⌊X⌋ := Int.le_floor.2 h1
    have h3 : ⌊q⌋.toNat * ⌊q⌋.toNat ≤ ⌊X⌋.toNat := by
      have e1 : ((⌊q⌋.toNat : Nat) : Int) = ⌊q⌋ := Int.toNat_of_nonneg hf0
      have e2 : ((⌊X⌋.toNat : Nat) : Int) = ⌊X⌋ := Int.toNat_of_nonneg hfl0
      have : ((⌊q⌋.toNat * ⌊q⌋.toNat : Nat) : Int) ≤ ((⌊X⌋.toNat : Nat) : Int) := by
        push_cast; rw [e1, e2]; exact h2
      exact_mod_cast this
    have h4 := Nat.le_sqrt.2 h3
    have e1 : ((⌊q⌋.toNat : Nat) : Int) = ⌊q⌋ := Int.toNat_of_nonneg hf0
    rw [← e1]
    exact_mod_cast h4
  have hge := sqrtRound_ge X
  rcases lt_or_eq_of_le hfn with hlt | heq
  · rcases roundHalfEven_cases q with e | e <;> omega
  · -- same integer part: compare with the midpoint
    unfold roundHalfEven sqrtRound
    simp only
    rw [← heq]
    by_cases ha : q - ⌊q⌋ < 1 / 2
    · rw [if_pos ha]; split_ifs <;> omega
    · rw [if_neg ha]
      have hmid : (⌊q⌋ : ℚ) + 1 / 2 ≤ q := by linarith
      have hsq : ((⌊q⌋ : ℚ) + 1 / 2) * ((⌊q⌋ : ℚ) + 1 / 2) ≤ q * q :=
        mul_le_mul hmid hmid (by linarith) hq0
      have hnot : ¬ X < ((⌊q⌋ : ℚ) + 1 / 2) * ((⌊q⌋ : ℚ) + 1 / 2) := by
        intro h; linarith
      rw [if_neg hnot]
      by_cases hb : 1 / 2 < q - ⌊q⌋
      · rw [if_pos hb]
        have hlt2 : ((⌊q⌋ : ℚ) + 1 / 2) * ((⌊q⌋ : ℚ) + 1 / 2) < X := by
          have hmid' : (⌊q⌋ : ℚ) + 1 / 2 < q := by linarith
          have : ((⌊q⌋ : ℚ) + 1 / 2) * ((⌊q⌋ : ℚ) + 1 / 2) < q * q :=
            mul_lt_mul hmid' hmid (by linarith) hq0
          linarith
        rw [if_pos hlt2]
      · rw [if_neg hb]
        split_ifs <;> omega

theorem sqrtF32_nonneg (x : ℚ) : 0 ≤ sqrtF32 x := by
  unfold sqrtF32
  split_ifs with h
  · exact le_refl _
  · have h1 := sqrtRound_ge
      (x / (2 ^ (Int.log 2 x / 2 - 23) * 2 ^ (Int.log 2 x / 2 - 23)))
    have h2 : (0 : Int) ≤ sqrtRound
        (x / (2 ^ (Int.log 2 x / 2 - 23) * 2 ^ (Int.log 2 x / 2 - 23))) := by omega
    exact mul_nonneg (by exact_mod_cast h2) (two_zpow_pos _).le

/-- The rounded square root dominates the rounding of every lower bound of the root. -/
theorem sqrtF32_ge (x y : ℚ) (hy : 0 ≤ y) (hxy : y * y ≤ x) : fl 24 y ≤ sqrtF32 x := by
  rcases lt_or_eq_of_le hy with hy0 | hy0
  swap
  · rw [← hy0, fl_zero]; exact sqrtF32_nonneg x
  have hx : 0 < x := lt_of_lt_of_le (mul_pos hy0 hy0) hxy
  obtain ⟨hL1, hL2⟩ := log2_spec x hx
  unfold sqrtF32
  rw [if_neg (not_le.2 hx)]
  set L := Int.log 2 x
  set e := L / 2 with he
  have he1 : 2 * e ≤ L := by omega
  have he2 : L ≤ 2 * e + 1 := by omega
  set u : ℚ := 2 ^ (e - 23) with hu
  have hu0 : 0 < u := two_zpow_pos _
  have huu : u * u = 2 ^ (2 * e - 46) := by
    rw [hu, ← zpow_add₀ (by norm_num : (2 : ℚ) ≠ 0)]; congr 1; ring
  have h46 : (2 : ℚ) ^ (46 : Int) * (u * u) = 2 ^ (2 * e) := by
    rw [huu, ← zpow_add₀ (by norm_num : (2 : ℚ) ≠ 0)]; congr 1; ring
  have h23 : (2 : ℚ) ^ (23 : Int) * u = 2 ^ e := by
    rw [hu, ← zpow_add₀ (by norm_num : (2 : ℚ) ≠ 0)]; congr 1; ring
  have hee : (2 : ℚ) ^ (e + 1) * 2 ^ (e + 1) = 2 ^ (2 * e + 2) := by
    rw [← zpow_add₀ (by norm_num : (2 : ℚ) ≠ 0)]; congr 1; ring
  set X : ℚ := x / (u * u) with hX
  have huu0 : 0 < u * u := mul_pos hu0 hu0
  -- `2^46 ≤ X`
  have hXlo : (2 : ℚ) ^ (46 : Int) ≤ X := by
    rw [hX, le_div_iff₀ huu0, h46]
    exact le_trans (zpow_le_zpow_right₀ (by norm_num) he1) hL1
  have hn23 : ((2 ^ 23 : Nat) : Int) ≤ ((Nat.sqrt ⌊X⌋.toNat : Nat) : Int) := by
    have h1 : (((2 ^ 46 : Nat) : Int) : ℚ) ≤ X := by
      have : (((2 ^ 46 : Nat) : Int) : ℚ) = (2 : ℚ) ^ (46 : Int) := by norm_num
      rw [this]; exact hXlo
    have h2 : ((2 ^ 46 : Nat) : Int) ≤ ⌊X⌋ := Int.le_floor.2 h1
    have h3 : 2 ^ 23 * 2 ^ 23 ≤ ⌊X⌋.toNat := by
      have : (2 : Nat) ^ 23 * 2 ^ 23 = 2 ^ 46 := by norm_num
      rw [this]
      omega
    exact_mod_cast Nat.le_sqrt.2 h3
  have hk23 : ((2 ^ 23 : Nat) : Int) ≤ sqrtRound X := le_trans hn23 (sqrtRound_ge X)
  -- `y < 2^(e+1)`
  have hylt : y < (2 : ℚ) ^ (e + 1) := by
    by_contra hcon
    have hge : (2 : ℚ) ^ (e + 1) ≤ y := not_lt.1 hcon
    have hp := two_zpow_pos (e + 1)
    have : (2 : ℚ) ^ (e + 1) * 2 ^ (e + 1) ≤ y * y := mul_le_mul hge hge hp.le hy
    rw [hee] at this
    have h3 : x < (2 : ℚ) ^ (2 * e + 2) :=
      lt_of_lt_of_le hL2 (zpow_le_zpow_right₀ (by norm_num) (by omega))
    linarith
  have hylog : Int.log 2 y ≤ e := by
    have : Int.log 2 y < e + 1 := by
      rw [← Int.lt_zpow_iff_log_lt (by norm_num) hy0]
      simpa using hylt
    omega
  rw [fl_of_pos _ _ hy0]
  rcases lt_or_eq_of_le hylog with hlt | heq
  · have b := (flPos_bounds 23 y hy0).2
    have : (2 : ℚ) ^ (Int.log 2 y + 1) ≤ 2 ^ e := zpow_le_zpow_right₀ (by norm_num) (by omega)
    have hk : (2 : ℚ) ^ (23 : Int) ≤ (sqrtRound X : ℚ) := by
      have : (((2 ^ 23 : Nat) : Int) : ℚ) ≤ (sqrtRound X : ℚ) := by exact_mod_cast hk23
      have e2 : (((2 ^ 23 : Nat) : Int) : ℚ) = (2 : ℚ) ^ (23 : Int) := by norm_num
      rw [e2] at this; exact this
    have : (2 : ℚ) ^ e ≤ (sqrtRound X : ℚ) * u := by
      rw [← h23]; exact mul_le_mul_of_nonneg_right hk hu0.le
    have b' : flPos 24 y ≤ (2 : ℚ) ^ (Int.log 2 y + 1) := b
    linarith
  · have hfl : flPos 24 y = (roundHalfEven (y / u) : ℚ) * u := by
      unfold flPos
      rw [heq]
      norm_num
    rw [hfl]
    apply mul_le_mul_of_nonneg_right _ hu0.le
    have hq0 : 0 ≤ y / u := div_nonneg hy hu0.le
    have hqX : y / u * (y / u) ≤ X := by
      rw [hX, div_mul_div_comm]
      exact div_le_div_of_nonneg_right hxy huu0.le
    exact_mod_cast sqrtRound_ge_round X (y / u) hq0 hqX


/-! ### The ring search over exact integers -/

theorem isMinDist_of_empty (S : Int → Int → Prop) (x y d : Int) (hS : ∀ i j, ¬ S i j) :
    IsMinDist S x y d d :=
  ⟨le_refl d, fun i j h => absurd h (hS i j), Or.inl rfl⟩

theorem isMinDist_trans (S S1 S2 : Int → Int → Prop) (x y d0 d1 d2 : Int)
    (h1 : IsMinDist S1 x y d0 d1) (h2 : IsMinDist S2 x y d1 d2)
    (hS : ∀ i j, S i j ↔ S1 i j ∨ S2 i j) : IsMinDist S x y d0 d2 := by
  obtain ⟨a1, b1, c1⟩ := h1
  obtain ⟨a2, b2, c2⟩ := h2
  refine ⟨le_trans a2 a1, fun i j h => ?_, ?_⟩
  · rcases (hS i j).1 h with h | h
    · exact le_trans a2 (b1 i j h)
    · exact b2 i j h
  · rcases c2 with e | ⟨i, j, hij, e⟩
    · rcases c1 with e' | ⟨i, j, hij, e'⟩
      · exact Or.inl (e.trans e')
      · exact Or.inr ⟨i, j, (hS i j).2 (Or.inl hij), e.trans e'⟩
    · exact Or.inr ⟨i, j, (hS i j).2 (Or.inr hij), e⟩

theorem checkPixel_exact_spec (fontmap : Int → Nat) (v : Nat) (idx x y i j d : Int) :
    IsMinDist (fun a b => a = i ∧ b = j ∧ fontmap idx ≠ v) x y d
      (checkPixel_exact fontmap v idx (i - x) (j - y) d) := by
  unfold checkPixel_exact
  by_cases hv : fontmap idx ≠ v
  · rw [if_pos hv]
    by_cases hlt : (i - x) * (i - x) + (j - y) * (j - y) < d
    · simp only [hlt, if_true]
      refine ⟨le_of_lt hlt, ?_, Or.inr ⟨i, j, ⟨rfl, rfl, hv⟩, rfl⟩⟩
      rintro a b ⟨rfl, rfl, _⟩
      exact le_refl _
    · simp only [hlt, if_false]
      refine ⟨le_refl d, ?_, Or.inl rfl⟩
      rintro a b ⟨rfl, rfl, _⟩
      exact not_lt.1 hlt
  · rw [if_neg hv]
    exact isMinDist_of_empty _ _ _ _ (fun a b h => hv h.2.2)

theorem scanRow_exact_spec (fontmap : Int → Nat) (v : Nat) (x y line base : Int) (n : Nat) :
    ∀ i d : Int,
      IsMinDist (fun a b => b = line ∧ i ≤ a ∧ a < i + n ∧ fontmap (base + a) ≠ v) x y d
        (scanRow_exact fontmap v x y line n i (base + i) d) := by
  induction n with
  | zero =>
    intro i d
    exact isMinDist_of_empty _ _ _ _ (fun a b h => by
      have := h.2.1; have := h.2.2.1; simp at *; omega)
  | succ n ih =>
    intro i d
    have hstep : scanRow_exact fontmap v x y line (n + 1) i (base + i) d
        = scanRow_exact fontmap v x y line n (i + 1) (base + (i + 1))
            (checkPixel_exact fontmap v (base + i) (i - x) (line - y) d) := by
      rw [← add_assoc]; rfl
    rw [hstep]
    refine isMinDist_trans _ _ _ x y d _ _
      (checkPixel_exact_spec fontmap v (base + i) x y i line d) (ih (i + 1) _) ?_
    intro a b
    constructor
    · rintro ⟨hb, h1, h2, h3⟩
      by_cases ha : a = i
      · subst ha; exact Or.inl ⟨rfl, hb, h3⟩
      · exact Or.inr ⟨hb, by omega, by push_cast at h2 ⊢; omega, h3⟩
    · rintro (⟨ha, hb, h3⟩ | ⟨hb, h1, h2, h3⟩)
      · subst ha; exact ⟨hb, le_refl _, by push_cast; omega, h3⟩
      · exact ⟨hb, by omega, by push_cast at h2 ⊢; omega, h3⟩

theorem scanCol_exact_spec (fontmap : Int → Nat) (v : Nat) (w x y line : Int) (n : Nat) :
    ∀ i d : Int,
      IsMinDist (fun a b => a = line ∧ i ≤ b ∧ b < i + n ∧ fontmap (b * w + line) ≠ v) x y d
        (scanCol_exact fontmap v w x y line n i (i * w + line) d) := by
  induction n with
  | zero =>
    intro i d
    exact isMinDist_of_empty _ _ _ _ (fun a b h => by
      have := h.2.1; have := h.2.2.1; simp at *; omega)
  | succ n ih =>
    intro i d
    have hidx : i * w + line + w = (i + 1) * w + line := by ring
    have hstep : scanCol_exact fontmap v w x y line (n + 1) i (i * w + line) d
        = scanCol_exact fontmap v w x y line n (i + 1) ((i + 1) * w + line)
            (checkPixel_exact fontmap v (i * w + line) (line - x) (i - y) d) := by
      rw [← hidx]; rfl
    rw [hstep]
    refine isMinDist_trans _ _ _ x y d _ _
      (checkPixel_exact_spec fontmap v (i * w + line) x y line i d) (ih (i + 1) _) ?_
    intro a b
    constructor
    · rintro ⟨ha, h1, h2, h3⟩
      by_cases hb : b = i
      · subst hb; exact Or.inl ⟨ha, rfl, h3⟩
      · exact Or.inr ⟨ha, by omega, by push_cast at h2 ⊢; omega, h3⟩
    · rintro (⟨ha, hb, h3⟩ | ⟨ha, h1, h2, h3⟩)
      · subst hb; exact ⟨ha, le_refl _, by push_cast; omega, h3⟩
      · exact ⟨ha, by omega, by push_cast at h2 ⊢; omega, h3⟩

theorem isMinDist_congr (S S' : Int → Int → Prop) (x y d0 d : Int)
    (h : IsMinDist S' x y d0 d) (hS : ∀ i j, S i j ↔ S' i j) : IsMinDist S x y d0 d := by
  obtain ⟨a, b, c⟩ := h
  refine ⟨a, fun i j hij => b i j ((hS i j).1 hij), ?_⟩
  rcases c with e | ⟨i, j, hij, e⟩
  · exact Or.inl e
  · exact Or.inr ⟨i, j, (hS i j).2 hij, e⟩

theorem rowEdge_exact_spec (fontmap : Int → Nat) (v : Nat) (w h x y radius line d : Int) :
    IsMinDist (fun a b => b = line ∧ 0 ≤ b ∧ b < h ∧ 0 ≤ a ∧ a < w ∧
        x - radius ≤ a ∧ a ≤ x + radius ∧ fontmap (b * w + a) ≠ v) x y d
      (rowEdge_exact fontmap v w h x y radius line d) := by
  unfold rowEdge_exact
  by_cases hl : 0 ≤ line ∧ line < h
  · rw [if_pos hl]
    have key : ∀ lo hi : Int, lo = (if x - radius < 0 then 0 else x - radius) →
        hi = (if x + radius ≥ w then w - 1 else x + radius) →
        IsMinDist (fun a b => b = line ∧ 0 ≤ b ∧ b < h ∧ 0 ≤ a ∧ a < w ∧
          x - radius ≤ a ∧ a ≤ x + radius ∧ fontmap (b * w + a) ≠ v) x y d
          (scanRow_exact fontmap v x y line (hi - lo + 1).toNat lo (line * w + lo) d) := by
      intro lo hi hlo hhi
      refine isMinDist_congr _ _ x y d _
        (scanRow_exact_spec fontmap v x y line (line * w) (hi - lo + 1).toNat lo d) ?_
      intro a b
      constructor
      · rintro ⟨hb, _, _, ha0, haw, hxl, hxr, hf⟩
        rw [hb] at hf
        refine ⟨hb, ?_, ?_, hf⟩ <;> (split_ifs at hlo hhi <;> omega)
      · rintro ⟨hb, h1, h2, hf⟩
        rw [← hb] at hf
        refine ⟨hb, by omega, by omega, ?_, ?_, ?_, ?_, hf⟩ <;>
          (split_ifs at hlo hhi <;> omega)
    exact key _ _ rfl rfl
  · rw [if_neg hl]
    exact isMinDist_of_empty _ _ _ _ (fun a b hab => hl (by omega))

theorem colEdge_exact_spec (fontmap : Int → Nat) (v : Nat) (w h x y radius line d : Int) :
    IsMinDist (fun a b => a = line ∧ 0 ≤ a ∧ a < w ∧ 0 ≤ b ∧ b < h ∧
        y - radius + 1 ≤ b ∧ b ≤ y + radius - 1 ∧ fontmap (b * w + a) ≠ v) x y d
      (colEdge_exact fontmap v w h x y radius line d) := by
  unfold colEdge_exact
  by_cases hl : 0 ≤ line ∧ line < w
  · rw [if_pos hl]
    have key : ∀ lo hi : Int, lo = (if y - radius + 1 < 0 then 0 else y - radius + 1) →
        hi = (if y + radius - 1 ≥ h then h - 1 else y + radius - 1) →
        IsMinDist (fun a b => a = line ∧ 0 ≤ a ∧ a < w ∧ 0 ≤ b ∧ b < h ∧
          y - radius + 1 ≤ b ∧ b ≤ y + radius - 1 ∧ fontmap (b * w + a) ≠ v) x y d
          (scanCol_exact fontmap v w x y line (hi - lo + 1).toNat lo (lo * w + line) d) := by
      intro lo hi hlo hhi
      refine isMinDist_congr _ _ x y d _
        (scanCol_exact_spec fontmap v w x y line (hi - lo + 1).toNat lo d) ?_
      intro a b
      constructor
      · rintro ⟨ha, _, _, hb0, hbh, hyl, hyr, hf⟩
        rw [ha] at hf
        refine ⟨ha, ?_, ?_, hf⟩ <;> (split_ifs at hlo hhi <;> omega)
      · rintro ⟨ha, h1, h2, hf⟩
        rw [← ha] at hf
        refine ⟨ha, by omega, by omega, ?_, ?_, ?_, ?_, hf⟩ <;>
          (split_ifs at hlo hhi <;> omega)
    exact key _ _ rfl rfl
  · rw [if_neg hl]
    exact isMinDist_of_empty _ _ _ _ (fun a b hab => hl (by omega))

theorem differs_iff (fontmap : Int → Nat) (v : Nat) (w h x y lo hi i j : Int) :
    Differs fontmap v w h x y lo hi i j ↔
      (0 ≤ i ∧ i < w ∧ 0 ≤ j ∧ j < h ∧ fontmap (j * w + i) ≠ v) ∧
        (lo ≤ i - x ∨ lo ≤ x - i ∨ lo ≤ j - y ∨ lo ≤ y - j) ∧
        (x - i < hi ∧ i - x < hi ∧ y - j < hi ∧ j - y < hi) := by
  unfold Differs
  simp only [le_max_iff, le_abs, max_lt_iff, abs_lt, neg_sub]
  constructor
  · rintro ⟨a, b, c, d, e, f, g⟩
    exact ⟨⟨a, b, c, d, e⟩, by omega, by omega⟩
  · rintro ⟨⟨a, b, c, d, e⟩, f, g⟩
    exact ⟨a, b, c, d, e, by omega, by omega⟩

theorem ringStep_exact_spec (fontmap : Int → Nat) (v : Nat) (w h x y radius d : Int)
    (hr : 1 ≤ radius) :
    IsMinDist (Differs fontmap v w h x y radius (radius + 1)) x y d
      (ringStep_exact fontmap v w h x y radius d) := by
  unfold ringStep_exact
  have n := rowEdge_exact_spec fontmap v w h x y radius (y - radius) d
  have ns := isMinDist_trans _ _ _ x y _ _ _ n
    (rowEdge_exact_spec fontmap v w h x y radius (y + radius) _) (fun _ _ => Iff.rfl)
  have nsw := isMinDist_trans _ _ _ x y _ _ _ ns
    (colEdge_exact_spec fontmap v w h x y radius (x - radius) _) (fun _ _ => Iff.rfl)
  have nswe := isMinDist_trans _ _ _ x y _ _ _ nsw
    (colEdge_exact_spec fontmap v w h x y radius (x + radius) _) (fun _ _ => Iff.rfl)
  refine isMinDist_congr _ _ x y d _ nswe ?_
  intro a b
  rw [differs_iff]
  constructor
  · rintro ⟨⟨a0, aw, b0, bh, hf⟩, hlo, hhi⟩
    by_cases hN : b = y - radius
    · exact Or.inl (Or.inl (Or.inl ⟨hN, b0, bh, a0, aw, by omega, by omega, hf⟩))
    by_cases hS : b = y + radius
    · exact Or.inl (Or.inl (Or.inr ⟨hS, b0, bh, a0, aw, by omega, by omega, hf⟩))
    by_cases hW : a = x - radius
    · exact Or.inl (Or.inr ⟨hW, a0, aw, b0, bh, by omega, by omega, hf⟩)
    · exact Or.inr ⟨by omega, a0, aw, b0, bh, by omega, by omega, hf⟩
  · rintro (((⟨e, b0, bh, a0, aw, l, r, hf⟩ | ⟨e, b0, bh, a0, aw, l, r, hf⟩) |
      ⟨e, a0, aw, b0, bh, l, r, hf⟩) | ⟨e, a0, aw, b0, bh, l, r, hf⟩) <;>
      exact ⟨⟨a0, aw, b0, bh, hf⟩, by omega, by omega⟩

theorem radialLoop_exact_spec (fontmap : Int → Nat) (v : Nat) (w h x y R d0 : Int) (n : Nat) :
    ∀ radius d : Int, 1 ≤ radius → radius ≤ R + 1 → (R + 1 - radius).toNat ≤ n →
      IsMinDist (Differs fontmap v w h x y 1 radius) x y d0 d →
      IsMinDist (Differs fontmap v w h x y 1 (R + 1)) x y d0
        (radialLoop_exact fontmap v w h x y R n radius d) := by
  induction n with
  | zero =>
    intro radius d h1 h2 h3 hd
    have : radius = R + 1 := by omega
    subst this
    exact hd
  | succ n ih =>
    intro radius d h1 h2 h3 hd
    unfold radialLoop_exact
    by_cases hc : radius ≤ R ∧ radius * radius < d
    · rw [if_pos hc]
      refine ih (radius + 1) _ (by omega) (by omega) (by omega) ?_
      refine isMinDist_trans _ _ _ x y d0 d _ hd
        (ringStep_exact_spec fontmap v w h x y radius d h1) ?_
      intro a b
      simp only [differs_iff]
      constructor
      · rintro ⟨hin, hlo, hhi⟩
        by_cases hlt : x - a < radius ∧ a - x < radius ∧ y - b < radius ∧ b - y < radius
        · exact Or.inl ⟨hin, hlo, hlt⟩
        · exact Or.inr ⟨hin, by omega, hhi⟩
      · rintro (⟨hin, hlo, hhi⟩ | ⟨hin, hlo, hhi⟩)
        · exact ⟨hin, hlo, by omega⟩
        · exact ⟨hin, by omega, hhi⟩
    · rw [if_neg hc]
      obtain ⟨a1, b1, c1⟩ := hd
      refine ⟨a1, fun i j hij => ?_, ?_⟩
      · by_cases hlt : x - i < radius ∧ i - x < radius ∧ y - j < radius ∧ j - y < radius
        · refine b1 i j ?_
          rw [differs_iff] at hij ⊢
          exact ⟨hij.1, hij.2.1, hlt⟩
        · rw [differs_iff] at hij
          have hRr : radius ≤ R := by omega
          have hdr : d ≤ radius * radius := by
            by_contra hcon
            exact hc ⟨hRr, by omega⟩
          have hsq : radius * radius ≤ (i - x) * (i - x) + (j - y) * (j - y) := by
            have hx0 : 0 ≤ (i - x) * (i - x) := mul_self_nonneg _
            have hy0 : 0 ≤ (j - y) * (j - y) := mul_self_nonneg _
            by_cases hA : radius ≤ i - x
            · nlinarith
            by_cases hB : radius ≤ x - i
            · nlinarith
            by_cases hC : radius ≤ j - y
            · nlinarith
            have hD : radius ≤ y - j := by omega
            nlinarith
          omega
      · rcases c1 with e | ⟨i, j, hij, e⟩
        · exact Or.inl e
        · refine Or.inr ⟨i, j, ?_, e⟩
          rw [differs_iff] at hij ⊢
          exact ⟨hij.1, hij.2.1, by omega⟩

theorem get_SDF_d2_exact_isMin (fontmap : Int → Nat) (w h x y R : Int) (hR : 0 ≤ R) :
    IsMinDist (Differs fontmap (fontmap (x + y * w)) w h x y 1 (R + 1)) x y (R * R + 1)
      (get_SDF_d2_exact fontmap w h x y R) := by
  unfold get_SDF_d2_exact
  refine radialLoop_exact_spec fontmap _ w h x y R (R * R + 1) R.toNat 1 _ (le_refl _) (by omega)
    (by omega) ?_
  refine isMinDist_of_empty _ _ _ _ (fun i j hij => ?_)
  rw [differs_iff] at hij
  omega

theorem radialLoop_exact_fuel (fontmap : Int → Nat) (v : Nat) (w h x y R : Int) (n : Nat) :
    ∀ (m : Nat) (radius d : Int), (R + 1 - radius).toNat ≤ n → (R + 1 - radius).toNat ≤ m →
      radialLoop_exact fontmap v w h x y R n radius d = radialLoop_exact fontmap v w h x y R m radius d := by
  induction n with
  | zero =>
    intro m radius d hn _
    cases m with
    | zero => rfl
    | succ m =>
      have hc : ¬ (radius ≤ R ∧ radius * radius < d) := fun hc => by omega
      simp only [radialLoop_exact, if_neg hc]
  | succ n ih =>
    intro m radius d hn hm
    by_cases hc : radius ≤ R ∧ radius * radius < d
    · cases m with
      | zero => omega
      | succ m =>
        simp only [radialLoop_exact, if_pos hc]
        exact ih m _ _ (by omega) (by omega)
    · cases m with
      | zero => simp only [radialLoop_exact, if_neg hc]
      | succ m => simp only [radialLoop_exact, if_neg hc]

theorem ceilSqrt_le_iff (n k : Nat) : ceilSqrt n ≤ k ↔ n ≤ k * k := by
  unfold ceilSqrt
  have h1 := Nat.sqrt_le n
  have h2 := Nat.lt_succ_sqrt n
  by_cases hs : Nat.sqrt n * Nat.sqrt n = n
  · rw [if_pos hs]
    constructor
    · intro h
      calc n = Nat.sqrt n * Nat.sqrt n := hs.symm
        _ ≤ k * k := Nat.mul_le_mul h h
    · intro h
      by_contra hlt
      have hlt' : k + 1 ≤ Nat.sqrt n := by omega
      have : (k + 1) * (k + 1) ≤ Nat.sqrt n * Nat.sqrt n := Nat.mul_le_mul hlt' hlt'
      nlinarith
  · rw [if_neg hs]
    constructor
    · intro h
      have : (Nat.sqrt n + 1) * (Nat.sqrt n + 1) ≤ k * k := Nat.mul_le_mul h h
      have h2' : n < (Nat.sqrt n + 1) * (Nat.sqrt n + 1) := h2
      omega
    · intro h
      by_contra hlt
      have hle : k ≤ Nat.sqrt n := by omega
      have : k * k ≤ Nat.sqrt n * Nat.sqrt n := Nat.mul_le_mul hle hle
      omega

theorem sdf_byte_exact_nat (v d r : Nat) :
    sdf_byte_exact v (d : Int) (r : Int) =
      if v = 0 then 128 - (ceilSqrt (65025 * d) + 2 * r - 1) / (2 * r)
      else min 255 (128 + Nat.sqrt (65025 * d) / (2 * r)) := by
  have e1 : (65025 * (d : Int)).toNat = 65025 * d := by omega
  have e2 : (2 * (r : Int)).toNat = 2 * r := by omega
  simp only [sdf_byte_exact, e1, e2]

theorem sdf_byte_exact_saturated (v : Nat) (R : Int) (hR : 1 ≤ R) :
    sdf_byte_exact v (R * R + 1) R = if v ≠ 0 then 255 else 0 := by
  obtain ⟨r, rfl⟩ := Int.eq_ofNat_of_zero_le (by omega : 0 ≤ R)
  have hr : 1 ≤ r := by omega
  have e : ((r : Int) * r + 1) = ((r * r + 1 : Nat) : Int) := by push_cast; ring
  rw [e, sdf_byte_exact_nat]
  have hsq : 255 * r ≤ Nat.sqrt (65025 * (r * r + 1)) := by
    rw [Nat.le_sqrt]; nlinarith
  have hq : 127 ≤ Nat.sqrt (65025 * (r * r + 1)) / (2 * r) := by
    rw [Nat.le_div_iff_mul_le (by omega)]; omega
  have hc : 255 * r + 1 ≤ ceilSqrt (65025 * (r * r + 1)) := by
    by_contra hlt
    have hle : ceilSqrt (65025 * (r * r + 1)) ≤ 255 * r := by omega
    rw [ceilSqrt_le_iff] at hle
    nlinarith
  have hq2 : 128 ≤ (ceilSqrt (65025 * (r * r + 1)) + 2 * r - 1) / (2 * r) := by
    rw [Nat.le_div_iff_mul_le (by omega)]; omega
  by_cases hv : v = 0
  · simp only [hv, if_true, ne_eq, not_true_eq_false, if_false]; omega
  · simp only [hv, if_false, ne_eq, not_false_eq_true, if_true]; omega

theorem sqrt_cast_le_iff (N k : Nat) : Real.sqrt (N : ℝ) ≤ (k : ℝ) ↔ N ≤ k * k := by
  rw [Real.sqrt_le_left (by positivity)]
  constructor
  · intro h; have : ((N : ℕ) : ℝ) ≤ ((k * k : ℕ) : ℝ) := by push_cast; nlinarith
    exact_mod_cast this
  · intro h; have : ((N : ℕ) : ℝ) ≤ ((k * k : ℕ) : ℝ) := by exact_mod_cast h
    push_cast at this; nlinarith

theorem cast_le_sqrt_iff (N k : Nat) : (k : ℝ) ≤ Real.sqrt (N : ℝ) ↔ k * k ≤ N := by
  rw [Real.le_sqrt (by positivity) (by positivity)]
  constructor
  · intro h; have : ((k * k : ℕ) : ℝ) ≤ ((N : ℕ) : ℝ) := by push_cast; nlinarith
    exact_mod_cast this
  · intro h; have : ((k * k : ℕ) : ℝ) ≤ ((N : ℕ) : ℝ) := by exact_mod_cast h
    push_cast at this; nlinarith
theorem ceilDiv_spec (a b : Nat) (hb : 0 < b) :
    a ≤ b * ((a + b - 1) / b) ∧ (0 < a → b * ((a + b - 1) / b - 1) < a) := by
  have h1 := Nat.div_add_mod (a + b - 1) b
  have h2 := Nat.mod_lt (a + b - 1) hb
  generalize (a + b - 1) / b = q at *
  generalize (a + b - 1) % b = m at *
  constructor
  · omega
  · intro ha
    cases q with
    | zero => simpa using ha
    | succ q =>
      simp only [Nat.add_sub_cancel]
      have : b * (q + 1) = b * q + b := by ring
      omega

/-- The integer computation `sdf_byte_exact` agrees with the byte mapping of the source read
over exact reals: `sqrt`, sign flip for a background centre, scaling by
`127.5 / max_radius`, offset `127.5`, clamp to `[0, 255]`, and truncation of `d2 + 0.5`. -/
theorem sdf_byte_exact_eq_real (v : Nat) (d2 R : Int) (hd : 0 ≤ d2) (hR : 1 ≤ R) :
    ((sdf_byte_exact v d2 R : Nat) : Int)
      = ⌊min (255 : ℝ) (max 0 ((if v = 0 then -Real.sqrt (d2 : ℝ) else Real.sqrt (d2 : ℝ))
          * (127.5 / (R : ℝ)) + 127.5)) + 0.5⌋ := by
  obtain ⟨d, rfl⟩ := Int.eq_ofNat_of_zero_le hd
  obtain ⟨r, rfl⟩ := Int.eq_ofNat_of_zero_le (by omega : 0 ≤ R)
  have hr : 1 ≤ r := by omega
  have hrR : (1 : ℝ) ≤ (r : ℝ) := by exact_mod_cast hr
  rw [sdf_byte_exact_nat]
  -- the real square root of `65025 * d`
  have hS : Real.sqrt ((65025 * d : ℕ) : ℝ) = 255 * Real.sqrt (d : ℝ) := by
    have : ((65025 * d : ℕ) : ℝ) = (255 * 255) * (d : ℝ) := by push_cast; ring
    rw [this, Real.sqrt_mul (by norm_num), Real.sqrt_mul_self (by norm_num)]
  have hs : Real.sqrt (d : ℝ) * (127.5 / (r : ℝ))
      = Real.sqrt ((65025 * d : ℕ) : ℝ) / (2 * r) := by
    rw [hS]; field_simp; ring
  simp only [Int.cast_natCast]
  generalize hN : 65025 * d = N at hs
  set S := Real.sqrt ((N : ℕ) : ℝ) with hSdef
  have hS0 : 0 ≤ S := Real.sqrt_nonneg _
  have h2r : (0 : ℝ) < 2 * r := by linarith
  by_cases hv : v = 0
  · simp only [hv, if_true]
    rw [neg_mul, hs]
    obtain ⟨c1, c2⟩ := ceilDiv_spec (ceilSqrt N) (2 * r) (by omega)
    generalize hc : (ceilSqrt N + 2 * r - 1) / (2 * r) = c at c1 c2
    -- `S / (2r) ≤ c`
    have hle : S ≤ 2 * r * c := by
      have : N ≤ (2 * r * c) * (2 * r * c) := (ceilSqrt_le_iff N _).1 c1
      have := (sqrt_cast_le_iff N (2 * r * c)).2 this
      push_cast at this; exact this
    have hsc : S / (2 * r) ≤ c := by rw [div_le_iff₀ h2r]; linarith
    -- `c - 1 < S / (2r)` when `c ≥ 1`
    have hgt : 1 ≤ c → ((c : ℝ) - 1) < S / (2 * r) := by
      intro hc1
      have hpos : 0 < ceilSqrt N := by
        by_contra h0
        have : ceilSqrt N = 0 := by omega
        rw [this] at hc
        have : (0 + 2 * r - 1) / (2 * r) = 0 := Nat.div_eq_of_lt (by omega)
        omega
      have hlt := c2 hpos
      have hnle : ¬ N ≤ (2 * r * (c - 1)) * (2 * r * (c - 1)) := by
        rw [← ceilSqrt_le_iff]; omega
      have hnS : ¬ S ≤ ((2 * r * (c - 1) : ℕ) : ℝ) := fun h =>
        hnle ((sqrt_cast_le_iff N _).1 h)
      rw [lt_div_iff₀ h2r]
      have hcast : ((2 * r * (c - 1) : ℕ) : ℝ) = ((c : ℝ) - 1) * (2 * r) := by
        rw [Nat.cast_mul, Nat.cast_mul, Nat.cast_sub hc1]; push_cast; ring
      rw [hcast] at hnS
      linarith
    by_cases hc128 : c ≤ 128
    · -- no clamping at 0 needed unless `c = 128` exactly at the boundary
      have hcast : ((128 - c : ℕ) : ℤ) = 128 - (c : ℤ) := by omega
      rw [hcast]
      symm
      rw [Int.floor_eq_iff]
      by_cases ht : 0 ≤ -(S / (2 * r)) + 127.5
      · rw [max_eq_right ht, min_eq_right (by linarith [div_nonneg hS0 h2r.le])]
        push_cast
        constructor
        · norm_num; linarith
        · by_cases hc1 : 1 ≤ c
          · have := hgt hc1; norm_num; linarith
          · have : c = 0 := by omega
            subst this
            have := div_nonneg hS0 h2r.le
            norm_num; linarith
      · have ht' : -(S / (2 * r)) + 127.5 < 0 := lt_of_not_le ht
        rw [max_eq_left ht'.le, min_eq_right (by norm_num)]
        have hc' : c = 128 := by
          have h1 : (127.5 : ℝ) < c := by linarith
          have h2 : ((127 : ℕ) : ℝ) < (c : ℝ) := by push_cast; linarith
          have : 127 < c := by exact_mod_cast h2
          omega
        subst hc'
        push_cast
        constructor <;> norm_num
    · have hcast : ((128 - c : ℕ) : ℤ) = 0 := by omega
      rw [hcast]
      symm
      rw [Int.floor_eq_iff]
      have hc1 : 1 ≤ c := by omega
      have h1 := hgt hc1
      have h129 : (129 : ℝ) ≤ c := by
        have : 129 ≤ c := by omega
        exact_mod_cast this
      have ht' : -(S / (2 * r)) + 127.5 < 0 := by linarith
      rw [max_eq_left ht'.le, min_eq_right (by norm_num)]
      constructor <;> norm_num
  · simp only [hv, if_false]
    rw [hs]
    have hq1 : (2 * r) * (Nat.sqrt N / (2 * r)) ≤ Nat.sqrt N := Nat.mul_div_le _ _
    have hq2 : Nat.sqrt N < (2 * r) * (Nat.sqrt N / (2 * r) + 1) := by
      have := Nat.lt_mul_div_succ (Nat.sqrt N) (by omega : 0 < 2 * r)
      simpa using this
    generalize Nat.sqrt N / (2 * r) = q at hq1 hq2
    have hqle : (q : ℝ) ≤ S / (2 * r) := by
      rw [le_div_iff₀ h2r]
      have h1 : (2 * r * q) * (2 * r * q) ≤ N :=
        le_trans (Nat.mul_le_mul hq1 hq1) (Nat.sqrt_le N)
      have := (cast_le_sqrt_iff N (2 * r * q)).2 h1
      push_cast at this; linarith
    have hqlt : S / (2 * r) < (q : ℝ) + 1 := by
      rw [div_lt_iff₀ h2r]
      have h1 : N < (2 * r * (q + 1)) * (2 * r * (q + 1)) := by
        have := Nat.sqrt_lt.1 hq2
        exact this
      have h2 : ¬ ((2 * r * (q + 1) : ℕ) : ℝ) ≤ S := fun h =>
        absurd ((cast_le_sqrt_iff N _).1 h) (by omega)
      push_cast at h2; linarith
    have ht0 : (0 : ℝ) ≤ S / (2 * r) + 127.5 := by
      have := div_nonneg hS0 h2r.le; linarith
    rw [max_eq_right ht0]
    symm
    rw [Int.floor_eq_iff]
    by_cases ht : S / (2 * r) + 127.5 ≤ 255
    · rw [min_eq_right ht]
      have hq127 : q ≤ 127 := by
        have h2 : (q : ℝ) < ((128 : ℕ) : ℝ) := by push_cast; linarith
        have : q < 128 := by exact_mod_cast h2
        omega
      have : min 255 (128 + q) = 128 + q := by omega
      rw [this]; push_cast
      constructor
      · norm_num; linarith
      · norm_num; linarith
    · have ht' : 255 < S / (2 * r) + 127.5 := lt_of_not_le ht
      rw [min_eq_left ht'.le]
      have hq127 : 127 ≤ q := by
        have h2 : ((126 : ℕ) : ℝ) < (q : ℝ) := by push_cast; linarith
        have : 126 < q := by exact_mod_cast h2
        omega
      have : min 255 (128 + q) = 255 := by omega
      rw [this]; push_cast
      constructor <;> norm_num

/-! ### Indices read by `get_SDF_radial` -/

theorem mem_scanRowReads (n : Nat) :
    ∀ (idx a : Int), a ∈ scanRowReads n idx ↔ idx ≤ a ∧ a < idx + n := by
  induction n with
  | zero => intro idx a; simp [scanRowReads]
  | succ n ih =>
    intro idx a
    simp only [scanRowReads, List.mem_cons, ih]
    push_cast
    omega

theorem mem_scanColReads (w : Int) (n : Nat) :
    ∀ (idx a : Int), a ∈ scanColReads w n idx ↔ ∃ t : Nat, t < n ∧ a = idx + t * w := by
  induction n with
  | zero => intro idx a; simp [scanColReads]
  | succ n ih =>
    intro idx a
    simp only [scanColReads, List.mem_cons, ih]
    constructor
    · rintro (h | ⟨t, ht, h⟩)
      · exact ⟨0, by omega, by simp [h]⟩
      · exact ⟨t + 1, by omega, by rw [h]; push_cast; ring⟩
    · rintro ⟨t, ht, h⟩
      cases t with
      | zero => left; simpa using h
      | succ t => right; exact ⟨t, by omega, by rw [h]; push_cast; ring⟩

theorem rowEdgeReads_in_bounds (w h x radius line a : Int)
    (ha : a ∈ rowEdgeReads w h x radius line) : 0 ≤ a ∧ a < w * h := by
  unfold rowEdgeReads at ha
  by_cases hl : 0 ≤ line ∧ line < h
  · rw [if_pos hl] at ha
    simp only [mem_scanRowReads] at ha
    obtain ⟨h1, h2⟩ := ha
    have hcol : 0 ≤ a - line * w ∧ a - line * w < w := by
      split_ifs at h1 h2 <;> omega
    have hw : 0 < w := by omega
    have hrow : 0 ≤ line * w := mul_nonneg hl.1 hw.le
    have hlast : (line + 1) * w ≤ h * w := mul_le_mul_of_nonneg_right (by omega) hw.le
    have e1 : (line + 1) * w = line * w + w := by ring
    have e2 : w * h = h * w := mul_comm w h
    omega
  · rw [if_neg hl] at ha
    cases ha

theorem colEdgeReads_in_bounds (w h y radius line a : Int)
    (ha : a ∈ colEdgeReads w h y radius line) : 0 ≤ a ∧ a < w * h := by
  unfold colEdgeReads at ha
  by_cases hl : 0 ≤ line ∧ line < w
  · rw [if_pos hl] at ha
    simp only [mem_scanColReads] at ha
    obtain ⟨t, ht, rfl⟩ := ha
    have hw : 0 < w := by omega
    have key : ∀ lo hi : Int, lo = (if y - radius + 1 < 0 then 0 else y - radius + 1) →
        hi = (if y + radius - 1 ≥ h then h - 1 else y + radius - 1) →
        t < (hi - lo + 1).toNat →
        0 ≤ lo * w + line + t * w ∧ lo * w + line + t * w < w * h := by
      intro lo hi hlo hhi htc
      have hr0 : 0 ≤ lo + t := by split_ifs at hlo <;> omega
      have hr1 : lo + t + 1 ≤ h := by split_ifs at hhi <;> omega
      have hrow : 0 ≤ (lo + t) * w := mul_nonneg hr0 hw.le
      have hlast : (lo + t + 1) * w ≤ h * w := mul_le_mul_of_nonneg_right hr1 hw.le
      have e0 : (lo + t) * w = lo * w + t * w := by ring
      have e1 : (lo + t + 1) * w = lo * w + t * w + w := by ring
      have e2 : w * h = h * w := mul_comm w h
      omega
    exact key _ _ rfl rfl ht
  · rw [if_neg hl] at ha
    cases ha

theorem ringReads_in_bounds (w h x y radius a : Int) (ha : a ∈ ringReads w h x y radius) :
    0 ≤ a ∧ a < w * h := by
  unfold ringReads at ha
  simp only [List.mem_append] at ha
  rcases ha with ((ha | ha) | ha) | ha
  · exact rowEdgeReads_in_bounds w h x radius _ a ha
  · exact rowEdgeReads_in_bounds w h x radius _ a ha
  · exact colEdgeReads_in_bounds w h y radius _ a ha
  · exact colEdgeReads_in_bounds w h y radius _ a ha

theorem radialReads_in_bounds (fontmap : Int → Nat) (v : Nat) (w h x y R : Int) (n : Nat) :
    ∀ (radius : Int) (d : ℚ) (a : Int), a ∈ radialReads fontmap v w h x y R n radius d →
      0 ≤ a ∧ a < w * h := by
  induction n with
  | zero => intro radius d a ha; cases ha
  | succ n ih =>
    intro radius d a ha
    unfold radialReads at ha
    by_cases hc : radius ≤ R ∧ fl 24 ((wrap32 (radius * radius) : Int) : ℚ) < d
    · rw [if_pos hc, List.mem_append] at ha
      rcases ha with ha | ha
      · exact ringReads_in_bounds w h x y radius a ha
      · exact ih _ _ a ha
    · rw [if_neg hc] at ha
      cases ha

theorem get_SDF_reads_in_bounds (fontmap : Int → Nat) (w h x y R : Int)
    (hx : 0 ≤ x ∧ x < w) (hy : 0 ≤ y ∧ y < h) (a : Int)
    (ha : a ∈ get_SDF_reads fontmap w h x y R) : 0 ≤ a ∧ a < w * h := by
  unfold get_SDF_reads at ha
  rw [List.mem_cons] at ha
  rcases ha with rfl | ha
  · have hw : 0 < w := by omega
    have hrow : 0 ≤ y * w := mul_nonneg hy.1 hw.le
    have hlast : (y + 1) * w ≤ h * w := mul_le_mul_of_nonneg_right (by omega) hw.le
    have e1 : (y + 1) * w = y * w + w := by ring
    have e2 : w * h = h * w := mul_comm w h
    omega
  · exact radialReads_in_bounds fontmap _ w h x y R _ _ _ a ha

theorem checkPixel_congr (f f' : Int → Nat) (v : Nat) (idx nx ny : Int) (d : ℚ)
    (h : f idx = f' idx) : checkPixel f v idx nx ny d = checkPixel f' v idx nx ny d := by
  unfold checkPixel
  rw [h]

theorem scanRow_congr (f f' : Int → Nat) (v : Nat) (x y line : Int) (n : Nat) :
    ∀ (i idx : Int) (d : ℚ), (∀ a ∈ scanRowReads n idx, f a = f' a) →
      scanRow f v x y line n i idx d = scanRow f' v x y line n i idx d := by
  induction n with
  | zero => intro i idx d _; rfl
  | succ n ih =>
    intro i idx d h
    simp only [scanRow]
    rw [checkPixel_congr f f' v idx _ _ d (h idx (by simp [scanRowReads]))]
    exact ih _ _ _ (fun a ha => h a (by simp [scanRowReads, ha]))

theorem scanCol_congr (f f' : Int → Nat) (v : Nat) (w x y line : Int) (n : Nat) :
    ∀ (i idx : Int) (d : ℚ), (∀ a ∈ scanColReads w n idx, f a = f' a) →
      scanCol f v w x y line n i idx d = scanCol f' v w x y line n i idx d := by
  induction n with
  | zero => intro i idx d _; rfl
  | succ n ih =>
    intro i idx d h
    simp only [scanCol]
    rw [checkPixel_congr f f' v idx _ _ d (h idx (by simp [scanColReads]))]
    exact ih _ _ _ (fun a ha => h a (by simp [scanColReads, ha]))

theorem rowEdge_congr (f f' : Int → Nat) (v : Nat) (w h x y radius line : Int) (d : ℚ)
    (hf : ∀ a ∈ rowEdgeReads w h x radius line, f a = f' a) :
    rowEdge f v w h x y radius line d = rowEdge f' v w h x y radius line d := by
  unfold rowEdge
  unfold rowEdgeReads at hf
  by_cases hl : 0 ≤ line ∧ line < h
  · rw [if_pos hl] at hf ⊢
    rw [if_pos hl]
    exact scanRow_congr f f' v x y line _ _ _ d hf
  · rw [if_neg hl, if_neg hl]

theorem colEdge_congr (f f' : Int → Nat) (v : Nat) (w h x y radius line : Int) (d : ℚ)
    (hf : ∀ a ∈ colEdgeReads w h y radius line, f a = f' a) :
    colEdge f v w h x y radius line d = colEdge f' v w h x y radius line d := by
  unfold colEdge
  unfold colEdgeReads at hf
  by_cases hl : 0 ≤ line ∧ line < w
  · rw [if_pos hl] at hf ⊢
    rw [if_pos hl]
    exact scanCol_congr f f' v w x y line _ _ _ d hf
  · rw [if_neg hl, if_neg hl]

theorem ringStep_congr (f f' : Int → Nat) (v : Nat) (w h x y radius : Int) (d : ℚ)
    (hf : ∀ a ∈ ringReads w h x y radius, f a = f' a) :
    ringStep f v w h x y radius d = ringStep f' v w h x y radius d := by
  unfold ringReads at hf
  simp only [List.mem_append] at hf
  unfold ringStep
  simp only
  rw [rowEdge_congr f f' v w h x y radius (y - radius) d
      (fun a ha => hf a (Or.inl (Or.inl (Or.inl ha)))),
    rowEdge_congr f f' v w h x y radius (y + radius) _
      (fun a ha => hf a (Or.inl (Or.inl (Or.inr ha)))),
    colEdge_congr f f' v w h x y radius (x - radius) _
      (fun a ha => hf a (Or.inl (Or.inr ha))),
    colEdge_congr f f' v w h x y radius (x + radius) _
      (fun a ha => hf a (Or.inr ha))]

theorem radialLoop_congr (f f' : Int → Nat) (v : Nat) (w h x y R : Int) (n : Nat) :
    ∀ (radius : Int) (d : ℚ), (∀ a ∈ radialReads f v w h x y R n radius d, f a = f' a) →
      radialLoop f v w h x y R n radius d = radialLoop f' v w h x y R n radius d ∧
        radialReads f v w h x y R n radius d = radialReads f' v w h x y R n radius d := by
  induction n with
  | zero => intro radius d _; exact ⟨rfl, rfl⟩
  | succ n ih =>
    intro radius d hf
    unfold radialLoop radialReads
    unfold radialReads at hf
    by_cases hc : radius ≤ R ∧ fl 24 ((wrap32 (radius * radius) : Int) : ℚ) < d
    · rw [if_pos hc] at hf
      rw [if_pos hc, if_pos hc, if_pos hc, if_pos hc]
      have hring := ringStep_congr f f' v w h x y radius d
        (fun a ha => hf a (List.mem_append.2 (Or.inl ha)))
      obtain ⟨h1, h2⟩ := ih (radius + 1) (ringStep f v w h x y radius d)
        (fun a ha => hf a (List.mem_append.2 (Or.inr ha)))
      rw [← hring]
      exact ⟨h1, by rw [h2]⟩
    · rw [if_neg hc, if_neg hc, if_neg hc, if_neg hc]
      exact ⟨rfl, rfl⟩

/-- The list `get_SDF_reads` is complete: two buffers that agree at the listed indices
give the same byte, and the same list of indices. -/
theorem get_SDF_radial_congr (f f' : Int → Nat) (w h x y R : Int)
    (hf : ∀ a ∈ get_SDF_reads f w h x y R, f a = f' a) :
    get_SDF_radial f w h x y R = get_SDF_radial f' w h x y R ∧
      get_SDF_reads f w h x y R = get_SDF_reads f' w h x y R := by
  unfold get_SDF_reads at hf
  have hv : f (x + y * w) = f' (x + y * w) := hf _ (List.mem_cons_self _ _)
  obtain ⟨h1, h2⟩ := radialLoop_congr f f' (f (x + y * w)) w h x y R R.toNat 1 (d2_init R)
    (fun a ha => hf a (List.mem_cons_of_mem _ ha))
  unfold get_SDF_radial get_SDF_d2 get_SDF_reads
  rw [h1, h2, hv]
  exact ⟨rfl, rfl⟩

/-! ### The byte mapping in the arithmetic of the code -/

theorem fl_dyadic (P : Nat) (m : Int) (k : Nat) (hm : |m| < 2 ^ (P + 1)) :
    fl (P + 1) ((m : ℚ) / 2 ^ k) = (m : ℚ) / 2 ^ k := by
  have h := fl_exact P m (-(k : Int)) hm
  rw [zpow_neg, zpow_natCast, ← div_eq_mul_inv] at h
  exact h

theorem fl_neg_of_neg (P : Nat) (x : ℚ) (hx : x < 0) : fl (P + 1) x < 0 := by
  rw [fl_of_neg _ _ hx]
  have := flPos_pos P (-x) (by linarith)
  linarith

theorem fl_ge_dyadic (P : Nat) (m : Int) (k : Nat) (hm : |m| < 2 ^ (P + 1)) (x : ℚ)
    (h : (m : ℚ) / 2 ^ k ≤ x) : (m : ℚ) / 2 ^ k ≤ fl (P + 1) x := by
  rw [← fl_dyadic P m k hm]
  exact fl_mono P _ _ h

theorem fl_le_dyadic (P : Nat) (m : Int) (k : Nat) (hm : |m| < 2 ^ (P + 1)) (x : ℚ)
    (h : x ≤ (m : ℚ) / 2 ^ k) : fl (P + 1) x ≤ (m : ℚ) / 2 ^ k := by
  rw [← fl_dyadic P m k hm]
  exact fl_mono P _ _ h

theorem fl24_one : fl 24 1 = 1 := by
  have := fl_exact_int 23 1 (by norm_num [abs_of_nonneg])
  simpa using this

theorem clampByte_ge (a : ℚ) (h : 255 / 2 ≤ a) : 128 ≤ clampByte a := by
  unfold clampByte
  simp only
  rw [if_neg (by linarith : ¬ a < 0)]
  have hb : (255 : ℚ) / 2 ≤ (if a > 255 then 255 else a) := by
    split_ifs
    · norm_num
    · exact h
  have h1 := fl_ge_dyadic 52 128 0 (by norm_num [abs_of_nonneg])
    ((if a > 255 then 255 else a) + 0.5) (by norm_num; linarith)
  have h2 : (128 : Int) ≤ ⌊fl 53 ((if a > 255 then 255 else a) + 0.5)⌋ :=
    Int.le_floor.2 (by norm_num at h1 ⊢; exact h1)
  omega

theorem clampByte_le (a : ℚ) (h : a ≤ 65279 / 512) : clampByte a ≤ 127 := by
  unfold clampByte
  simp only
  have hb : (if (if a < 0 then 0 else a) > 255 then 255 else (if a < 0 then 0 else a))
      ≤ (65279 : ℚ) / 512 := by
    split_ifs <;> linarith
  have h1 := fl_le_dyadic 52 65535 9 (by norm_num [abs_of_nonneg])
    ((if (if a < 0 then 0 else a) > 255 then 255 else (if a < 0 then 0 else a)) + 0.5)
    (by norm_num; linarith)
  have h2 : ⌊fl 53 ((if (if a < 0 then 0 else a) > 255 then 255
      else (if a < 0 then 0 else a)) + 0.5)⌋ < 128 :=
    Int.floor_lt.2 (by norm_num at h1 ⊢; linarith)
  omega

theorem clampByte_top (a : ℚ) (h : 509 / 2 ≤ a) : clampByte a = 255 := by
  unfold clampByte
  simp only
  rw [if_neg (by linarith : ¬ a < 0)]
  have hb : (509 : ℚ) / 2 ≤ (if a > 255 then 255 else a) ∧
      (if a > 255 then 255 else a) ≤ 255 := by
    split_ifs with hc
    · norm_num
    · exact ⟨h, not_lt.1 hc⟩
  have h1 := fl_ge_dyadic 52 255 0 (by norm_num [abs_of_nonneg])
    ((if a > 255 then 255 else a) + 0.5) (by norm_num; linarith)
  have h1' := fl_le_dyadic 52 511 1 (by norm_num [abs_of_nonneg])
    ((if a > 255 then 255 else a) + 0.5) (by norm_num; linarith)
  have h2 : ⌊fl 53 ((if a > 255 then 255 else a) + 0.5)⌋ = 255 :=
    Int.floor_eq_iff.2 ⟨by norm_num at h1 ⊢; exact h1, by norm_num at h1' ⊢; linarith⟩
  rw [h2]
  rfl

theorem clampByte_bottom (a : ℚ) (h : a ≤ 1 / 4) : clampByte a = 0 := by
  unfold clampByte
  simp only
  have hb : (if (if a < 0 then 0 else a) > 255 then 255 else (if a < 0 then 0 else a))
      ≤ (1 : ℚ) / 4 := by
    split_ifs <;> linarith
  have h1 := fl_le_dyadic 52 3 2 (by norm_num [abs_of_nonneg])
    ((if (if a < 0 then 0 else a) > 255 then 255 else (if a < 0 then 0 else a)) + 0.5)
    (by norm_num; linarith)
  have h2 : ⌊fl 53 ((if (if a < 0 then 0 else a) > 255 then 255
      else (if a < 0 then 0 else a)) + 0.5)⌋ < 1 :=
    Int.floor_lt.2 (by norm_num at h1 ⊢; linarith)
  omega

theorem sdf_byte_of_neg (v : Nat) (d2 : ℚ) (R : Int) (h : d2 < 0) : sdf_byte v d2 R = 0 := by
  unfold sdf_byte
  rw [if_pos h]

/-- A foreground centre with a non-negative `d2` gets a byte of at least 128. -/
theorem sdf_byte_fg_ge (v : Nat) (d2 : ℚ) (R : Int) (hv : v ≠ 0) (hd : 0 ≤ d2) (hR : 1 ≤ R) :
    128 ≤ sdf_byte v d2 R := by
  unfold sdf_byte
  rw [if_neg (not_lt.2 hd), if_neg (by omega : ¬ R = 0)]
  simp only [if_neg hv]
  apply clampByte_ge
  have hR' : (0 : ℚ) < (R : ℚ) := by exact_mod_cast (by omega : 0 < R)
  have hc : 0 ≤ fl 53 (127.5 / (R : ℚ)) := fl_nonneg 52 _ (by positivity)
  have hm : 0 ≤ fl 24 (fl 53 (sqrtF32 d2 * fl 53 (127.5 / (R : ℚ)))) :=
    fl_nonneg 23 _ (fl_nonneg 52 _ (mul_nonneg (sqrtF32_nonneg d2) hc))
  have h1 := fl_ge_dyadic 52 255 1 (by norm_num [abs_of_nonneg])
    (fl 24 (fl 53 (sqrtF32 d2 * fl 53 (127.5 / (R : ℚ)))) + 127.5) (by norm_num; linarith)
  have h2 := fl_ge_dyadic 23 255 1 (by norm_num [abs_of_nonneg]) _ h1
  norm_num at h2 ⊢
  exact h2

/-- A background centre with `d2 >= 1` and `max_radius <= 65280` gets a byte of at most
127: the scaled distance is at least `2^-9`, far above half a unit in the last place of
127.5. -/
theorem sdf_byte_bg_le (v : Nat) (d2 : ℚ) (R : Int) (hv : v = 0) (hd : 1 ≤ d2) (hR : 1 ≤ R)
    (hR2 : R ≤ 65280) : sdf_byte v d2 R ≤ 127 := by
  unfold sdf_byte
  rw [if_neg (by linarith : ¬ d2 < 0), if_neg (by omega : ¬ R = 0)]
  simp only [if_pos hv]
  apply clampByte_le
  have hR' : (0 : ℚ) < (R : ℚ) := by exact_mod_cast (by omega : 0 < R)
  have hR2' : (R : ℚ) ≤ 65280 := by exact_mod_cast hR2
  have ht : 1 ≤ sqrtF32 d2 := by
    have := sqrtF32_ge d2 1 (by norm_num) (by linarith)
    rwa [fl24_one] at this
  have hc : (1 : ℚ) / 2 ^ 9 ≤ fl 53 (127.5 / (R : ℚ)) := by
    have := fl_ge_dyadic 52 1 9 (by norm_num [abs_of_nonneg]) (127.5 / (R : ℚ)) (by
      rw [le_div_iff₀ hR']
      norm_num
      linarith)
    simpa using this
  have hc0 : 0 ≤ fl 53 (127.5 / (R : ℚ)) := le_trans (by norm_num) hc
  have hp : (1 : ℚ) / 2 ^ 9 ≤ sqrtF32 d2 * fl 53 (127.5 / (R : ℚ)) := by
    have := mul_le_mul ht hc (by norm_num) (le_trans (by norm_num) ht)
    linarith
  have h1 := fl_le_dyadic 52 (-1) 9 (by norm_num) (-sqrtF32 d2 * fl 53 (127.5 / (R : ℚ)))
    (by push_cast; linarith)
  have h2 := fl_le_dyadic 23 (-1) 9 (by norm_num) _ h1
  have h3 := fl_le_dyadic 52 65279 9 (by norm_num [abs_of_nonneg])
    (fl 24 (fl 53 (-sqrtF32 d2 * fl 53 (127.5 / (R : ℚ)))) + 127.5)
    (by push_cast at h2 ⊢; norm_num at h2 ⊢; linarith)
  have h4 := fl_le_dyadic 23 65279 9 (by norm_num [abs_of_nonneg]) _ h3
  norm_num at h4 ⊢
  exact h4

/-- Saturation of the byte mapping: when `sqrt(d2)` is at least `max_radius` up to one
rounding, the scaled distance is at least 127.25 and the byte is 255 for a foreground
centre and 0 for a background one. -/
theorem sdf_byte_saturated (v : Nat) (d2 : ℚ) (R : Int) (hR : 1 ≤ R)
    (hd : ((R : ℚ) * (1 - 1 / 2 ^ 24)) * ((R : ℚ) * (1 - 1 / 2 ^ 24)) ≤ d2) :
    sdf_byte v d2 R = if v ≠ 0 then 255 else 0 := by
  have hR' : (0 : ℚ) < (R : ℚ) := by exact_mod_cast (by omega : 0 < R)
  have hy0 : (0 : ℚ) ≤ (R : ℚ) * (1 - 1 / 2 ^ 24) := mul_nonneg hR'.le (by norm_num)
  have hd0 : 0 ≤ d2 := le_trans (mul_nonneg hy0 hy0) hd
  have ht : (R : ℚ) * (1 - 1 / 2 ^ 24) * (1 - 1 / 2 ^ 24) ≤ sqrtF32 d2 :=
    le_trans (fl_rel 23 _ hy0) (sqrtF32_ge d2 _ hy0 hd)
  have hc : 127.5 / (R : ℚ) * (1 - 1 / 2 ^ 53) ≤ fl 53 (127.5 / (R : ℚ)) :=
    fl_rel 52 _ (by positivity)
  have hc0 : 0 ≤ fl 53 (127.5 / (R : ℚ)) := fl_nonneg 52 _ (by positivity)
  have hp : (509 : ℚ) / 2 ^ 2 ≤ sqrtF32 d2 * fl 53 (127.5 / (R : ℚ)) := by
    have h1 := mul_le_mul ht hc (by positivity) (sqrtF32_nonneg d2)
    have e : (R : ℚ) * (1 - 1 / 2 ^ 24) * (1 - 1 / 2 ^ 24) * (127.5 / (R : ℚ) * (1 - 1 / 2 ^ 53))
        = 127.5 * ((1 - 1 / 2 ^ 24) * (1 - 1 / 2 ^ 24) * (1 - 1 / 2 ^ 53)) := by
      field_simp
      ring
    rw [e] at h1
    refine le_trans ?_ h1
    norm_num
  unfold sdf_byte
  rw [if_neg (not_lt.2 hd0), if_neg (by omega : ¬ R = 0)]
  by_cases hv : v = 0
  · simp only [if_pos hv]
    rw [if_neg (by simpa using hv)]
    apply clampByte_bottom
    have h1 := fl_le_dyadic 52 (-509) 2 (by norm_num [abs_of_neg])
      (-sqrtF32 d2 * fl 53 (127.5 / (R : ℚ))) (by push_cast; linarith)
    have h2 := fl_le_dyadic 23 (-509) 2 (by norm_num [abs_of_neg]) _ h1
    have h3 := fl_le_dyadic 52 1 2 (by norm_num [abs_of_nonneg])
      (fl 24 (fl 53 (-sqrtF32 d2 * fl 53 (127.5 / (R : ℚ)))) + 127.5)
      (by push_cast at h2 ⊢; norm_num at h2 ⊢; linarith)
    have h4 := fl_le_dyadic 23 1 2 (by norm_num [abs_of_nonneg]) _ h3
    norm_num at h4 ⊢
    exact h4
  · simp only [if_neg hv]
    rw [if_pos hv]
    apply clampByte_top
    have h1 := fl_ge_dyadic 52 509 2 (by norm_num [abs_of_nonneg])
      (sqrtF32 d2 * fl 53 (127.5 / (R : ℚ))) (by push_cast; linarith)
    have h2 := fl_ge_dyadic 23 509 2 (by norm_num [abs_of_nonneg]) _ h1
    have h3 := fl_ge_dyadic 52 1019 2 (by norm_num [abs_of_nonneg])
      (fl 24 (fl 53 (sqrtF32 d2 * fl 53 (127.5 / (R : ℚ)))) + 127.5)
      (by push_cast at h2 ⊢; norm_num at h2 ⊢; linarith)
    have h4 := fl_ge_dyadic 23 1019 2 (by norm_num [abs_of_nonneg]) _ h3
    norm_num at h4 ⊢
    linarith

/-! ### The radius loop in the arithmetic of the code -/

theorem fl24_mono (x y : ℚ) (h : x ≤ y) : fl 24 x ≤ fl 24 y := fl_mono 23 x y h

theorem fl24_nonneg (x : ℚ) (h : 0 ≤ x) : 0 ≤ fl 24 x := fl_nonneg 23 x h

theorem fl24_int (m : Int) (hm : |m| < 16777216) : fl 24 (m : ℚ) = (m : ℚ) :=
  fl_exact_int 23 m (by norm_num; exact hm)

theorem fl53_int (m : Int) (hm : |m| < 9007199254740992) : fl 53 (m : ℚ) = (m : ℚ) :=
  fl_exact_int 52 m (by norm_num; exact hm)

/-- The initial `d2` when `max_radius*max_radius` does not wrap: `max_radius^2 + 1`
rounded to `float`. -/
theorem d2_init_eq (R : Int) (h : R * R < 2147483648) :
    d2_init R = fl 24 ((R * R + 1 : Int) : ℚ) := by
  unfold d2_init
  have h0 : 0 ≤ R * R := mul_self_nonneg R
  rw [wrap32_of_range _ (by omega) h]
  have e : ((R * R : Int) : ℚ) + 1 = ((R * R + 1 : Int) : ℚ) := by push_cast; ring
  rw [e, fl53_int _ (abs_lt.2 ⟨by omega, by omega⟩)]

/-- The initial `d2` when `max_radius*max_radius` wraps to a negative `int` below `-1`:
a negative `float`. -/
theorem d2_init_neg (R : Int) (h : wrap32 (R * R) + 1 < 0) : d2_init R < 0 := by
  unfold d2_init
  have h1 : ((wrap32 (R * R) : Int) : ℚ) + 1 < 0 := by exact_mod_cast h
  exact fl_neg_of_neg 23 _ (fl_neg_of_neg 52 _ h1)

theorem radialLoop_exit (f : Int → Nat) (v : Nat) (w h x y R : Int) (n : Nat) (radius : Int)
    (d : ℚ) (hc : ¬ (radius ≤ R ∧ fl 24 ((wrap32 (radius * radius) : Int) : ℚ) < d)) :
    radialLoop f v w h x y R n radius d = d := by
  cases n with
  | zero => rfl
  | succ n => simp only [radialLoop, if_neg hc]

/-- The iteration bound `max_radius` of `get_SDF_d2` is never the reason the loop stops:
any two bounds of at least `max_radius + 1 - radius` give the same result. -/
theorem radialLoop_fuel (fontmap : Int → Nat) (v : Nat) (w h x y R : Int) (n : Nat) :
    ∀ (m : Nat) (radius : Int) (d : ℚ), (R + 1 - radius).toNat ≤ n →
      (R + 1 - radius).toNat ≤ m →
      radialLoop fontmap v w h x y R n radius d = radialLoop fontmap v w h x y R m radius d := by
  induction n with
  | zero =>
    intro m radius d hn _
    have hc : ¬ (radius ≤ R ∧ fl 24 ((wrap32 (radius * radius) : Int) : ℚ) < d) :=
      fun hc => by omega
    rw [radialLoop_exit _ _ _ _ _ _ _ _ _ _ hc, radialLoop_exit _ _ _ _ _ _ _ _ _ _ hc]
  | succ n ih =>
    intro m radius d hn hm
    by_cases hc : radius ≤ R ∧ fl 24 ((wrap32 (radius * radius) : Int) : ℚ) < d
    · cases m with
      | zero => omega
      | succ m =>
        simp only [radialLoop, if_pos hc]
        exact ih m _ _ (by omega) (by omega)
    · rw [radialLoop_exit _ _ _ _ _ _ _ _ _ _ hc, radialLoop_exit _ _ _ _ _ _ _ _ _ _ hc]

/-- With a wrapped, negative initial `d2` the radius loop is not entered and the byte
returned is the one the NaN of `sqrtf` converts to. -/
theorem get_SDF_radial_wrapped (f : Int → Nat) (w h x y R : Int)
    (hw : wrap32 (R * R) + 1 < 0) : get_SDF_radial f w h x y R = 0 := by
  have hneg := d2_init_neg R hw
  unfold get_SDF_radial get_SDF_d2
  rw [radialLoop_exit _ _ _ _ _ _ _ _ _ _ (fun hc => by
    have h0 : (0 : ℚ) ≤ fl 24 ((wrap32 (1 * 1) : Int) : ℚ) :=
      fl24_nonneg _ (by rw [wrap32_of_range _ (by norm_num) (by norm_num)]; norm_num)
    linarith [hc.2])]
  exact sdf_byte_of_neg _ _ _ hneg

/-! #### A raster without a differing pixel -/

theorem checkPixel_same (f : Int → Nat) (v : Nat) (idx nx ny : Int) (d : ℚ)
    (h : f idx = v) : checkPixel f v idx nx ny d = d := by
  unfold checkPixel
  rw [if_neg (not_not.2 h)]

theorem scanRow_same (f : Int → Nat) (v : Nat) (x y line : Int) (n : Nat) :
    ∀ (i idx : Int) (d : ℚ), (∀ a ∈ scanRowReads n idx, f a = v) →
      scanRow f v x y line n i idx d = d := by
  induction n with
  | zero => intro i idx d _; rfl
  | succ n ih =>
    intro i idx d h
    simp only [scanRow]
    rw [checkPixel_same f v idx _ _ d (h idx (by simp [scanRowReads]))]
    exact ih _ _ _ (fun a ha => h a (by simp [scanRowReads, ha]))

theorem scanCol_same (f : Int → Nat) (v : Nat) (w x y line : Int) (n : Nat) :
    ∀ (i idx : Int) (d : ℚ), (∀ a ∈ scanColReads w n idx, f a = v) →
      scanCol f v w x y line n i idx d = d := by
  induction n with
  | zero => intro i idx d _; rfl
  | succ n ih =>
    intro i idx d h
    simp only [scanCol]
    rw [checkPixel_same f v idx _ _ d (h idx (by simp [scanColReads]))]
    exact ih _ _ _ (fun a ha => h a (by simp [scanColReads, ha]))

theorem rowEdge_same (f : Int → Nat) (v : Nat) (w h x y radius line : Int) (d : ℚ)
    (hf : ∀ a ∈ rowEdgeReads w h x radius line, f a = v) :
    rowEdge f v w h x y radius line d = d := by
  unfold rowEdge
  unfold rowEdgeReads at hf
  by_cases hl : 0 ≤ line ∧ line < h
  · rw [if_pos hl] at hf ⊢
    exact scanRow_same f v x y line _ _ _ d hf
  · rw [if_neg hl]

theorem colEdge_same (f : Int → Nat) (v : Nat) (w h x y radius line : Int) (d : ℚ)
    (hf : ∀ a ∈ colEdgeReads w h y radius line, f a = v) :
    colEdge f v w h x y radius line d = d := by
  unfold colEdge
  unfold colEdgeReads at hf
  by_cases hl : 0 ≤ line ∧ line < w
  · rw [if_pos hl] at hf ⊢
    exact scanCol_same f v w x y line _ _ _ d hf
  · rw [if_neg hl]

theorem ringStep_same (f : Int → Nat) (v : Nat) (w h x y radius : Int) (d : ℚ)
    (hf : ∀ a ∈ ringReads w h x y radius, f a = v) :
    ringStep f v w h x y radius d = d := by
  unfold ringReads at hf
  simp only [List.mem_append] at hf
  unfold ringStep
  simp only
  rw [rowEdge_same f v w h x y radius (y - radius) d
      (fun a ha => hf a (Or.inl (Or.inl (Or.inl ha)))),
    rowEdge_same f v w h x y radius (y + radius) _
      (fun a ha => hf a (Or.inl (Or.inl (Or.inr ha)))),
    colEdge_same f v w h x y radius (x - radius) _
      (fun a ha => hf a (Or.inl (Or.inr ha))),
    colEdge_same f v w h x y radius (x + radius) _
      (fun a ha => hf a (Or.inr ha))]

theorem radialLoop_same (f : Int → Nat) (v : Nat) (w h x y R : Int)
    (hf : ∀ a : Int, 0 ≤ a → a < w * h → f a = v) (n : Nat) :
    ∀ (radius : Int) (d : ℚ), radialLoop f v w h x y R n radius d = d := by
  induction n with
  | zero => intro radius d; rfl
  | succ n ih =>
    intro radius d
    unfold radialLoop
    split_ifs
    · rw [ringStep_same f v w h x y radius d (fun a ha =>
        hf a (ringReads_in_bounds w h x y radius a ha).1
          (ringReads_in_bounds w h x y radius a ha).2)]
      exact ih _ _
    · rfl

theorem uniform_of_grid (f : Int → Nat) (val : Nat) (w h : Int) (hw : 0 < w)
    (huni : ∀ i j : Int, 0 ≤ i → i < w → 0 ≤ j → j < h → f (j * w + i) = val) :
    ∀ a : Int, 0 ≤ a → a < w * h → f a = val := by
  intro a ha0 ha1
  have e : a / w * w + a % w = a := by
    rw [mul_comm]; exact Int.ediv_add_emod a w
  have h1 : 0 ≤ a % w := Int.emod_nonneg a (by omega)
  have h2 : a % w < w := Int.emod_lt_of_pos a hw
  have h3 : 0 ≤ a / w := Int.ediv_nonneg ha0 hw.le
  have h4 : a / w < h := Int.ediv_lt_of_lt_mul hw (by rw [mul_comm]; exact ha1)
  have := huni (a % w) (a / w) h1 h2 h3 h4
  rwa [e] at this

/-- On a raster all of whose pixels equal the centre's value the radius loop leaves `d2`
at its initial value. -/
theorem get_SDF_d2_uniform (f : Int → Nat) (w h x y R : Int)
    (hf : ∀ a : Int, 0 ≤ a → a < w * h → f a = f (x + y * w)) :
    get_SDF_d2 f w h x y R = d2_init R := by
  unfold get_SDF_d2
  exact radialLoop_same f _ w h x y R hf _ _ _

/-! #### Lower bound on the squared distance -/

theorem fl24_sq_ge_one (n : Int) (hn : n ≠ 0) :
    1 ≤ fl 24 (fl 24 (n : ℚ) * fl 24 (n : ℚ)) := by
  have h1 : 1 ≤ fl 24 (n : ℚ) ∨ fl 24 (n : ℚ) ≤ -1 := by
    rcases lt_or_gt_of_ne hn with h | h
    · right
      have hq : (n : ℚ) ≤ -1 := by exact_mod_cast (by omega : n ≤ -1)
      have := fl24_mono _ _ hq
      rw [fl_neg, fl24_one] at this
      exact this
    · left
      have hq : (1 : ℚ) ≤ (n : ℚ) := by exact_mod_cast (by omega : 1 ≤ n)
      have := fl24_mono _ _ hq
      rwa [fl24_one] at this
  have h2 : (1 : ℚ) ≤ fl 24 (n : ℚ) * fl 24 (n : ℚ) := by
    rcases h1 with h | h <;> nlinarith
  have := fl24_mono _ _ h2
  rwa [fl24_one] at this

theorem checkPixel_ge_one (f : Int → Nat) (v : Nat) (idx nx ny : Int) (d : ℚ) (hd : 1 ≤ d)
    (hn : nx ≠ 0 ∨ ny ≠ 0) : 1 ≤ checkPixel f v idx nx ny d := by
  unfold checkPixel
  simp only
  split_ifs with h1 h2
  · have hx0 : 0 ≤ fl 24 (fl 24 (nx : ℚ) * fl 24 (nx : ℚ)) :=
      fl24_nonneg _ (mul_self_nonneg _)
    have hy0 : 0 ≤ fl 24 (fl 24 (ny : ℚ) * fl 24 (ny : ℚ)) :=
      fl24_nonneg _ (mul_self_nonneg _)
    have hs : (1 : ℚ) ≤ fl 24 (fl 24 (nx : ℚ) * fl 24 (nx : ℚ))
        + fl 24 (fl 24 (ny : ℚ) * fl 24 (ny : ℚ)) := by
      rcases hn with h | h
      · have := fl24_sq_ge_one nx h; linarith
      · have := fl24_sq_ge_one ny h; linarith
    have := fl24_mono _ _ hs
    rwa [fl24_one] at this
  · exact hd
  · exact hd

theorem scanRow_ge_one (f : Int → Nat) (v : Nat) (x y line : Int) (hl : line ≠ y) (n : Nat) :
    ∀ (i idx : Int) (d : ℚ), 1 ≤ d → 1 ≤ scanRow f v x y line n i idx d := by
  induction n with
  | zero => intro i idx d hd; exact hd
  | succ n ih =>
    intro i idx d hd
    simp only [scanRow]
    exact ih _ _ _ (checkPixel_ge_one f v idx _ _ d hd (Or.inr (by omega)))

theorem scanCol_ge_one (f : Int → Nat) (v : Nat) (w x y line : Int) (hl : line ≠ x)
    (n : Nat) :
    ∀ (i idx : Int) (d : ℚ), 1 ≤ d → 1 ≤ scanCol f v w x y line n i idx d := by
  induction n with
  | zero => intro i idx d hd; exact hd
  | succ n ih =>
    intro i idx d hd
    simp only [scanCol]
    exact ih _ _ _ (checkPixel_ge_one f v idx _ _ d hd (Or.inl (by omega)))

theorem rowEdge_ge_one (f : Int → Nat) (v : Nat) (w h x y radius line : Int) (d : ℚ)
    (hl : line ≠ y) (hd : 1 ≤ d) : 1 ≤ rowEdge f v w h x y radius line d := by
  unfold rowEdge
  split_ifs
  · exact scanRow_ge_one f v x y line hl _ _ _ d hd
  · exact hd

theorem colEdge_ge_one (f : Int → Nat) (v : Nat) (w h x y radius line : Int) (d : ℚ)
    (hl : line ≠ x) (hd : 1 ≤ d) : 1 ≤ colEdge f v w h x y radius line d := by
  unfold colEdge
  split_ifs
  · exact scanCol_ge_one f v w x y line hl _ _ _ d hd
  · exact hd

theorem ringStep_ge_one (f : Int → Nat) (v : Nat) (w h x y radius : Int) (d : ℚ)
    (hr : 1 ≤ radius) (hd : 1 ≤ d) : 1 ≤ ringStep f v w h x y radius d := by
  unfold ringStep
  simp only
  exact colEdge_ge_one f v w h x y radius _ _ (by omega)
    (colEdge_ge_one f v w h x y radius _ _ (by omega)
      (rowEdge_ge_one f v w h x y radius _ _ (by omega)
        (rowEdge_ge_one f v w h x y radius _ _ (by omega) hd)))

theorem radialLoop_ge_one (f : Int → Nat) (v : Nat) (w h x y R : Int) (n : Nat) :
    ∀ (radius : Int) (d : ℚ), 1 ≤ radius → 1 ≤ d →
      1 ≤ radialLoop f v w h x y R n radius d := by
  induction n with
  | zero => intro radius d _ hd; exact hd
  | succ n ih =>
    intro radius d hr hd
    unfold radialLoop
    split_ifs
    · exact ih _ _ (by omega) (ringStep_ge_one f v w h x y radius d hr hd)
    · exact hd

/-- When `max_radius*max_radius` does not wrap, `d2` is at least 1 at the end of the
radius loop: it starts at `max_radius^2 + 1` and every candidate is the squared distance
to a pixel other than the centre. -/
theorem get_SDF_d2_ge_one (f : Int → Nat) (w h x y R : Int) (hR : R * R < 2147483648) :
    1 ≤ get_SDF_d2 f w h x y R := by
  unfold get_SDF_d2
  refine radialLoop_ge_one f _ w h x y R _ 1 _ (le_refl _) ?_
  rw [d2_init_eq R hR]
  have h0 : 0 ≤ R * R := mul_self_nonneg R
  have hq : (1 : ℚ) ≤ ((R * R + 1 : Int) : ℚ) := by exact_mod_cast (by omega : 1 ≤ R * R + 1)
  have := fl24_mono _ _ hq
  rwa [fl24_one] at this

/-! #### Agreement with the exact loop for `max_radius <= 4095` -/

theorem checkPixel_eq_exact (f : Int → Nat) (v : Nat) (idx nx ny D : Int) (hD0 : 0 ≤ D)
    (hD : D ≤ 16777216) (hx : -4095 ≤ nx ∧ nx ≤ 4095) (hy : -4095 ≤ ny ∧ ny ≤ 4095) :
    checkPixel f v idx nx ny (D : ℚ) = ((checkPixel_exact f v idx nx ny D : Int) : ℚ) ∧
      0 ≤ checkPixel_exact f v idx nx ny D ∧ checkPixel_exact f v idx nx ny D ≤ D := by
  unfold checkPixel checkPixel_exact
  by_cases hne : f idx ≠ v
  · rw [if_pos hne, if_pos hne]
    simp only
    have hxx0 : 0 ≤ nx * nx := mul_self_nonneg nx
    have hyy0 : 0 ≤ ny * ny := mul_self_nonneg ny
    have hxx : nx * nx ≤ 16769025 := by nlinarith
    have hyy : ny * ny ≤ 16769025 := by nlinarith
    have ex : fl 24 (nx : ℚ) = (nx : ℚ) := fl24_int nx (abs_lt.2 ⟨by omega, by omega⟩)
    have ey : fl 24 (ny : ℚ) = (ny : ℚ) := fl24_int ny (abs_lt.2 ⟨by omega, by omega⟩)
    have exx : fl 24 ((nx : ℚ) * (nx : ℚ)) = ((nx * nx : Int) : ℚ) := by
      rw [← Int.cast_mul]; exact fl24_int _ (abs_lt.2 ⟨by omega, by omega⟩)
    have eyy : fl 24 ((ny : ℚ) * (ny : ℚ)) = ((ny * ny : Int) : ℚ) := by
      rw [← Int.cast_mul]; exact fl24_int _ (abs_lt.2 ⟨by omega, by omega⟩)
    rw [ex, ey, exx, eyy, ← Int.cast_add]
    by_cases hs : nx * nx + ny * ny < 16777216
    · rw [fl24_int _ (abs_lt.2 ⟨by omega, by omega⟩)]
      by_cases hlt : nx * nx + ny * ny < D
      · rw [if_pos (by exact_mod_cast hlt), if_pos hlt]
        exact ⟨rfl, by omega, by omega⟩
      · rw [if_neg (by exact_mod_cast hlt), if_neg hlt]
        exact ⟨rfl, hD0, le_refl _⟩
    · have e24 : fl 24 (16777216 : ℚ) = 16777216 := by
        have := fl_exact 23 1 24 (by norm_num)
        norm_num at this
        exact this
      have hge : (16777216 : ℚ) ≤ fl 24 ((nx * nx + ny * ny : Int) : ℚ) := by
        rw [← e24]
        exact fl24_mono _ _ (by exact_mod_cast (by omega : (16777216 : Int) ≤ nx * nx + ny * ny))
      have hDq : (D : ℚ) ≤ (16777216 : ℚ) := by exact_mod_cast hD
      have hn1 : ¬ fl 24 ((nx * nx + ny * ny : Int) : ℚ) < (D : ℚ) := not_lt.2 (by linarith)
      have hn2 : ¬ nx * nx + ny * ny < D := by omega
      rw [if_neg hn1, if_neg hn2]
      exact ⟨rfl, hD0, le_refl _⟩
  · rw [if_neg hne, if_neg hne]
    exact ⟨rfl, hD0, le_refl _⟩

theorem scanRow_eq_exact (f : Int → Nat) (v : Nat) (x y line : Int)
    (hl : -4095 ≤ line - y ∧ line - y ≤ 4095) (n : Nat) :
    ∀ (i idx D : Int), 0 ≤ D → D ≤ 16777216 → x - 4095 ≤ i → i + n ≤ x + 4096 →
      scanRow f v x y line n i idx (D : ℚ) = ((scanRow_exact f v x y line n i idx D : Int) : ℚ) ∧
        0 ≤ scanRow_exact f v x y line n i idx D ∧ scanRow_exact f v x y line n i idx D ≤ D := by
  induction n with
  | zero => intro i idx D h0 _ _ _; exact ⟨rfl, h0, le_refl _⟩
  | succ n ih =>
    intro i idx D h0 h1 h2 h3
    simp only [scanRow, scanRow_exact]
    obtain ⟨e, c0, c1⟩ := checkPixel_eq_exact f v idx (i - x) (line - y) D h0 h1
      ⟨by omega, by push_cast at h3; omega⟩ hl
    rw [e]
    obtain ⟨e', d0, d1⟩ := ih (i + 1) (idx + 1) _ c0 (by omega) (by omega)
      (by push_cast at h3 ⊢; omega)
    exact ⟨e', d0, by omega⟩

theorem scanCol_eq_exact (f : Int → Nat) (v : Nat) (w x y line : Int)
    (hl : -4095 ≤ line - x ∧ line - x ≤ 4095) (n : Nat) :
    ∀ (i idx D : Int), 0 ≤ D → D ≤ 16777216 → y - 4095 ≤ i → i + n ≤ y + 4096 →
      scanCol f v w x y line n i idx (D : ℚ)
          = ((scanCol_exact f v w x y line n i idx D : Int) : ℚ) ∧
        0 ≤ scanCol_exact f v w x y line n i idx D ∧
        scanCol_exact f v w x y line n i idx D ≤ D := by
  induction n with
  | zero => intro i idx D h0 _ _ _; exact ⟨rfl, h0, le_refl _⟩
  | succ n ih =>
    intro i idx D h0 h1 h2 h3
    simp only [scanCol, scanCol_exact]
    obtain ⟨e, c0, c1⟩ := checkPixel_eq_exact f v idx (line - x) (i - y) D h0 h1 hl
      ⟨by omega, by push_cast at h3; omega⟩
    rw [e]
    obtain ⟨e', d0, d1⟩ := ih (i + 1) (idx + w) _ c0 (by omega) (by omega)
      (by push_cast at h3 ⊢; omega)
    exact ⟨e', d0, by omega⟩

theorem rowEdge_eq_exact (f : Int → Nat) (v : Nat) (w h x y radius line D : Int)
    (hx0 : 0 ≤ x) (hr : 0 ≤ radius ∧ radius ≤ 4095)
    (hl : -4095 ≤ line - y ∧ line - y ≤ 4095) (hD0 : 0 ≤ D) (hD : D ≤ 16777216) :
    rowEdge f v w h x y radius line (D : ℚ)
        = ((rowEdge_exact f v w h x y radius line D : Int) : ℚ) ∧
      0 ≤ rowEdge_exact f v w h x y radius line D ∧
      rowEdge_exact f v w h x y radius line D ≤ D := by
  unfold rowEdge rowEdge_exact
  by_cases hc : 0 ≤ line ∧ line < h
  · rw [if_pos hc, if_pos hc]
    simp only
    refine scanRow_eq_exact f v x y line hl _ _ _ D hD0 hD ?_ ?_
    · split_ifs <;> omega
    · split_ifs <;> omega
  · rw [if_neg hc, if_neg hc]
    exact ⟨rfl, hD0, le_refl _⟩

theorem colEdge_eq_exact (f : Int → Nat) (v : Nat) (w h x y radius line D : Int)
    (hy0 : 0 ≤ y) (hr : 0 ≤ radius ∧ radius ≤ 4095)
    (hl : -4095 ≤ line - x ∧ line - x ≤ 4095) (hD0 : 0 ≤ D) (hD : D ≤ 16777216) :
    colEdge f v w h x y radius line (D : ℚ)
        = ((colEdge_exact f v w h x y radius line D : Int) : ℚ) ∧
      0 ≤ colEdge_exact f v w h x y radius line D ∧
      colEdge_exact f v w h x y radius line D ≤ D := by
  unfold colEdge colEdge_exact
  by_cases hc : 0 ≤ line ∧ line < w
  · rw [if_pos hc, if_pos hc]
    simp only
    refine scanCol_eq_exact f v w x y line hl _ _ _ D hD0 hD ?_ ?_
    · split_ifs <;> omega
    · split_ifs <;> omega
  · rw [if_neg hc, if_neg hc]
    exact ⟨rfl, hD0, le_refl _⟩

theorem ringStep_eq_exact (f : Int → Nat) (v : Nat) (w h x y radius D : Int)
    (hx0 : 0 ≤ x) (hy0 : 0 ≤ y) (hr : 0 ≤ radius ∧ radius ≤ 4095) (hD0 : 0 ≤ D)
    (hD : D ≤ 16777216) :
    ringStep f v w h x y radius (D : ℚ) = ((ringStep_exact f v w h x y radius D : Int) : ℚ) ∧
      0 ≤ ringStep_exact f v w h x y radius D ∧ ringStep_exact f v w h x y radius D ≤ D := by
  unfold ringStep ringStep_exact
  simp only
  obtain ⟨e1, a1, b1⟩ := rowEdge_eq_exact f v w h x y radius (y - radius) D hx0 hr
    ⟨by omega, by omega⟩ hD0 hD
  rw [e1]
  obtain ⟨e2, a2, b2⟩ := rowEdge_eq_exact f v w h x y radius (y + radius) _ hx0 hr
    ⟨by omega, by omega⟩ a1 (by omega)
  rw [e2]
  obtain ⟨e3, a3, b3⟩ := colEdge_eq_exact f v w h x y radius (x - radius) _ hy0 hr
    ⟨by omega, by omega⟩ a2 (by omega)
  rw [e3]
  obtain ⟨e4, a4, b4⟩ := colEdge_eq_exact f v w h x y radius (x + radius) _ hy0 hr
    ⟨by omega, by omega⟩ a3 (by omega)
  exact ⟨e4, a4, by omega⟩

theorem radialLoop_eq_exact (f : Int → Nat) (v : Nat) (w h x y R : Int) (hx0 : 0 ≤ x)
    (hy0 : 0 ≤ y) (hR : R ≤ 4095) (n : Nat) :
    ∀ (radius D : Int), 0 ≤ radius → 0 ≤ D → D ≤ 16777216 →
      radialLoop f v w h x y R n radius (D : ℚ)
        = ((radialLoop_exact f v w h x y R n radius D : Int) : ℚ) := by
  induction n with
  | zero => intro radius D _ _ _; rfl
  | succ n ih =>
    intro radius D hr hD0 hD
    unfold radialLoop radialLoop_exact
    by_cases hc : radius ≤ R ∧ radius * radius < D
    · have hrr : radius * radius ≤ 16769025 := by nlinarith [hc.1]
      have hrr0 : 0 ≤ radius * radius := mul_self_nonneg radius
      have e : fl 24 ((wrap32 (radius * radius) : Int) : ℚ) = ((radius * radius : Int) : ℚ) := by
        rw [wrap32_of_range _ (by omega) (by omega)]
        exact fl24_int _ (abs_lt.2 ⟨by omega, by omega⟩)
      rw [if_pos hc, if_pos ⟨hc.1, by rw [e]; exact_mod_cast hc.2⟩]
      obtain ⟨e1, a1, b1⟩ := ringStep_eq_exact f v w h x y radius D hx0 hy0
        ⟨hr, by omega⟩ hD0 hD
      rw [e1]
      exact ih _ _ (by omega) a1 (by omega)
    · rw [if_neg hc]
      by_cases hle : radius ≤ R
      · have hrr : radius * radius ≤ 16769025 := by nlinarith
        have hrr0 : 0 ≤ radius * radius := mul_self_nonneg radius
        have e : fl 24 ((wrap32 (radius * radius) : Int) : ℚ)
            = ((radius * radius : Int) : ℚ) := by
          rw [wrap32_of_range _ (by omega) (by omega)]
          exact fl24_int _ (abs_lt.2 ⟨by omega, by omega⟩)
        rw [if_neg (fun hc' => hc ⟨hle, by
          have := hc'.2
          rw [e] at this
          exact_mod_cast this⟩)]
      · rw [if_neg (fun hc' => hle hc'.1)]

/-- For `0 <= max_radius <= 4095` no operation of the radius loop rounds or wraps in a way
that matters: the `float` `d2` at the end of the loop is the integer the exact loop
computes. -/
theorem get_SDF_d2_eq_exact (f : Int → Nat) (w h x y R : Int) (hx0 : 0 ≤ x) (hy0 : 0 ≤ y)
    (hR0 : 0 ≤ R) (hR : R ≤ 4095) :
    get_SDF_d2 f w h x y R = ((get_SDF_d2_exact f w h x y R : Int) : ℚ) := by
  unfold get_SDF_d2 get_SDF_d2_exact
  have hRR : R * R ≤ 16769025 := by nlinarith
  have hRR0 : 0 ≤ R * R := mul_self_nonneg R
  rw [d2_init_eq R (by omega), fl24_int _ (abs_lt.2 ⟨by omega, by omega⟩)]
  exact radialLoop_eq_exact f _ w h x y R hx0 hy0 hR _ 1 _ (by omega) (by omega) (by omega)

/-- At `max_radius = 4096` the initial value `4096^2 + 1 = 2^24 + 1` is not a `float`: it
lies half-way between `2^24` and `2^24 + 2` and rounds to the even neighbour `2^24`. -/
theorem d2_init_4096 : d2_init 4096 = 16777216 := by
  rw [d2_init_eq 4096 (by norm_num)]
  have hx : ((4096 * 4096 + 1 : Int) : ℚ) = 16777217 := by norm_num
  rw [hx]
  have hlog : Int.log 2 (16777217 : ℚ) = 24 := by
    have e : (16777217 : ℚ) = ((16777217 : ℕ) : ℚ) := by norm_num
    rw [e, Int.log_natCast]
    have : Nat.log 2 16777217 = 24 := by
      rw [Nat.log_eq_iff (by norm_num)]
      norm_num
    rw [this]
    rfl
  have hfloor : ⌊(16777217 : ℚ) / 2⌋ = 8388608 := by
    rw [Int.floor_eq_iff]
    norm_num
  unfold fl
  rw [if_pos (by norm_num)]
  unfold flPos
  rw [hlog]
  have e1 : ((24 : ℤ) - (((24 : ℕ) : ℤ) - 1)) = 1 := by norm_num
  rw [e1]
  have e2 : (16777217 : ℚ) / 2 ^ (1 : ℤ) = 16777217 / 2 := by norm_num
  rw [e2]
  have hr : roundHalfEven ((16777217 : ℚ) / 2) = 8388608 := by
    unfold roundHalfEven
    rw [hfloor]
    norm_num
  rw [hr]
  norm_num

/-- The bound `max_radius <= 4095` of `get_SDF_d2_eq_exact` cannot be raised: at
`max_radius = 4096` the loop of the code ends with `d2 = 2^24` on a raster without a
differing pixel, the exact loop with `2^24 + 1`. -/
theorem get_SDF_d2_4096 :
    get_SDF_d2 (fun _ => 0) 1 1 0 0 4096 = 16777216 ∧
      get_SDF_d2_exact (fun _ => 0) 1 1 0 0 4096 = 16777217 := by
  constructor
  · rw [get_SDF_d2_uniform (fun _ => 0) 1 1 0 0 4096 (fun _ _ _ => rfl)]
    exact d2_init_4096
  · obtain ⟨_, _, c⟩ := get_SDF_d2_exact_isMin (fun _ => 0) 1 1 0 0 4096 (by norm_num)
    rcases c with e | ⟨i, j, hij, _⟩
    · rw [e]; norm_num
    · rw [differs_iff] at hij
      exact absurd rfl hij.1.2.2.2.2

/-! ### Evaluating the roundings at concrete values -/

theorem roundHalfEven_eq (q : ℚ) (k : Int) (h1 : (k : ℚ) - 1 / 2 < q)
    (h2 : q < (k : ℚ) + 1 / 2) : roundHalfEven q = k := by
  have a := roundHalfEven_ge q
  have b := roundHalfEven_le q
  have h3 : ((k - 1 : Int) : ℚ) < (roundHalfEven q : ℚ) := by push_cast; linarith
  have h4 : (roundHalfEven q : ℚ) < ((k + 1 : Int) : ℚ) := by push_cast; linarith
  have h3' : k - 1 < roundHalfEven q := by exact_mod_cast h3
  have h4' : roundHalfEven q < k + 1 := by exact_mod_cast h4
  omega

theorem log2_eq (x : ℚ) (e : Int) (h1 : (2 : ℚ) ^ e ≤ x) (h2 : x < (2 : ℚ) ^ (e + 1)) :
    Int.log 2 x = e := by
  have hx : 0 < x := lt_of_lt_of_le (two_zpow_pos e) h1
  obtain ⟨a, b⟩ := log2_spec x hx
  have c1 : (2 : ℚ) ^ (Int.log 2 x) < 2 ^ (e + 1) := lt_of_le_of_lt a h2
  have c2 : (2 : ℚ) ^ e < 2 ^ (Int.log 2 x + 1) := lt_of_le_of_lt h1 b
  rw [zpow_lt_zpow_iff_right₀ (by norm_num)] at c1 c2
  omega

/-- The rounding of a positive `x` with `2^e <= x < 2^(e+1)` whose scaled value
`x / 2^(e-P)` is nearer to the integer `k` than to any other is `k * 2^(e-P)`. -/
theorem fl_eval (P : Nat) (x : ℚ) (e k : Int) (h1 : (2 : ℚ) ^ e ≤ x)
    (h2 : x < (2 : ℚ) ^ (e + 1)) (h3 : (k : ℚ) - 1 / 2 < x / 2 ^ (e - (P : Int)))
    (h4 : x / 2 ^ (e - (P : Int)) < (k : ℚ) + 1 / 2) :
    fl (P + 1) x = (k : ℚ) * 2 ^ (e - (P : Int)) := by
  have hx : 0 < x := lt_of_lt_of_le (two_zpow_pos e) h1
  rw [fl_of_pos _ _ hx]
  unfold flPos
  rw [log2_eq x e h1 h2]
  have hP : ((P + 1 : Nat) : Int) - 1 = (P : Int) := by push_cast; ring
  rw [hP, roundHalfEven_eq _ k h3 h4]

theorem sqrtRound_eq (X : ℚ) (k : Int) (hk : 1 ≤ k)
    (h1 : ((k : ℚ) - 1 / 2) * ((k : ℚ) - 1 / 2) < X)
    (h2 : X < ((k : ℚ) + 1 / 2) * ((k : ℚ) + 1 / 2)) : sqrtRound X = k := by
  have hX0 : 0 ≤ X := le_trans (mul_self_nonneg _) h1.le
  have hfl0 : 0 ≤ ⌊X⌋ := Int.floor_nonneg.2 hX0
  have hfa := Int.floor_le X
  have hfb := Int.lt_floor_add_one X
  obtain ⟨N, hN⟩ := Int.eq_ofNat_of_zero_le hfl0
  have hs1 : Nat.sqrt N * Nat.sqrt N ≤ N := Nat.sqrt_le N
  have hs2 : N < (Nat.sqrt N + 1) * (Nat.sqrt N + 1) := Nat.lt_succ_sqrt N
  have hN' : (⌊X⌋).toNat = N := by omega
  have hs1' : ((Nat.sqrt N : Nat) : ℚ) * ((Nat.sqrt N : Nat) : ℚ) ≤ X := by
    have : ((Nat.sqrt N * Nat.sqrt N : Nat) : ℚ) ≤ ((N : Nat) : ℚ) := by exact_mod_cast hs1
    have e : ((N : Nat) : ℚ) = ((⌊X⌋ : Int) : ℚ) := by rw [hN]; norm_cast
    push_cast at this
    linarith
  have hs2' : X < (((Nat.sqrt N : Nat) : ℚ) + 1) * (((Nat.sqrt N : Nat) : ℚ) + 1) := by
    have : ((N + 1 : Nat) : ℚ) ≤ (((Nat.sqrt N + 1) * (Nat.sqrt N + 1) : Nat) : ℚ) := by
      exact_mod_cast hs2
    have e : ((N : Nat) : ℚ) = ((⌊X⌋ : Int) : ℚ) := by rw [hN]; norm_cast
    push_cast at this
    linarith
  have hkq : (1 : ℚ) ≤ (k : ℚ) := by exact_mod_cast hk
  have hn0 : (0 : ℚ) ≤ ((Nat.sqrt N : Nat) : ℚ) := Nat.cast_nonneg _
  -- `k - 1 <= n <= k`
  have hnk : ((Nat.sqrt N : Nat) : Int) ≤ k := by
    by_contra hcon
    have : k + 1 ≤ ((Nat.sqrt N : Nat) : Int) := by omega
    have hq : (k : ℚ) + 1 ≤ ((Nat.sqrt N : Nat) : ℚ) := by exact_mod_cast this
    nlinarith
  have hkn : k - 1 ≤ ((Nat.sqrt N : Nat) : Int) := by
    by_contra hcon
    have : ((Nat.sqrt N : Nat) : Int) + 1 ≤ k - 1 := by omega
    have hq : ((Nat.sqrt N : Nat) : ℚ) + 1 ≤ (k : ℚ) - 1 := by exact_mod_cast this
    nlinarith
  unfold sqrtRound
  simp only
  rw [hN']
  rcases (by omega : ((Nat.sqrt N : Nat) : Int) = k ∨ ((Nat.sqrt N : Nat) : Int) = k - 1)
    with e | e
  · rw [e]
    rw [if_pos h2]
  · rw [e]
    have e' : (((k - 1 : Int) : ℚ) + 1 / 2) = (k : ℚ) - 1 / 2 := by push_cast; ring
    rw [e', if_neg (not_lt.2 h1.le), if_pos h1]
    ring

/-- The value of `sqrtf` at a positive `x` with `4^e <= x < 4^(e+1)`: `k * 2^(e-23)` for
the integer `k` nearest to the square root of `x / 4^(e-23)`. -/
theorem sqrtF32_eval (x : ℚ) (e k : Int) (hk : 1 ≤ k) (h1 : (2 : ℚ) ^ (2 * e) ≤ x)
    (h2 : x < (2 : ℚ) ^ (2 * e + 2))
    (h3 : ((k : ℚ) - 1 / 2) * ((k : ℚ) - 1 / 2) < x / (2 ^ (e - 23) * 2 ^ (e - 23)))
    (h4 : x / (2 ^ (e - 23) * 2 ^ (e - 23)) < ((k : ℚ) + 1 / 2) * ((k : ℚ) + 1 / 2)) :
    sqrtF32 x = (k : ℚ) * 2 ^ (e - 23) := by
  have hx : 0 < x := lt_of_lt_of_le (two_zpow_pos _) h1
  obtain ⟨a, b⟩ := log2_spec x hx
  have c1 : (2 : ℚ) ^ (Int.log 2 x) < 2 ^ (2 * e + 2) := lt_of_le_of_lt a h2
  have c2 : (2 : ℚ) ^ (2 * e) < 2 ^ (Int.log 2 x + 1) := lt_of_le_of_lt h1 b
  rw [zpow_lt_zpow_iff_right₀ (by norm_num)] at c1 c2
  have he : Int.log 2 x / 2 = e := by omega
  unfold sqrtF32
  rw [if_neg (not_le.2 hx), he, sqrtRound_eq _ k hk h3 h4]

/-- The code's arithmetic against exact reals at `d2 = 8941`, `max_radius = 137`,
foreground: `sqrtf` gives `12393757 * 2^-17`, the `double` product rounds to the `float`
88, the sum is 215.5 and the byte is 216; over exact reals the scaled distance is
87.9999985..., the sum is below 215.5 and the byte is 215. -/
theorem sdf_byte_8941 : sdf_byte 255 8941 137 = 216 ∧ sdf_byte_exact 255 8941 137 = 215 := by
  refine ⟨?_, ?_⟩
  swap
  · have e1 : (65025 * (8941 : Int)).toNat = 581388525 := by decide
    have e2 : (2 * (137 : Int)).toNat = 274 := by decide
    have hsq : Nat.sqrt 581388525 = 24111 :=
      (Nat.eq_sqrt.2 ⟨by norm_num, by norm_num⟩).symm
    simp only [sdf_byte_exact, e1, e2, hsq]
    decide
  have ht : sqrtF32 8941 = 12393757 / 131072 := by
    rw [sqrtF32_eval 8941 6 12393757 (by norm_num) (by norm_num) (by norm_num) (by norm_num)
      (by norm_num)]
    norm_num
  have hc : fl 53 (127.5 / ((137 : Int) : ℚ)) = 2095653111276417 / 2251799813685248 := by
    rw [fl_eval 52 _ (-1) 8382612445105668 (by norm_num) (by norm_num) (by norm_num)
      (by norm_num)]
    norm_num
  have hp : fl 53 ((12393757 : ℚ) / 131072 * (2095653111276417 / 2251799813685248))
      = 774056178851541 / 8796093022208 := by
    rw [fl_eval 52 _ 6 6192449430812328 (by norm_num) (by norm_num) (by norm_num)
      (by norm_num)]
    norm_num
  have hm : fl 24 ((774056178851541 : ℚ) / 8796093022208) = 88 := by
    rw [fl_eval 23 _ 6 11534336 (by norm_num) (by norm_num) (by norm_num) (by norm_num)]
    norm_num
  have hs : fl 53 ((88 : ℚ) + 127.5) = 431 / 2 := by
    have := fl_dyadic 52 431 1 (by norm_num [abs_of_nonneg])
    norm_num at this ⊢
    exact this
  have ha : fl 24 ((431 : ℚ) / 2) = 431 / 2 := by
    have := fl_dyadic 23 431 1 (by norm_num [abs_of_nonneg])
    norm_num at this ⊢
    exact this
  have hz : fl 53 ((431 : ℚ) / 2 + 0.5) = 216 := by
    have := fl_dyadic 52 216 0 (by norm_num [abs_of_nonneg])
    norm_num at this ⊢
    exact this
  unfold sdf_byte
  rw [if_neg (by norm_num), if_neg (by norm_num)]
  simp only [show ¬ ((255 : Nat) = 0) by decide, if_false]
  rw [ht, hc, hp, hm, hs, ha]
  unfold clampByte
  simp only
  rw [if_neg (by norm_num), if_neg (by norm_num), hz]
  norm_num
  rfl

/-- The same comparison at `d2 = 10313`, `max_radius = 156`, background: the `double`
product rounds to the `float` -83, the sum is 44.5 and the byte is 45; over exact reals
the byte is 44. -/
theorem sdf_byte_10313 : sdf_byte 0 10313 156 = 45 ∧ sdf_byte_exact 0 10313 156 = 44 := by
  refine ⟨?_, ?_⟩
  swap
  · have e1 : (65025 * (10313 : Int)).toNat = 670602825 := by decide
    have e2 : (2 * (156 : Int)).toNat = 312 := by decide
    have hsq : Nat.sqrt 670602825 = 25896 :=
      (Nat.eq_sqrt.2 ⟨by norm_num, by norm_num⟩).symm
    have hcs : ceilSqrt 670602825 = 25897 := by
      unfold ceilSqrt
      rw [hsq, if_neg (by norm_num)]
    simp only [sdf_byte_exact, e1, e2, hcs]
    decide
  have ht : sqrtF32 10313 = 13310747 / 131072 := by
    rw [sqrtF32_eval 10313 6 13310747 (by norm_num) (by norm_num) (by norm_num) (by norm_num)
      (by norm_num)]
    norm_num
  have hc : fl 53 (127.5 / ((156 : Int) : ℚ)) = 3680826618523963 / 4503599627370496 := by
    rw [fl_eval 52 _ (-1) 7361653237047926 (by norm_num) (by norm_num) (by norm_num)
      (by norm_num)]
    norm_num
  have hp : fl 53 (-((13310747 : ℚ) / 131072) * (3680826618523963 / 4503599627370496))
      = -(5840605720286129 / 70368744177664) := by
    have e : -((13310747 : ℚ) / 131072) * (3680826618523963 / 4503599627370496)
        = -((13310747 : ℚ) / 131072 * (3680826618523963 / 4503599627370496)) := by ring
    rw [e, fl_neg, fl_eval 52 _ 6 5840605720286129 (by norm_num) (by norm_num) (by norm_num)
      (by norm_num)]
    norm_num
  have hm : fl 24 (-((5840605720286129 : ℚ) / 70368744177664)) = -83 := by
    rw [fl_neg, fl_eval 23 _ 6 10878976 (by norm_num) (by norm_num) (by norm_num)
      (by norm_num)]
    norm_num
  have hs : fl 53 ((-83 : ℚ) + 127.5) = 89 / 2 := by
    have := fl_dyadic 52 89 1 (by norm_num [abs_of_nonneg])
    norm_num at this ⊢
    exact this
  have ha : fl 24 ((89 : ℚ) / 2) = 89 / 2 := by
    have := fl_dyadic 23 89 1 (by norm_num [abs_of_nonneg])
    norm_num at this ⊢
    exact this
  have hz : fl 53 ((89 : ℚ) / 2 + 0.5) = 45 := by
    have := fl_dyadic 52 45 0 (by norm_num [abs_of_nonneg])
    norm_num at this ⊢
    exact this
  unfold sdf_byte
  rw [if_neg (by norm_num), if_neg (by norm_num)]
  simp only [if_true]
  rw [ht, hc, hp, hm, hs, ha]
  unfold clampByte
  simp only
  rw [if_neg (by norm_num), if_neg (by norm_num), hz]
  norm_num
  rfl

/-! ### The boundary symmetry in the arithmetic of the code -/

theorem dy24_ge (m : Int) (k : Nat) (hm1 : -16777216 < m) (hm2 : m < 16777216) (x : ℚ)
    (h : (m : ℚ) / 2 ^ k ≤ x) : (m : ℚ) / 2 ^ k ≤ fl 24 x :=
  fl_ge_dyadic 23 m k (by norm_num; exact abs_lt.2 ⟨hm1, hm2⟩) x h

theorem dy24_le (m : Int) (k : Nat) (hm1 : -16777216 < m) (hm2 : m < 16777216) (x : ℚ)
    (h : x ≤ (m : ℚ) / 2 ^ k) : fl 24 x ≤ (m : ℚ) / 2 ^ k :=
  fl_le_dyadic 23 m k (by norm_num; exact abs_lt.2 ⟨hm1, hm2⟩) x h

theorem dy53_ge (m : Int) (k : Nat) (hm1 : -16777216 < m) (hm2 : m < 16777216) (x : ℚ)
    (h : (m : ℚ) / 2 ^ k ≤ x) : (m : ℚ) / 2 ^ k ≤ fl 53 x :=
  fl_ge_dyadic 52 m k (by norm_num; exact abs_lt.2 ⟨by omega, by omega⟩) x h

theorem dy53_le (m : Int) (k : Nat) (hm1 : -16777216 < m) (hm2 : m < 16777216) (x : ℚ)
    (h : x ≤ (m : ℚ) / 2 ^ k) : fl 53 x ≤ (m : ℚ) / 2 ^ k :=
  fl_le_dyadic 52 m k (by norm_num; exact abs_lt.2 ⟨by omega, by omega⟩) x h

/-- The clamp and the final rounding return `n` for every `a` between `n - 1/2` and
`n + 1/2 - 2^-9`. -/
theorem clampByte_eq (a : ℚ) (n : Int) (hn0 : 0 ≤ n) (hn : n ≤ 255)
    (h1 : ((512 * n - 256 : Int) : ℚ) / 2 ^ 9 ≤ a)
    (h2 : a ≤ ((512 * n + 255 : Int) : ℚ) / 2 ^ 9) : clampByte a = n.toNat := by
  have hnq0 : (0 : ℚ) ≤ (n : ℚ) := by exact_mod_cast hn0
  have hnq : (n : ℚ) ≤ 255 := by exact_mod_cast hn
  push_cast at h1 h2
  norm_num at h1 h2
  unfold clampByte
  simp only
  have hb : (n : ℚ) - 1 / 2 ≤ (if (if a < 0 then 0 else a) > 255 then 255
        else (if a < 0 then 0 else a)) ∧
      (if (if a < 0 then 0 else a) > 255 then 255 else (if a < 0 then 0 else a))
        ≤ (n : ℚ) + 1 / 2 - 1 / 512 := by
    split_ifs with c1 c2 c3 <;> constructor <;> linarith
  have g1 := dy53_ge (512 * n) 9 (by omega) (by omega)
    ((if (if a < 0 then 0 else a) > 255 then 255 else (if a < 0 then 0 else a)) + 0.5)
    (by push_cast; norm_num; linarith [hb.1])
  have g2 := dy53_le (512 * n + 511) 9 (by omega) (by omega)
    ((if (if a < 0 then 0 else a) > 255 then 255 else (if a < 0 then 0 else a)) + 0.5)
    (by push_cast; norm_num; linarith [hb.2])
  push_cast at g1 g2
  have hf : ⌊fl 53 ((if (if a < 0 then 0 else a) > 255 then 255
      else (if a < 0 then 0 else a)) + 0.5)⌋ = n :=
    Int.floor_eq_iff.2 ⟨by norm_num at g1 ⊢; linarith, by norm_num at g2 ⊢; linarith⟩
  rw [hf]

theorem sqrtF32_one : sqrtF32 1 = 1 := by
  rw [sqrtF32_eval 1 0 8388608 (by norm_num) (by norm_num) (by norm_num) (by norm_num)
    (by norm_num)]
  norm_num

/-- The scale factor `127.5 / max_radius` lies strictly inside a unit interval, at least
`2^-9` from both ends: `255` is odd and `2 * k * max_radius` is even. -/
theorem scale_bounds (R : Int) (hR : 1 ≤ R) (hR2 : R ≤ 46340) :
    0 ≤ 255 / (2 * R) ∧ 255 / (2 * R) ≤ 127 ∧
      ((512 * (255 / (2 * R)) + 1 : Int) : ℚ) / 2 ^ 9 ≤ 127.5 / (R : ℚ) ∧
      127.5 / (R : ℚ) ≤ ((512 * (255 / (2 * R)) + 511 : Int) : ℚ) / 2 ^ 9 := by
  have hRq : (0 : ℚ) < (R : ℚ) := by exact_mod_cast (by omega : 0 < R)
  have hRq1 : (1 : ℚ) ≤ (R : ℚ) := by exact_mod_cast hR
  have hRq2 : (R : ℚ) ≤ 46340 := by exact_mod_cast hR2
  have hk0 : 0 ≤ 255 / (2 * R) := Int.ediv_nonneg (by norm_num) (by omega)
  have hk1 : 255 / (2 * R) * (2 * R) ≤ 255 := Int.ediv_mul_le 255 (by omega)
  have hk2 : 255 < (255 / (2 * R) + 1) * (2 * R) := Int.lt_ediv_add_one_mul_self 255 (by omega)
  generalize 255 / (2 * R) = k at hk0 hk1 hk2 ⊢
  have e1 : k * (2 * R) = 2 * (k * R) := by ring
  have e2 : (k + 1) * (2 * R) = 2 * (k * R) + 2 * R := by ring
  rw [e1] at hk1
  rw [e2] at hk2
  have hk127 : k ≤ 127 := by
    by_contra hcon
    have : 128 * R ≤ k * R := mul_le_mul_of_nonneg_right (by omega) (by omega)
    omega
  have h1 : 2 * (k * R) + 1 ≤ 255 := by omega
  have h2 : 256 ≤ 2 * (k * R) + 2 * R := by omega
  have h1q : 2 * ((k : ℚ) * (R : ℚ)) + 1 ≤ 255 := by exact_mod_cast h1
  have h2q : (256 : ℚ) ≤ 2 * ((k : ℚ) * (R : ℚ)) + 2 * (R : ℚ) := by exact_mod_cast h2
  have hkq0 : (0 : ℚ) ≤ (k : ℚ) := by exact_mod_cast hk0
  refine ⟨hk0, hk127, ?_, ?_⟩
  · rw [le_div_iff₀ hRq]
    push_cast
    by_cases hbig : R ≤ 127
    · have hRb : (R : ℚ) ≤ 127 := by exact_mod_cast hbig
      norm_num
      nlinarith
    · have hk : k = 0 := by
        by_contra hne
        have : 1 * R ≤ k * R := mul_le_mul_of_nonneg_right (by omega) (by omega)
        omega
      subst hk
      norm_num
      linarith
  · rw [div_le_iff₀ hRq]
    push_cast
    by_cases hbig : R ≤ 127
    · have hRb : (R : ℚ) ≤ 127 := by exact_mod_cast hbig
      norm_num
      nlinarith
    · have hk : k = 0 := by
        by_contra hne
        have : 1 * R ≤ k * R := mul_le_mul_of_nonneg_right (by omega) (by omega)
        omega
      subst hk
      have hR128 : (128 : ℚ) ≤ (R : ℚ) := by exact_mod_cast (by omega : 128 ≤ R)
      norm_num
      linarith

/-- At squared distance 1 the bytes of a background and of a foreground centre sum to 255
in the arithmetic of the code, for every `max_radius` from 1 to 46340. -/
theorem sdf_byte_unit_sum (R : Int) (hR : 1 ≤ R) (hR2 : R ≤ 46340) (v : Nat) (hv : v ≠ 0) :
    sdf_byte 0 1 R + sdf_byte v 1 R = 255 := by
  obtain ⟨hk0, hk127, hlo, hhi⟩ := scale_bounds R hR hR2
  generalize 255 / (2 * R) = k at hk0 hk127 hlo hhi
  have c1 := dy53_ge (512 * k + 1) 9 (by omega) (by omega) _ hlo
  have c2 := dy53_le (512 * k + 511) 9 (by omega) (by omega) _ hhi
  -- foreground
  have hfg : sdf_byte v 1 R = (128 + k).toNat := by
    unfold sdf_byte
    rw [if_neg (by norm_num), if_neg (by omega : ¬ R = 0)]
    simp only [if_neg hv, sqrtF32_one, one_mul]
    apply clampByte_eq _ (128 + k) (by omega) (by omega)
    · have p1 := dy53_ge (512 * k + 1) 9 (by omega) (by omega) _ c1
      have p2 := dy24_ge (512 * k + 1) 9 (by omega) (by omega) _ p1
      have p3 := dy53_ge (512 * (128 + k) - 255) 9 (by omega) (by omega)
        (fl 24 (fl 53 (fl 53 (127.5 / (R : ℚ)))) + 127.5)
        (by push_cast at p2 ⊢; norm_num at p2 ⊢; linarith)
      have p4 := dy24_ge (512 * (128 + k) - 255) 9 (by omega) (by omega) _ p3
      exact le_trans
        (div_le_div_of_nonneg_right (Int.cast_le.2 (by omega)) (by positivity)) p4
    · have p1 := dy53_le (512 * k + 511) 9 (by omega) (by omega) _ c2
      have p2 := dy24_le (512 * k + 511) 9 (by omega) (by omega) _ p1
      have p3 := dy53_le (512 * (128 + k) + 255) 9 (by omega) (by omega)
        (fl 24 (fl 53 (fl 53 (127.5 / (R : ℚ)))) + 127.5)
        (by push_cast at p2 ⊢; norm_num at p2 ⊢; linarith)
      exact dy24_le (512 * (128 + k) + 255) 9 (by omega) (by omega) _ p3
  -- background
  have hbg : sdf_byte 0 1 R = (127 - k).toNat := by
    unfold sdf_byte
    rw [if_neg (by norm_num), if_neg (by omega : ¬ R = 0)]
    simp only [if_true, sqrtF32_one, neg_mul, one_mul]
    apply clampByte_eq _ (127 - k) (by omega) (by omega)
    · have p1 := dy53_ge (-(512 * k + 511)) 9 (by omega) (by omega)
        (-fl 53 (127.5 / (R : ℚ))) (by push_cast at c2 ⊢; linarith)
      have p2 := dy24_ge (-(512 * k + 511)) 9 (by omega) (by omega) _ p1
      have p3 := dy53_ge (512 * (127 - k) - 255) 9 (by omega) (by omega)
        (fl 24 (fl 53 (-fl 53 (127.5 / (R : ℚ)))) + 127.5)
        (by push_cast at p2 ⊢; norm_num at p2 ⊢; linarith)
      have p4 := dy24_ge (512 * (127 - k) - 255) 9 (by omega) (by omega) _ p3
      exact le_trans
        (div_le_div_of_nonneg_right (Int.cast_le.2 (by omega)) (by positivity)) p4
    · have p1 := dy53_le (-(512 * k + 1)) 9 (by omega) (by omega)
        (-fl 53 (127.5 / (R : ℚ))) (by push_cast at c1 ⊢; linarith)
      have p2 := dy24_le (-(512 * k + 1)) 9 (by omega) (by omega) _ p1
      have p3 := dy53_le (512 * (127 - k) + 255) 9 (by omega) (by omega)
        (fl 24 (fl 53 (-fl 53 (127.5 / (R : ℚ)))) + 127.5)
        (by push_cast at p2 ⊢; norm_num at p2 ⊢; linarith)
      exact dy24_le (512 * (127 - k) + 255) 9 (by omega) (by omega) _ p3
  rw [hfg, hbg]
  omega

theorem checkPixel_le (f : Int → Nat) (v : Nat) (idx nx ny : Int) (d : ℚ) :
    checkPixel f v idx nx ny d ≤ d := by
  unfold checkPixel
  simp only
  split_ifs with h1 h2
  · exact h2.le
  · exact le_refl _
  · exact le_refl _

theorem scanCol_le (f : Int → Nat) (v : Nat) (w x y line : Int) (n : Nat) :
    ∀ (i idx : Int) (d : ℚ), scanCol f v w x y line n i idx d ≤ d := by
  induction n with
  | zero => intro i idx d; exact le_refl _
  | succ n ih =>
    intro i idx d
    simp only [scanCol]
    exact le_trans (ih _ _ _) (checkPixel_le f v idx _ _ d)

theorem colEdge_le (f : Int → Nat) (v : Nat) (w h x y radius line : Int) (d : ℚ) :
    colEdge f v w h x y radius line d ≤ d := by
  unfold colEdge
  split_ifs
  · exact scanCol_le f v w x y line _ _ _ d
  · exact le_refl _

theorem checkPixel_unit (f : Int → Nat) (v : Nat) (idx nx ny : Int) (d : ℚ)
    (hne : f idx ≠ v) (hd : 1 ≤ d) (hx : nx = 1 ∨ nx = -1) (hy : ny = 0) :
    checkPixel f v idx nx ny d = 1 := by
  unfold checkPixel
  rw [if_pos hne]
  simp only
  have e : fl 24 (fl 24 (fl 24 (nx : ℚ) * fl 24 (nx : ℚ))
      + fl 24 (fl 24 (ny : ℚ) * fl 24 (ny : ℚ))) = 1 := by
    subst hy
    have e0 : fl 24 (((0 : Int) : ℚ)) = 0 := by rw [Int.cast_zero, fl_zero]
    have e1 : fl 24 (fl 24 (nx : ℚ) * fl 24 (nx : ℚ)) = 1 := by
      rcases hx with rfl | rfl
      · rw [Int.cast_one, fl24_one, one_mul, fl24_one]
      · rw [Int.cast_neg, Int.cast_one, fl_neg, fl24_one, neg_mul_neg, one_mul, fl24_one]
    rw [e0, e1, mul_zero, fl_zero, add_zero, fl24_one]
  rw [e]
  split_ifs with hlt
  · rfl
  · exact le_antisymm (not_lt.1 hlt) hd

/-- A west or east edge at radius 1 whose single pixel, the horizontal neighbour of the
centre, differs from the centre sets `d2` to 1. -/
theorem colEdge_unit (f : Int → Nat) (v : Nat) (w h x y line : Int) (d : ℚ)
    (hl : 0 ≤ line ∧ line < w) (hy : 0 ≤ y ∧ y < h) (hx : line - x = 1 ∨ line - x = -1)
    (hne : f (y * w + line) ≠ v) (hd : 1 ≤ d) : colEdge f v w h x y 1 line d = 1 := by
  unfold colEdge
  rw [if_pos hl]
  simp only
  have elo : (if y - 1 + 1 < 0 then 0 else y - 1 + 1) = y := by split_ifs <;> omega
  have ehi : (if y + 1 - 1 ≥ h then h - 1 else y + 1 - 1) = y := by split_ifs <;> omega
  have en : (y - y + 1).toNat = 1 := by simp
  rw [elo, ehi, en]
  simp only [scanCol]
  exact checkPixel_unit f v _ _ _ d hne hd hx (sub_self y)

theorem radialLoop_first (f : Int → Nat) (v : Nat) (w h x y R : Int) (hR : 1 ≤ R)
    (hRR : R * R < 2147483648) :
    radialLoop f v w h x y R R.toNat 1 (d2_init R)
      = radialLoop f v w h x y R (R.toNat - 1) 2 (ringStep f v w h x y 1 (d2_init R)) := by
  obtain ⟨n, hn⟩ : ∃ n, R.toNat = n + 1 := ⟨R.toNat - 1, by omega⟩
  have hc : (1 : Int) ≤ R ∧ fl 24 ((wrap32 (1 * 1) : Int) : ℚ) < d2_init R := by
    refine ⟨hR, ?_⟩
    rw [wrap32_of_range _ (by norm_num) (by norm_num), d2_init_eq R hRR]
    have h1 : (1 : Int) ≤ R * R := by nlinarith
    have h2 : ((2 : Int) : ℚ) ≤ ((R * R + 1 : Int) : ℚ) := by exact_mod_cast (by omega)
    have h3 := fl24_mono _ _ h2
    rw [fl24_int 2 (by norm_num [abs_of_nonneg])] at h3
    have h4 : fl 24 (((1 * 1 : Int)) : ℚ) = 1 := by
      rw [fl24_int _ (by norm_num [abs_of_nonneg])]
      norm_num
    rw [h4]
    have : ((2 : Int) : ℚ) = 2 := by norm_num
    linarith
  rw [hn]
  simp only [radialLoop, if_pos hc]
  norm_num

theorem radialLoop_stop_at_one (f : Int → Nat) (v : Nat) (w h x y R : Int) (n : Nat) :
    radialLoop f v w h x y R n 2 1 = 1 := by
  apply radialLoop_exit
  intro hc
  have h4 : fl 24 ((wrap32 (2 * 2) : Int) : ℚ) = 4 := by
    rw [wrap32_of_range _ (by norm_num) (by norm_num),
      fl24_int _ (by norm_num [abs_of_nonneg])]
    norm_num
  rw [h4] at hc
  linarith [hc.2]

/-- A centre whose east neighbour differs from it ends the radius loop with `d2 = 1`. -/
theorem get_SDF_d2_unit_east (f : Int → Nat) (w h x y R : Int) (hx : 0 ≤ x ∧ x + 1 < w)
    (hy : 0 ≤ y ∧ y < h) (hR : 1 ≤ R) (hRR : R * R < 2147483648)
    (hne : f (y * w + (x + 1)) ≠ f (x + y * w)) : get_SDF_d2 f w h x y R = 1 := by
  have h0 : 1 ≤ d2_init R := by
    rw [d2_init_eq R hRR]
    have h1 : (0 : Int) ≤ R * R := mul_self_nonneg R
    have h2 : (1 : ℚ) ≤ ((R * R + 1 : Int) : ℚ) := by exact_mod_cast (by omega : 1 ≤ R * R + 1)
    have := fl24_mono _ _ h2
    rwa [fl24_one] at this
  unfold get_SDF_d2
  rw [radialLoop_first f _ w h x y R hR hRR]
  have hr : ringStep f (f (x + y * w)) w h x y 1 (d2_init R) = 1 := by
    unfold ringStep
    simp only
    exact colEdge_unit f _ w h x y (x + 1) _ ⟨by omega, by omega⟩ hy (Or.inl (by omega)) hne
      (colEdge_ge_one f _ w h x y 1 _ _ (by omega)
        (rowEdge_ge_one f _ w h x y 1 _ _ (by omega)
          (rowEdge_ge_one f _ w h x y 1 _ _ (by omega) h0)))
  rw [hr]
  exact radialLoop_stop_at_one f _ w h x y R _

/-- A centre whose west neighbour differs from it ends the radius loop with `d2 = 1`. -/
theorem get_SDF_d2_unit_west (f : Int → Nat) (w h x y R : Int) (hx : 1 ≤ x ∧ x < w)
    (hy : 0 ≤ y ∧ y < h) (hR : 1 ≤ R) (hRR : R * R < 2147483648)
    (hne : f (y * w + (x - 1)) ≠ f (x + y * w)) : get_SDF_d2 f w h x y R = 1 := by
  have h0 : 1 ≤ d2_init R := by
    rw [d2_init_eq R hRR]
    have h1 : (0 : Int) ≤ R * R := mul_self_nonneg R
    have h2 : (1 : ℚ) ≤ ((R * R + 1 : Int) : ℚ) := by exact_mod_cast (by omega : 1 ≤ R * R + 1)
    have := fl24_mono _ _ h2
    rwa [fl24_one] at this
  unfold get_SDF_d2
  rw [radialLoop_first f _ w h x y R hR hRR]
  have hr : ringStep f (f (x + y * w)) w h x y 1 (d2_init R) = 1 := by
    unfold ringStep
    simp only
    have hw := colEdge_unit f (f (x + y * w)) w h x y (x - 1)
      (rowEdge f (f (x + y * w)) w h x y 1 (y + 1)
        (rowEdge f (f (x + y * w)) w h x y 1 (y - 1) (d2_init R)))
      ⟨by omega, by omega⟩ hy (Or.inr (by omega)) hne
      (rowEdge_ge_one f _ w h x y 1 _ _ (by omega)
        (rowEdge_ge_one f _ w h x y 1 _ _ (by omega) h0))
    rw [hw]
    exact le_antisymm (colEdge_le f _ w h x y 1 _ 1)
      (colEdge_ge_one f _ w h x y 1 _ _ (by omega) (le_refl _))
  rw [hr]
  exact radialLoop_stop_at_one f _ w h x y R _

/-- The boundary symmetry in the arithmetic of the code: on a raster with a straight
vertical edge at column `c`, for `1 <= max_radius <= 46340`, the bytes `get_SDF_radial`
returns at the centres `(c-1, y)` and `(c, y)` sum to 255. -/
theorem edge_symmetry_in_code (fontmap : Int → Nat) (w h c y R : Int)
    (hc : 1 ≤ c ∧ c ≤ w - 1) (hy : 0 ≤ y ∧ y < h) (hR : 1 ≤ R) (hR2 : R ≤ 46340)
    (hedge : ∀ i j : Int, 0 ≤ i → i < w → 0 ≤ j → j < h →
      fontmap (j * w + i) = if i < c then 0 else 255) :
    get_SDF_radial fontmap w h (c - 1) y R + get_SDF_radial fontmap w h c y R = 255 := by
  have hRR : R * R < 2147483648 := by nlinarith
  have hvl : fontmap (c - 1 + y * w) = 0 := by
    rw [add_comm, hedge (c - 1) y (by omega) (by omega) hy.1 hy.2, if_pos (by omega)]
  have hvr : fontmap (c + y * w) = 255 := by
    rw [add_comm, hedge c y (by omega) (by omega) hy.1 hy.2, if_neg (by omega)]
  have hvl' : fontmap (y * w + (c - 1)) = 0 := by rw [add_comm]; exact hvl
  have hvr' : fontmap (y * w + c) = 255 := by rw [add_comm]; exact hvr
  have hdl : get_SDF_d2 fontmap w h (c - 1) y R = 1 :=
    get_SDF_d2_unit_east fontmap w h (c - 1) y R ⟨by omega, by omega⟩ hy hR hRR (by
      have e : c - 1 + 1 = c := by ring
      rw [e, hvr', hvl]
      decide)
  have hdr : get_SDF_d2 fontmap w h c y R = 1 :=
    get_SDF_d2_unit_west fontmap w h c y R ⟨by omega, by omega⟩ hy hR hRR (by
      rw [hvl', hvr]
      decide)
  unfold get_SDF_radial
  rw [hdl, hdr, hvl, hvr]
  exact sdf_byte_unit_sum R hR hR2 255 (by decide)

/-! ### Claims on `get_SDF_radial` -/

/-- C4 as stated fails: at `max_radius = 46341` the `int` product `max_radius*max_radius`
wraps to `-2147479015`, the initial `d2` is negative, the radius loop is not entered,
`sqrtf` yields a NaN and the byte returned for the centre of a uniform foreground raster is
0, not 255. -/
theorem get_SDF_radial_uniform_counterexample :
    (∀ i j : Int, 0 ≤ i → i < 1 → 0 ≤ j → j < 1 →
        (fun _ : Int => (255 : Nat)) (j * 1 + i) = 255) ∧
      get_SDF_radial (fun _ => 255) 1 1 0 0 46341 = 0 :=
  ⟨fun _ _ _ _ _ _ => rfl, get_SDF_radial_wrapped _ 1 1 0 0 46341 (by decide)⟩

/-- C4 (distance saturation, amended).  On a `w x h` raster all of whose pixels hold the
same value `val`, for every in-bounds centre and every `max_radius` with
`1 <= max_radius <= 46340` (so that `max_radius*max_radius` fits a 32-bit `int`),
`get_SDF_radial` returns 255 when `val` is non-zero and 0 when it is zero. -/
theorem get_SDF_radial_uniform (fontmap : Int → Nat) (val : Nat) (w h x y R : Int)
    (hx : 0 ≤ x ∧ x < w) (hy : 0 ≤ y ∧ y < h) (hR : 1 ≤ R) (hR2 : R ≤ 46340)
    (huni : ∀ i j : Int, 0 ≤ i → i < w → 0 ≤ j → j < h → fontmap (j * w + i) = val) :
    get_SDF_radial fontmap w h x y R = if val ≠ 0 then 255 else 0 := by
  have hv : fontmap (x + y * w) = val := by
    rw [add_comm]; exact huni x y hx.1 hx.2 hy.1 hy.2
  have hall := uniform_of_grid fontmap val w h (by omega) huni
  have hd : get_SDF_d2 fontmap w h x y R = d2_init R :=
    get_SDF_d2_uniform fontmap w h x y R (fun a h0 h1 => by rw [hv]; exact hall a h0 h1)
  unfold get_SDF_radial
  rw [hd, hv]
  apply sdf_byte_saturated val _ R hR
  have hRR : R * R < 2147483648 := by nlinarith
  rw [d2_init_eq R hRR]
  have hRR0 : (0 : ℚ) ≤ (R : ℚ) * (R : ℚ) := mul_self_nonneg _
  have hrel := fl_rel 23 ((R * R + 1 : Int) : ℚ) (by push_cast; linarith)
  have h1 : (R : ℚ) * (1 - 1 / 2 ^ 24) * ((R : ℚ) * (1 - 1 / 2 ^ 24))
      = (R : ℚ) * (R : ℚ) * ((1 - 1 / 2 ^ 24) * (1 - 1 / 2 ^ 24)) := by ring
  have h2 : ((1 : ℚ) - 1 / 2 ^ 24) * (1 - 1 / 2 ^ 24) ≤ 1 - 1 / 2 ^ 24 := by norm_num
  have h3 : (R : ℚ) * (R : ℚ) * ((1 - 1 / 2 ^ 24) * (1 - 1 / 2 ^ 24))
      ≤ (R : ℚ) * (R : ℚ) * (1 - 1 / 2 ^ 24) := mul_le_mul_of_nonneg_left h2 hRR0
  have h4 : (R : ℚ) * (R : ℚ) * (1 - 1 / 2 ^ 24)
      ≤ ((R * R + 1 : Int) : ℚ) * (1 - 1 / 2 ^ 24) :=
    mul_le_mul_of_nonneg_right (by push_cast; linarith) (by norm_num)
  rw [h1]
  exact le_trans h3 (le_trans h4 hrel)

/-- Witness for C4 (amended): a 3 x 3 all-foreground raster, centre (1, 1), radius 2. -/
theorem get_SDF_radial_uniform_witness :
    get_SDF_radial (fun _ => 255) 3 3 1 1 2 = if (255 : Nat) ≠ 0 then 255 else 0 :=
  get_SDF_radial_uniform (fun _ => 255) 255 3 3 1 1 2 (by decide) (by decide) (by decide)
    (by decide) (fun _ _ _ _ _ _ => rfl)

/-- C6 as stated fails: at `max_radius = 46341` the wrapped `max_radius*max_radius` makes
the initial `d2` negative and the byte returned is 0, below 128, although the centre pixel
of the 2 x 1 raster is foreground. -/
theorem get_SDF_radial_sign_counterexample :
    (fun idx : Int => if idx = 0 then (255 : Nat) else 0) (0 + 0 * 2) ≠ 0 ∧
      get_SDF_radial (fun idx => if idx = 0 then 255 else 0) 2 1 0 0 46341 = 0 :=
  ⟨by decide, get_SDF_radial_wrapped _ 2 1 0 0 46341 (by decide)⟩

/-- C6 (sign convention, amended).  For every raster, every in-bounds centre and every
`max_radius` with `1 <= max_radius <= 46340`, the byte returned by `get_SDF_radial` is at
least 128 when the centre pixel is non-zero and at most 127 when it is zero. -/
theorem get_SDF_radial_sign (fontmap : Int → Nat) (w h x y R : Int)
    (_hx : 0 ≤ x ∧ x < w) (_hy : 0 ≤ y ∧ y < h) (hR : 1 ≤ R) (hR2 : R ≤ 46340) :
    (fontmap (x + y * w) ≠ 0 → 128 ≤ get_SDF_radial fontmap w h x y R) ∧
      (fontmap (x + y * w) = 0 → get_SDF_radial fontmap w h x y R ≤ 127) := by
  have hRR : R * R < 2147483648 := by nlinarith
  have hd := get_SDF_d2_ge_one fontmap w h x y R hRR
  unfold get_SDF_radial
  exact ⟨fun hv => sdf_byte_fg_ge _ _ R hv (by linarith) hR,
    fun hv => sdf_byte_bg_le _ _ R hv hd hR (by omega)⟩

/-- Witness for C6 (amended): a 3 x 3 raster with a single foreground pixel in the
middle. -/
theorem get_SDF_radial_sign_witness :
    ((fun idx : Int => if idx = 4 then 255 else 0) (1 + 1 * 3) ≠ 0 →
        128 ≤ get_SDF_radial (fun idx => if idx = 4 then 255 else 0) 3 3 1 1 2) ∧
      ((fun idx : Int => if idx = 4 then 255 else 0) (1 + 1 * 3) = 0 →
        get_SDF_radial (fun idx => if idx = 4 then 255 else 0) 3 3 1 1 2 ≤ 127) :=
  get_SDF_radial_sign (fun idx => if idx = 4 then 255 else 0) 3 3 1 1 2
    (by decide) (by decide) (by decide) (by decide)

theorem mem_ringCandidates (fontmap : Int → Nat) (w h x y R m : Int) :
    m ∈ ringCandidates fontmap w h x y R ↔
      ∃ i j : Int, Differs fontmap (fontmap (x + y * w)) w h x y 1 (R + 1) i j ∧
        m = (i - x) * (i - x) + (j - y) * (j - y) := by
  unfold ringCandidates Differs
  simp only [List.mem_flatMap, List.mem_range, List.mem_filterMap, Option.ite_none_right_eq_some,
    Option.some.injEq]
  constructor
  · rintro ⟨j, hj, i, hi, ⟨hne, h1, h2⟩, rfl⟩
    exact ⟨i, j, ⟨by omega, by omega, by omega, by omega, hne, h1, by omega⟩, rfl⟩
  · rintro ⟨i, j, ⟨i0, iw, j0, jh, hne, h1, h2⟩, rfl⟩
    refine ⟨j.toNat, by omega, i.toNat, by omega, ?_⟩
    have ei : ((i.toNat : Nat) : Int) = i := by omega
    have ej : ((j.toNat : Nat) : Int) = j := by omega
    rw [ei, ej]
    exact ⟨⟨hne, h1, by omega⟩, rfl⟩

theorem exhaustive_d2_spec (fontmap : Int → Nat) (w h x y R : Int) :
    ((∀ i j, ¬ Differs fontmap (fontmap (x + y * w)) w h x y 1 (R + 1) i j) ∧
        exhaustive_d2 fontmap w h x y R = R * R + 1) ∨
      ((∀ i j, Differs fontmap (fontmap (x + y * w)) w h x y 1 (R + 1) i j →
          exhaustive_d2 fontmap w h x y R ≤ (i - x) * (i - x) + (j - y) * (j - y)) ∧
        ∃ i j, Differs fontmap (fontmap (x + y * w)) w h x y 1 (R + 1) i j ∧
          exhaustive_d2 fontmap w h x y R = (i - x) * (i - x) + (j - y) * (j - y)) := by
  unfold exhaustive_d2
  cases hmin : (ringCandidates fontmap w h x y R).min? with
  | none =>
    left
    rw [List.min?_eq_none_iff] at hmin
    refine ⟨fun i j hij => ?_, rfl⟩
    have : (i - x) * (i - x) + (j - y) * (j - y) ∈ ringCandidates fontmap w h x y R :=
      (mem_ringCandidates fontmap w h x y R _).2 ⟨i, j, hij, rfl⟩
    rw [hmin] at this
    cases this
  | some m =>
    right
    haveI : Std.Antisymm (fun a b : Int => a ≤ b) := ⟨fun h1 h2 => le_antisymm h1 h2⟩
    rw [List.min?_eq_some_iff (fun a => le_refl a) (fun a b => min_choice a b)
      (fun a b c => le_min_iff)] at hmin
    obtain ⟨hmem, hle⟩ := hmin
    refine ⟨fun i j hij => ?_, ?_⟩
    · exact hle _ ((mem_ringCandidates fontmap w h x y R _).2 ⟨i, j, hij, rfl⟩)
    · obtain ⟨i, j, hij, e⟩ := (mem_ringCandidates fontmap w h x y R m).1 hmem
      exact ⟨i, j, hij, e⟩

/-- The exact loop against the exhaustive search: over exact integers the squared distance
at the end of the radius loop is the smaller of `max_radius^2 + 1` and the exhaustive
minimum; neither the early stop at `radius^2 >= d2` nor the corner-free west and east
edges change it. -/
theorem get_SDF_d2_exact_eq_min_exhaustive (fontmap : Int → Nat) (w h x y R : Int)
    (hR : 1 ≤ R) :
    get_SDF_d2_exact fontmap w h x y R
      = min (R * R + 1) (exhaustive_d2 fontmap w h x y R) := by
  obtain ⟨a, b, c⟩ := get_SDF_d2_exact_isMin fontmap w h x y R (by omega)
  rcases exhaustive_d2_spec fontmap w h x y R with ⟨hnone, he⟩ | ⟨hle, i0, j0, hij0, he⟩
  · rw [he, min_self]
    rcases c with e | ⟨i, j, hij, _⟩
    · exact e
    · exact absurd hij (hnone i j)
  · apply le_antisymm
    · refine le_min a ?_
      rw [he]; exact b i0 j0 hij0
    · rcases c with e | ⟨i, j, hij, e⟩
      · rw [e]; exact min_le_left _ _
      · rw [e]; exact le_trans (min_le_right _ _) (hle i j hij)

/-- C10 as stated fails: on the 5 x 5 raster whose only foreground pixel is the corner
(4, 4), centre (2, 2), `max_radius = 2`, the only differing pixel within the square of
radius 2 is at squared distance 8, yet the loop ends with `d2 = 5 = max_radius^2 + 1`. -/
theorem get_SDF_d2_exhaustive_counterexample :
    get_SDF_d2 (fun idx => if idx = 24 then 255 else 0) 5 5 2 2 2 = 5 ∧
      exhaustive_d2 (fun idx => if idx = 24 then 255 else 0) 5 5 2 2 2 = 8 := by
  refine ⟨?_, by decide⟩
  rw [get_SDF_d2_eq_exact _ 5 5 2 2 2 (by decide) (by decide) (by decide) (by decide)]
  have e : get_SDF_d2_exact (fun idx => if idx = 24 then 255 else 0) 5 5 2 2 2 = 5 := by
    decide
  rw [e]
  norm_num

/-- C10 (ring search against the exhaustive search, amended).  For every raster (bilevel
or not), every in-bounds centre and every `max_radius` with `1 <= max_radius <= 4095` (so
that `max_radius^2 + 1` and every squared distance that can lower `d2` are below `2^24`
and exact in a `float`), the squared distance held when the radius loop of
`get_SDF_radial` ends is the smaller of `max_radius^2 + 1` and the exhaustive minimum of
`(i-x)^2 + (j-y)^2` over the in-bounds pixels with `1 <= max(|i-x|,|j-y|) <= max_radius`
whose value differs from the centre's; neither the early stop at `radius^2 >= d2` nor the
corner-free west and east edges change it. -/
theorem get_SDF_d2_eq_min_exhaustive (fontmap : Int → Nat) (w h x y R : Int)
    (hx : 0 ≤ x ∧ x < w) (hy : 0 ≤ y ∧ y < h) (hR : 1 ≤ R) (hR2 : R ≤ 4095) :
    get_SDF_d2 fontmap w h x y R
      = ((min (R * R + 1) (exhaustive_d2 fontmap w h x y R) : Int) : ℚ) := by
  rw [get_SDF_d2_eq_exact fontmap w h x y R hx.1 hy.1 (by omega) hR2,
    get_SDF_d2_exact_eq_min_exhaustive fontmap w h x y R hR]

/-- Witness for C10 (amended): the raster of the counterexample. -/
theorem get_SDF_d2_eq_min_exhaustive_witness :
    get_SDF_d2 (fun idx => if idx = 24 then 255 else 0) 5 5 2 2 2
      = ((min (2 * 2 + 1) (exhaustive_d2 (fun idx => if idx = 24 then 255 else 0) 5 5 2 2 2)
          : Int) : ℚ) :=
  get_SDF_d2_eq_min_exhaustive (fun idx => if idx = 24 then 255 else 0) 5 5 2 2 2
    (by decide) (by decide) (by decide) (by decide)

/-! ### `gen_pack_list` -/

theorem packListLoop_spec (face : Int → Option Glyph) (l : List Int) :
    ∀ (rects : List Int) (glyphs : List sdf_glyph),
      (packListLoop face l (rects, glyphs)).2.map sdf_glyph.ID
          = glyphs.map sdf_glyph.ID ++ l.filter (fun c => (face c).isSome) ∧
        (packListLoop face l (rects, glyphs)).1.length
          = rects.length + 2 * (l.filter (fun c => (face c).isSome)).length := by
  induction l with
  | nil => intro rects glyphs; simp [packListLoop]
  | cons code rest ih =>
    intro rects glyphs
    cases hf : face code with
    | none =>
      have e : packListLoop face (code :: rest) (rects, glyphs)
          = packListLoop face rest (rects, glyphs) := by
        simp only [packListLoop, hf]
      rw [e]
      obtain ⟨h1, h2⟩ := ih rects glyphs
      simp [h1, h2, List.filter_cons, hf]
    | some g =>
      have e : packListLoop face (code :: rest) (rects, glyphs)
          = packListLoop face rest
              (rects ++ [(glyphEntry code g).width, (glyphEntry code g).height],
                glyphs ++ [glyphEntry code g]) := by
        simp only [packListLoop, hf]
      rw [e]
      obtain ⟨h1, h2⟩ := ih (rects ++ [(glyphEntry code g).width, (glyphEntry code g).height])
        (glyphs ++ [glyphEntry code g])
      have hid : (glyphEntry code g).ID = code := rfl
      simp [h1, h2, List.filter_cons, hf, hid]
      omega

theorem setXY_ids (gs : List sdf_glyph) :
    ∀ (n : Nat) (px py : Int), (setXY gs n px py).map sdf_glyph.ID = gs.map sdf_glyph.ID := by
  induction gs with
  | nil => intro n px py; rfl
  | cons g gs ih =>
    intro n px py
    cases n with
    | zero => rfl
    | succ n => simp [setXY, ih]

theorem populate_ids (k : Nat) :
    ∀ (info : List Int) (glyphs : List sdf_glyph), info.length ≤ k →
      (populate info glyphs).map sdf_glyph.ID = glyphs.map sdf_glyph.ID := by
  induction k with
  | zero =>
    intro info glyphs hk
    have : info = [] := List.length_eq_zero.1 (by omega)
    subst this
    rfl
  | succ k ih =>
    intro info glyphs hk
    match info with
    | [] => rfl
    | [_] => rfl
    | [_, _] => rfl
    | [_, _, _] => rfl
    | idx :: px :: py :: _ :: rest =>
      simp only [populate]
      rw [ih rest _ (by simp only [List.length_cons] at hk; omega), setXY_ids]

theorem gen_pack_list_ids (face : Int → Int → Option Glyph)
    (pack : List Int → Int → Bool → List (List Int))
    (pixel_size pack_tex_size : Int) (render_list : List Int) :
    (gen_pack_list face pack pixel_size pack_tex_size render_list).2.map sdf_glyph.ID
      = render_list.filter (fun c => (face (pixel_size * scaler) c).isSome) := by
  have h := (packListLoop_spec (face (pixel_size * scaler)) render_list [] []).1
  simp only [List.map_nil, List.nil_append] at h
  unfold gen_pack_list
  simp only
  split
  · rw [populate_ids _ _ _ (le_refl _)]; exact h
  · exact h

/-- C9 (skip scenario).  With the glyph source a function from character code to an
optional glyph, the glyph list `gen_pack_list` produces has as IDs exactly the available
codes of the render list in render-list order, its length is the length of the render
list minus the number of codes with no glyph, no unavailable code is among its IDs, and
the rectangle list handed to the packer holds two integers for each of its glyphs. -/
theorem gen_pack_list_skip (face : Int → Int → Option Glyph)
    (pack : List Int → Int → Bool → List (List Int))
    (pixel_size pack_tex_size : Int) (render_list : List Int) :
    (gen_pack_list face pack pixel_size pack_tex_size render_list).2.map sdf_glyph.ID
        = render_list.filter (fun c => (face (pixel_size * scaler) c).isSome) ∧
      (gen_pack_list face pack pixel_size pack_tex_size render_list).2.length
        = render_list.length
          - render_list.countP (fun c => (face (pixel_size * scaler) c).isNone) ∧
      (∀ c, face (pixel_size * scaler) c = none →
        c ∉ (gen_pack_list face pack pixel_size pack_tex_size render_list).2.map
          sdf_glyph.ID) ∧
      (packListLoop (face (pixel_size * scaler)) render_list ([], [])).1.length
        = 2 * (gen_pack_list face pack pixel_size pack_tex_size render_list).2.length := by
  have hids := gen_pack_list_ids face pack pixel_size pack_tex_size render_list
  have hlen : (gen_pack_list face pack pixel_size pack_tex_size render_list).2.length
      = (render_list.filter (fun c => (face (pixel_size * scaler) c).isSome)).length := by
    rw [← hids, List.length_map]
  have hrect := (packListLoop_spec (face (pixel_size * scaler)) render_list [] []).2
  refine ⟨hids, ?_, ?_, ?_⟩
  · rw [hlen]
    have hsplit := List.length_eq_countP_add_countP
      (fun c => (face (pixel_size * scaler) c).isSome) render_list
    have hnone : List.countP (fun c => (face (pixel_size * scaler) c).isNone) render_list
        = List.countP (fun a => ¬ (face (pixel_size * scaler) a).isSome = true) render_list := by
      congr 1
      funext c
      cases face (pixel_size * scaler) c <;> simp
    rw [List.countP_eq_length_filter] at hsplit
    omega
  · intro c hc hmem
    rw [hids, List.mem_filter] at hmem
    rw [hc] at hmem
    simp at hmem
  · rw [hrect, hlen]
    simp

theorem floor_div_scaler (n : Int) : ⌊(n : ℚ) / (scaler : ℚ)⌋ = n / scaler := by
  have h := Rat.floor_intCast_div_natCast n 16
  have e : ((16 : ℕ) : ℚ) = ((scaler : Int) : ℚ) := by simp [scaler]
  rw [e] at h
  rw [h]
  rfl

theorem ceil_div_scaler (n : Int) :
    ⌈(n : ℚ) / (scaler : ℚ)⌉ = n / scaler + (if n % scaler = 0 then 0 else 1) := by
  have hs : ((scaler : Int) : ℚ) = 16 := by simp [scaler]
  rw [Int.ceil_eq_iff, hs]
  have hdm : n = 16 * (n / 16) + n % 16 := by omega
  have hq : (n : ℚ) = 16 * ((n / 16 : Int) : ℚ) + ((n % 16 : Int) : ℚ) := by
    exact_mod_cast hdm
  have hr0 : (0 : ℚ) ≤ ((n % 16 : Int) : ℚ) := by
    have : 0 ≤ n % 16 := by omega
    exact_mod_cast this
  have hr1 : ((n % 16 : Int) : ℚ) < 16 := by
    have : n % 16 < 16 := by omega
    exact_mod_cast this
  show ((n / 16 + (if n % 16 = 0 then 0 else 1) : Int) : ℚ) - 1 < (n : ℚ) / 16 ∧
    (n : ℚ) / 16 ≤ ((n / 16 + (if n % 16 = 0 then 0 else 1) : Int) : ℚ)
  by_cases hz : n % 16 = 0
  · have hr : ((n % 16 : Int) : ℚ) = 0 := by exact_mod_cast hz
    rw [if_pos hz]
    push_cast
    constructor
    · rw [lt_div_iff₀ (by norm_num)]; linarith
    · rw [div_le_iff₀ (by norm_num)]; linarith
  · have hr : (1 : ℚ) ≤ ((n % 16 : Int) : ℚ) := by
      have : 1 ≤ n % 16 := by omega
      exact_mod_cast this
    rw [if_neg hz]
    push_cast
    constructor
    · rw [lt_div_iff₀ (by norm_num)]; linarith
    · rw [div_le_iff₀ (by norm_num)]; linarith

/-- C7 as stated fails: for a glyph whose raster is 1 x 1 the rectangle handed to the
packer is 8 x 8, the integer quotient of 129 by 16, whereas `ceil(129 / 16)` is 9. -/
theorem gen_pack_list_cell_size_counterexample :
    (packListLoop
        (fun _ => some { width := 1, rows := 1, pitch := 1, buffer := (fun _ => 128),
                         bitmap_left := 0, bitmap_top := 1, advance_x := 64 })
        [65] ([], [])).1 = [8, 8] ∧
      ⌈(((1 + 8 * scaler : Int)) : ℚ) / (scaler : ℚ)⌉ = 9 := by
  refine ⟨by decide, ?_⟩
  rw [ceil_div_scaler]
  decide

/-- C7 (output cell size, amended).  For a glyph raster of width `w >= 0` and height
`h >= 0`, the width and height that `gen_pack_list` records for the glyph and appends to
the packer's rectangle list are `floor((w + B) / scaler)` and `floor((h + B) / scaler)`
with `B = 8 * scaler`; this is the ceiling exactly when `w` (resp. `h`) is a multiple of
`scaler`, and one less than the ceiling otherwise. -/
theorem gen_pack_list_cell_size (code : Int) (g : Glyph) (hw : 0 ≤ g.width)
    (hh : 0 ≤ g.rows) :
    (glyphEntry code g).width = ⌊((g.width + 8 * scaler : Int) : ℚ) / (scaler : ℚ)⌋ ∧
      (glyphEntry code g).height = ⌊((g.rows + 8 * scaler : Int) : ℚ) / (scaler : ℚ)⌋ ∧
      (glyphEntry code g).width = ⌈((g.width + 8 * scaler : Int) : ℚ) / (scaler : ℚ)⌉
        - (if g.width % scaler = 0 then 0 else 1) ∧
      (glyphEntry code g).height = ⌈((g.rows + 8 * scaler : Int) : ℚ) / (scaler : ℚ)⌉
        - (if g.rows % scaler = 0 then 0 else 1) ∧
      0 ≤ (glyphEntry code g).width ∧ 0 ≤ (glyphEntry code g).height ∧
      ∀ (face : Int → Option Glyph) (rest rects : List Int) (glyphs : List sdf_glyph),
        face code = some g →
        packListLoop face (code :: rest) (rects, glyphs)
          = packListLoop face rest
              (rects ++ [⌊((g.width + 8 * scaler : Int) : ℚ) / (scaler : ℚ)⌋,
                         ⌊((g.rows + 8 * scaler : Int) : ℚ) / (scaler : ℚ)⌋],
                glyphs ++ [glyphEntry code g]) := by
  have ew : (glyphEntry code g).width = (g.width + 8 * scaler) / scaler := by
    simp only [glyphEntry, mul_comm]
  have eh : (glyphEntry code g).height = (g.rows + 8 * scaler) / scaler := by
    simp only [glyphEntry, mul_comm]
  have mw : (g.width + 8 * scaler) % scaler = g.width % scaler := by
    simp only [scaler]; omega
  have mh : (g.rows + 8 * scaler) % scaler = g.rows % scaler := by
    simp only [scaler]; omega
  refine ⟨?_, ?_, ?_, ?_, ?_, ?_, ?_⟩
  · rw [floor_div_scaler, ew]
  · rw [floor_div_scaler, eh]
  · rw [ceil_div_scaler, ew, mw]; omega
  · rw [ceil_div_scaler, eh, mh]; omega
  · rw [ew]; simp only [scaler]; omega
  · rw [eh]; simp only [scaler]; omega
  · intro face rest rects glyphs hf
    rw [floor_div_scaler, floor_div_scaler, ← ew, ← eh]
    simp only [packListLoop, hf]

/-- Witness for C7 (amended): a glyph of 20 x 33 pixels. -/
theorem gen_pack_list_cell_size_witness :
    (glyphEntry 65 { width := 20, rows := 33, pitch := 3, buffer := (fun _ => 0),
                     bitmap_left := 0, bitmap_top := 33, advance_x := 1408 }).width
      = ⌊(((20 : Int) + 8 * scaler : Int) : ℚ) / (scaler : ℚ)⌋ :=
  (gen_pack_list_cell_size 65
    { width := 20, rows := 33, pitch := 3, buffer := (fun _ => 0),
      bitmap_left := 0, bitmap_top := 33, advance_x := 1408 }
    (by decide) (by decide)).1

/-! ### Compositing -/

theorem writePixel_apply (smooth_buf : Int → Nat) (sw sh sdfx sdfy ts j i : Int)
    (pdata : Int → Nat) (idx : Int) :
    writePixel smooth_buf sw sh sdfx sdfy ts j i pdata idx
      = if (i + sdfx + (j + sdfy) * ts) * 4 ≤ idx ∧ idx < (i + sdfx + (j + sdfy) * ts) * 4 + 4
        then get_SDF_radial smooth_buf sw sh (i * scaler + scaler / 2)
          (j * scaler + scaler / 2) (2 * scaler)
        else pdata idx := by
  unfold writePixel
  generalize (i + sdfx + (j + sdfy) * ts) * 4 = P
  generalize get_SDF_radial smooth_buf sw sh (i * scaler + scaler / 2)
    (j * scaler + scaler / 2) (2 * scaler) = V
  simp only [Function.update_apply]
  split_ifs <;> first | rfl | (exfalso; omega)

theorem compositeRow_spec (smooth_buf : Int → Nat) (sw sh sdfx sdfy ts j : Int) (n : Nat) :
    ∀ (i0 : Int) (pdata : Int → Nat),
      (∀ i idx, i0 ≤ i → i < i0 + n →
        (i + sdfx + (j + sdfy) * ts) * 4 ≤ idx → idx < (i + sdfx + (j + sdfy) * ts) * 4 + 4 →
        compositeRow smooth_buf sw sh sdfx sdfy ts j n i0 pdata idx
          = get_SDF_radial smooth_buf sw sh (i * scaler + scaler / 2)
              (j * scaler + scaler / 2) (2 * scaler)) ∧
      (∀ idx, (∀ i, i0 ≤ i → i < i0 + n →
          ¬ ((i + sdfx + (j + sdfy) * ts) * 4 ≤ idx ∧
            idx < (i + sdfx + (j + sdfy) * ts) * 4 + 4)) →
        compositeRow smooth_buf sw sh sdfx sdfy ts j n i0 pdata idx = pdata idx) := by
  induction n with
  | zero =>
    intro i0 pdata
    exact ⟨fun i idx h1 h2 => by simp at h2; omega, fun idx _ => rfl⟩
  | succ n ih =>
    intro i0 pdata
    obtain ⟨iha, ihb⟩ := ih (i0 + 1) (writePixel smooth_buf sw sh sdfx sdfy ts j i0 pdata)
    have hun : ∀ idx, compositeRow smooth_buf sw sh sdfx sdfy ts j (n + 1) i0 pdata idx
        = compositeRow smooth_buf sw sh sdfx sdfy ts j n (i0 + 1)
            (writePixel smooth_buf sw sh sdfx sdfy ts j i0 pdata) idx := fun _ => rfl
    constructor
    · intro i idx h1 h2 h3 h4
      rw [hun]
      by_cases hi : i = i0
      · subst hi
        rw [ihb idx (fun i' h1' _ hin => by omega), writePixel_apply, if_pos ⟨h3, h4⟩]
      · exact iha i idx (by omega) (by push_cast at h2; omega) h3 h4
    · intro idx hout
      rw [hun, ihb idx (fun i h1 h2 => hout i (by omega) (by push_cast; omega)),
        writePixel_apply, if_neg (hout i0 (le_refl _) (by push_cast; omega))]

theorem slot_rows_disjoint (ts sdfx sdfy sdfw i i' j j' : Int) (h0 : 0 ≤ sdfx)
    (h1 : sdfx + sdfw ≤ ts) (hi : 0 ≤ i) (hi0 : 0 ≤ i') (hi' : i' < sdfw) (hj : j < j') :
    i' + sdfx + (j + sdfy) * ts < i + sdfx + (j' + sdfy) * ts := by
  have hts : 0 ≤ ts := by omega
  have hp : 0 ≤ (j' - j - 1) * ts := mul_nonneg (by omega) hts
  nlinarith

theorem compositeRows_spec (smooth_buf : Int → Nat) (sw sh sdfw sdfx sdfy ts : Int)
    (h0 : 0 ≤ sdfx) (h1 : sdfx + sdfw ≤ ts) (m : Nat) :
    ∀ (j0 : Int) (pdata : Int → Nat),
      (∀ i j idx, 0 ≤ i → i < sdfw → j0 ≤ j → j < j0 + m →
        (i + sdfx + (j + sdfy) * ts) * 4 ≤ idx → idx < (i + sdfx + (j + sdfy) * ts) * 4 + 4 →
        compositeRows smooth_buf sw sh sdfw sdfx sdfy ts m j0 pdata idx
          = get_SDF_radial smooth_buf sw sh (i * scaler + scaler / 2)
              (j * scaler + scaler / 2) (2 * scaler)) ∧
      (∀ idx, (∀ i j, 0 ≤ i → i < sdfw → j0 ≤ j → j < j0 + m →
          ¬ ((i + sdfx + (j + sdfy) * ts) * 4 ≤ idx ∧
            idx < (i + sdfx + (j + sdfy) * ts) * 4 + 4)) →
        compositeRows smooth_buf sw sh sdfw sdfx sdfy ts m j0 pdata idx = pdata idx) := by
  induction m with
  | zero =>
    intro j0 pdata
    exact ⟨fun i j idx _ _ h1 h2 => by simp at h2; omega, fun idx _ => rfl⟩
  | succ m ih =>
    intro j0 pdata
    obtain ⟨iha, ihb⟩ := ih (j0 + 1)
      (compositeRow smooth_buf sw sh sdfx sdfy ts j0 sdfw.toNat 0 pdata)
    obtain ⟨rowa, rowb⟩ := compositeRow_spec smooth_buf sw sh sdfx sdfy ts j0 sdfw.toNat 0 pdata
    have hun : ∀ idx, compositeRows smooth_buf sw sh sdfw sdfx sdfy ts (m + 1) j0 pdata idx
        = compositeRows smooth_buf sw sh sdfw sdfx sdfy ts m (j0 + 1)
            (compositeRow smooth_buf sw sh sdfx sdfy ts j0 sdfw.toNat 0 pdata) idx :=
      fun _ => rfl
    constructor
    · intro i j idx hi0 hiw hj0 hjm h3 h4
      rw [hun]
      by_cases hj : j = j0
      · subst hj
        rw [ihb idx (fun i' j' hi0' hiw' hj0' _ hin => by
          have := slot_rows_disjoint ts sdfx sdfy sdfw i' i j j' h0 h1 hi0' hi0 hiw (by omega)
          omega)]
        exact rowa i idx hi0 (by omega) h3 h4
      · exact iha i j idx hi0 hiw (by omega) (by push_cast at hjm; omega) h3 h4
    · intro idx hout
      rw [hun, ihb idx (fun i j hi0 hiw hj0 hjm =>
        hout i j hi0 hiw (by omega) (by push_cast; omega))]
      exact rowb idx (fun i hi0 hiw =>
        hout i j0 hi0 (by omega) (le_refl _) (by push_cast; omega))

/-- C8 (atlas composition writes exactly the glyph's slot).  For an atlas of row length
`S` and a glyph of output size `sdfw x sdfh` placed at `(x, y)` inside the page, after
the per-glyph compositing loop every byte at an index `4*((i+x)+(j+y)*S)+c` with
`0 <= i < sdfw`, `0 <= j < sdfh`, `0 <= c < 4` (an index of the `4*S*S` buffer) holds
`get_SDF_radial` of the padded raster at centre `(i*scaler + scaler/2, j*scaler + scaler/2)`
with radius `2*scaler`, and every other byte is unchanged. -/
theorem compositeGlyph_frame (smooth_buf pdata : Int → Nat) (sw sh sdfw sdfh x y S : Int)
    (hx : 0 ≤ x) (hxw : x + sdfw ≤ S) (hy : 0 ≤ y) (hyh : y + sdfh ≤ S) :
    (∀ i j c : Int, 0 ≤ i → i < sdfw → 0 ≤ j → j < sdfh → 0 ≤ c → c < 4 →
      compositeGlyph smooth_buf sw sh sdfw sdfh x y S pdata (4 * ((i + x) + (j + y) * S) + c)
        = get_SDF_radial smooth_buf sw sh (i * scaler + scaler / 2)
            (j * scaler + scaler / 2) (2 * scaler) ∧
      0 ≤ 4 * ((i + x) + (j + y) * S) + c ∧ 4 * ((i + x) + (j + y) * S) + c < 4 * S * S) ∧
    (∀ idx : Int,
      (¬ ∃ i j c : Int, 0 ≤ i ∧ i < sdfw ∧ 0 ≤ j ∧ j < sdfh ∧ 0 ≤ c ∧ c < 4 ∧
        idx = 4 * ((i + x) + (j + y) * S) + c) →
      compositeGlyph smooth_buf sw sh sdfw sdfh x y S pdata idx = pdata idx) := by
  obtain ⟨ha, hb⟩ := compositeRows_spec smooth_buf sw sh sdfw x y S hx hxw sdfh.toNat 0 pdata
  constructor
  · intro i j c hi0 hiw hj0 hjh hc0 hc4
    refine ⟨?_, ?_, ?_⟩
    · exact ha i j _ hi0 hiw hj0 (by omega) (by omega) (by omega)
    · have : 0 ≤ (j + y) * S := mul_nonneg (by omega) (by omega)
      omega
    · have h1 : (j + y) * S ≤ (S - 1) * S :=
        mul_le_mul_of_nonneg_right (by omega) (by omega)
      have h2 : (S - 1) * S = S * S - S := by ring
      have h3 : 4 * S * S = 4 * (S * S) := by ring
      omega
  · intro idx hout
    refine hb idx (fun i j hi0 hiw hj0 hjh hin => hout ?_)
    exact ⟨i, j, idx - (i + x + (j + y) * S) * 4, hi0, hiw, hj0, by omega, by omega, by omega,
      by omega⟩

/-- Witness for C8: a 2 x 1 glyph placed at (1, 0) in a page of row length 4; the byte
of cell (0, 0), channel 0. -/
theorem compositeGlyph_frame_witness :
    compositeGlyph (fun _ => 255) 32 16 2 1 1 0 4 (fun _ => 7) (4 * ((0 + 1) + (0 + 0) * 4) + 0)
        = get_SDF_radial (fun _ => 255) 32 16 (0 * scaler + scaler / 2)
            (0 * scaler + scaler / 2) (2 * scaler) ∧
      0 ≤ 4 * (((0 : Int) + 1) + (0 + 0) * 4) + 0 ∧
      4 * (((0 : Int) + 1) + (0 + 0) * 4) + 0 < 4 * 4 * 4 :=
  (compositeGlyph_frame (fun _ => 255) (fun _ => 7) 32 16 2 1 1 0 4
    (by decide) (by decide) (by decide) (by decide)).1 0 0 0
    (by decide) (by decide) (by decide) (by decide) (by decide) (by decide)

/-! ### The padded glyph buffer -/

theorem glyphPixel_bilevel (g : Glyph) (i j : Int) :
    glyphPixel g i j = 0 ∨ glyphPixel g i j = 255 := by
  unfold glyphPixel
  rw [Nat.and_one_is_mod]
  have := Nat.mod_two_eq_zero_or_one
    (g.buffer (j * g.pitch + i / 8) >>> (7 - i % 8).toNat)
  rcases this with h | h <;> rw [h] <;> simp

theorem copyPixel_apply (g : Glyph) (sw j i : Int) (buf : Int → Nat) (idx : Int) :
    copyPixel g sw j i buf idx
      = if idx = i + scaler * 2 + (j + scaler * 2) * sw then glyphPixel g i j else buf idx := by
  unfold copyPixel
  rw [Function.update_apply]

theorem copyRow_spec (g : Glyph) (sw j : Int) (n : Nat) :
    ∀ (i0 : Int) (buf : Int → Nat),
      (∀ i, i0 ≤ i → i < i0 + n →
        copyRow g sw j n i0 buf (i + scaler * 2 + (j + scaler * 2) * sw) = glyphPixel g i j) ∧
      (∀ idx, (∀ i, i0 ≤ i → i < i0 + n → idx ≠ i + scaler * 2 + (j + scaler * 2) * sw) →
        copyRow g sw j n i0 buf idx = buf idx) := by
  induction n with
  | zero =>
    intro i0 buf
    exact ⟨fun i h1 h2 => by simp at h2; omega, fun idx _ => rfl⟩
  | succ n ih =>
    intro i0 buf
    obtain ⟨iha, ihb⟩ := ih (i0 + 1) (copyPixel g sw j i0 buf)
    have hun : ∀ idx, copyRow g sw j (n + 1) i0 buf idx
        = copyRow g sw j n (i0 + 1) (copyPixel g sw j i0 buf) idx := fun _ => rfl
    constructor
    · intro i h1 h2
      rw [hun]
      by_cases hi : i = i0
      · subst hi
        rw [ihb _ (fun i' h1' _ => by omega), copyPixel_apply, if_pos rfl]
      · exact iha i (by omega) (by push_cast at h2; omega)
    · intro idx hout
      rw [hun, ihb idx (fun i h1 h2 => hout i (by omega) (by push_cast; omega)),
        copyPixel_apply, if_neg (hout i0 (le_refl _) (by push_cast; omega))]

theorem copyRows_spec (g : Glyph) (sw : Int) (hsw : scaler * 2 + g.width ≤ sw) (m : Nat) :
    ∀ (j0 : Int) (buf : Int → Nat),
      (∀ i j, 0 ≤ i → i < g.width → j0 ≤ j → j < j0 + m →
        copyRows g sw m j0 buf (i + scaler * 2 + (j + scaler * 2) * sw) = glyphPixel g i j) ∧
      (∀ idx, (∀ i j, 0 ≤ i → i < g.width → j0 ≤ j → j < j0 + m →
          idx ≠ i + scaler * 2 + (j + scaler * 2) * sw) →
        copyRows g sw m j0 buf idx = buf idx) := by
  have hs0 : 0 ≤ scaler * 2 := by decide
  induction m with
  | zero =>
    intro j0 buf
    exact ⟨fun i j _ _ h1 h2 => by simp at h2; omega, fun idx _ => rfl⟩
  | succ m ih =>
    intro j0 buf
    obtain ⟨iha, ihb⟩ := ih (j0 + 1) (copyRow g sw j0 g.width.toNat 0 buf)
    obtain ⟨rowa, rowb⟩ := copyRow_spec g sw j0 g.width.toNat 0 buf
    have hun : ∀ idx, copyRows g sw (m + 1) j0 buf idx
        = copyRows g sw m (j0 + 1) (copyRow g sw j0 g.width.toNat 0 buf) idx := fun _ => rfl
    constructor
    · intro i j hi0 hiw hj0 hjm
      rw [hun]
      by_cases hj : j = j0
      · subst hj
        rw [ihb _ (fun i' j' hi0' hiw' hj0' _ => by
          have := slot_rows_disjoint sw (scaler * 2) (scaler * 2) g.width i' i j j' hs0 hsw
            hi0' hi0 hiw (by omega)
          omega)]
        exact rowa i hi0 (by omega)
      · exact iha i j hi0 hiw (by omega) (by push_cast at hjm; omega)
    · intro idx hout
      rw [hun, ihb idx (fun i j hi0 hiw hj0 hjm =>
        hout i j hi0 hiw (by omega) (by push_cast; omega))]
      exact rowb idx (fun i hi0 hiw =>
        hout i j0 hi0 (by omega) (le_refl _) (by push_cast; omega))

/-- What the copy loop builds: the buffer of width `sw = w + 8 * scaler` holds the
glyph's pixel `(i, j)`, as 0 or 255, at position `(i + 2 * scaler, j + 2 * scaler)` and
is zero at every other index. -/
theorem smooth_buf_spec (g : Glyph) :
    (∀ i j, 0 ≤ i → i < g.width → 0 ≤ j → j < g.rows →
      smooth_buf g (i + scaler * 2 + (j + scaler * 2) * paddedWidth g) = glyphPixel g i j ∧
        (glyphPixel g i j = 0 ∨ glyphPixel g i j = 255)) ∧
    (∀ idx, (∀ i j, 0 ≤ i → i < g.width → 0 ≤ j → j < g.rows →
        idx ≠ i + scaler * 2 + (j + scaler * 2) * paddedWidth g) →
      smooth_buf g idx = 0) := by
  obtain ⟨ha, hb⟩ := copyRows_spec g (paddedWidth g)
    (by simp only [paddedWidth, scaler]; omega) g.rows.toNat 0 (fun _ => 0)
  constructor
  · intro i j hi0 hiw hj0 hjh
    exact ⟨ha i j hi0 hiw hj0 (by omega), glyphPixel_bilevel g i j⟩
  · intro idx hout
    exact hb idx (fun i j hi0 hiw hj0 hjh => hout i j hi0 hiw hj0 (by omega))

/-- C11 (padding border) at a failing input: for the glyph whose raster is the single
set pixel (0, 0), the padded buffer is 129 x 129, the pixel is stored at position
`(2 * scaler, 2 * scaler) = (32, 32)`, inside what the claim calls the zero border, and
position `(4 * scaler, 4 * scaler) = (64, 64)`, where the claim places it, holds 0. -/
theorem smooth_buf_border_failing :
    paddedWidth { width := 1, rows := 1, pitch := 1, buffer := (fun _ => 128),
                  bitmap_left := 0, bitmap_top := 1, advance_x := 64 } = 1 + 8 * scaler ∧
      glyphPixel { width := 1, rows := 1, pitch := 1, buffer := (fun _ => 128),
                   bitmap_left := 0, bitmap_top := 1, advance_x := 64 } 0 0 = 255 ∧
      smooth_buf { width := 1, rows := 1, pitch := 1, buffer := (fun _ => 128),
                   bitmap_left := 0, bitmap_top := 1, advance_x := 64 }
        ((0 + 4 * scaler) + (0 + 4 * scaler) * (1 + 8 * scaler)) = 0 ∧
      smooth_buf { width := 1, rows := 1, pitch := 1, buffer := (fun _ => 128),
                   bitmap_left := 0, bitmap_top := 1, advance_x := 64 }
        ((0 + 2 * scaler) + (0 + 2 * scaler) * (1 + 8 * scaler)) = 255 := by
  decide

/-! ### Claim on the reads of the synthesizer -/

/-- C12 (in-bounds reads).  For every `w x h` raster, every centre with `0 <= x < w`,
`0 <= y < h` and every `max_radius >= 1`, every index at which `get_SDF_radial` reads the
raster lies in `[0, w*h)`.  For every glyph raster of size `w x h`, with
`sw = w + 8*scaler` and `sh = h + 8*scaler`, every centre
`(i*scaler + scaler/2, j*scaler + scaler/2)` sampled for `0 <= i < sw/scaler`,
`0 <= j < sh/scaler` lies inside the `sw x sh` buffer, the radius `2*scaler` is at least
1, and so every read the compositing loop makes in the padded buffer is in
`[0, sw*sh)`. -/
theorem get_SDF_radial_reads_in_bounds :
    (∀ (fontmap : Int → Nat) (w h x y R : Int), 1 ≤ w → 1 ≤ h → 0 ≤ x → x < w → 0 ≤ y →
      y < h → 1 ≤ R → ∀ idx ∈ get_SDF_reads fontmap w h x y R, 0 ≤ idx ∧ idx < w * h) ∧
    (∀ (w h i j : Int), 0 ≤ i → i < (w + 8 * scaler) / scaler → 0 ≤ j →
      j < (h + 8 * scaler) / scaler →
      1 ≤ w + 8 * scaler ∧ 1 ≤ h + 8 * scaler ∧
        0 ≤ i * scaler + scaler / 2 ∧ i * scaler + scaler / 2 < w + 8 * scaler ∧
        0 ≤ j * scaler + scaler / 2 ∧ j * scaler + scaler / 2 < h + 8 * scaler ∧
        1 ≤ 2 * scaler) ∧
    (∀ (g : Glyph) (code i j : Int), 0 ≤ i → i < (glyphEntry code g).width → 0 ≤ j →
      j < (glyphEntry code g).height →
      ∀ idx ∈ get_SDF_reads (smooth_buf g) (paddedWidth g) (paddedHeight g)
          (i * scaler + scaler / 2) (j * scaler + scaler / 2) (2 * scaler),
        0 ≤ idx ∧ idx < paddedWidth g * paddedHeight g) := by
  have centre : ∀ (w i : Int), 0 ≤ i → i < (w + 8 * scaler) / scaler →
      1 ≤ w + 8 * scaler ∧ 0 ≤ i * scaler + scaler / 2 ∧
        i * scaler + scaler / 2 < w + 8 * scaler := by
    intro w i hi0 hi1
    simp only [scaler] at hi1 ⊢
    omega
  refine ⟨?_, ?_, ?_⟩
  · intro fontmap w h x y R _ _ hx0 hxw hy0 hyh _ idx hidx
    exact get_SDF_reads_in_bounds fontmap w h x y R ⟨hx0, hxw⟩ ⟨hy0, hyh⟩ idx hidx
  · intro w h i j hi0 hi1 hj0 hj1
    obtain ⟨a1, a2, a3⟩ := centre w i hi0 hi1
    obtain ⟨b1, b2, b3⟩ := centre h j hj0 hj1
    exact ⟨a1, b1, a2, a3, b2, b3, by decide⟩
  · intro g code i j hi0 hi1 hj0 hj1 idx hidx
    have ew : (glyphEntry code g).width = (g.width + 8 * scaler) / scaler := by
      simp only [glyphEntry, mul_comm]
    have eh : (glyphEntry code g).height = (g.rows + 8 * scaler) / scaler := by
      simp only [glyphEntry, mul_comm]
    rw [ew] at hi1
    rw [eh] at hj1
    obtain ⟨_, a2, a3⟩ := centre g.width i hi0 hi1
    obtain ⟨_, b2, b3⟩ := centre g.rows j hj0 hj1
    have pw : paddedWidth g = g.width + 8 * scaler := by simp only [paddedWidth, mul_comm]
    have ph : paddedHeight g = g.rows + 8 * scaler := by simp only [paddedHeight, mul_comm]
    exact get_SDF_reads_in_bounds (smooth_buf g) (paddedWidth g) (paddedHeight g) _ _ _
      ⟨a2, by rw [pw]; exact a3⟩ ⟨b2, by rw [ph]; exact b3⟩ idx hidx

/-- Witness for C12: the reads at the centre (1, 1) of a 3 x 3 raster with radius 2, and
the sampled centre of cell (7, 7) of a 1 x 1 glyph. -/
theorem get_SDF_radial_reads_in_bounds_witness :
    (∀ idx ∈ get_SDF_reads (fun _ => 0) 3 3 1 1 2, 0 ≤ idx ∧ idx < 3 * 3) ∧
      (1 ≤ (1 : Int) + 8 * scaler ∧ 1 ≤ (1 : Int) + 8 * scaler ∧
        0 ≤ 7 * scaler + scaler / 2 ∧ 7 * scaler + scaler / 2 < 1 + 8 * scaler ∧
        0 ≤ 7 * scaler + scaler / 2 ∧ 7 * scaler + scaler / 2 < 1 + 8 * scaler ∧
        1 ≤ 2 * scaler) :=
  ⟨get_SDF_radial_reads_in_bounds.1 (fun _ => 0) 3 3 1 1 2 (by decide) (by decide)
      (by decide) (by decide) (by decide) (by decide) (by decide),
   get_SDF_radial_reads_in_bounds.2.1 1 1 7 7 (by decide) (by decide) (by decide)
      (by decide)⟩

/-! ### The two-value scan of `render_signed_distance_image` -/

theorem thresholdStep_val (val0 : Int) (s : ThresholdScan) (b : Nat) :
    (thresholdStep val0 s b).val
      = if (b : Int) ≠ val0 ∧ s.val < 0 then (b : Int) else s.val := by
  unfold thresholdStep
  by_cases h1 : (b : Int) ≠ val0 <;> by_cases h2 : s.val < 0 <;>
    simp only [h1, h2, if_true, if_false, true_and, false_and, and_true, and_false,
      not_true_eq_false, not_false_eq_true] <;>
    split_ifs <;> rfl

theorem thresholdStep_needs (val0 : Int) (s : ThresholdScan) (b : Nat) :
    (thresholdStep val0 s b).needs_threshold
      = if (b : Int) ≠ val0 ∧ ¬ s.val < 0 then decide (s.val ≠ (b : Int))
        else s.needs_threshold := by
  unfold thresholdStep
  by_cases h1 : (b : Int) ≠ val0 <;> by_cases h2 : s.val < 0 <;>
    simp only [h1, h2, if_true, if_false, true_and, false_and, and_true, and_false,
      not_true_eq_false, not_false_eq_true] <;>
    split_ifs <;> rfl

theorem thresholdScan_inv (img_data : List Nat) (val0 : Int) (l : List Nat) :
    ∀ s : ThresholdScan, (∀ b ∈ l, b ∈ img_data) →
      ((s.val < 0 → s.needs_threshold = false) ∧
        (0 ≤ s.val → ∃ b ∈ img_data, (b : Int) = s.val ∧ s.val ≠ val0) ∧
        (s.needs_threshold = true → ∃ c ∈ img_data, (c : Int) ≠ val0 ∧ (c : Int) ≠ s.val)) →
      (((l.foldl (thresholdStep val0) s).val < 0 →
          (l.foldl (thresholdStep val0) s).needs_threshold = false) ∧
        (0 ≤ (l.foldl (thresholdStep val0) s).val →
          ∃ b ∈ img_data, (b : Int) = (l.foldl (thresholdStep val0) s).val ∧
            (l.foldl (thresholdStep val0) s).val ≠ val0) ∧
        ((l.foldl (thresholdStep val0) s).needs_threshold = true →
          ∃ c ∈ img_data, (c : Int) ≠ val0 ∧
            (c : Int) ≠ (l.foldl (thresholdStep val0) s).val)) := by
  induction l with
  | nil => intro s _ h; exact h
  | cons b rest ih =>
    intro s hmem ⟨h1, h2, h3⟩
    simp only [List.foldl_cons]
    refine ih (thresholdStep val0 s b) (fun c hc => hmem c (List.mem_cons_of_mem _ hc)) ?_
    have hb : b ∈ img_data := hmem b (List.mem_cons_self _ _)
    rw [thresholdStep_val, thresholdStep_needs]
    by_cases hne : (b : Int) ≠ val0
    · by_cases hneg : s.val < 0
      · rw [if_pos ⟨hne, hneg⟩, if_neg (fun hh => hh.2 hneg)]
        refine ⟨fun _ => h1 hneg, fun _ => ⟨b, hb, rfl, hne⟩, fun hn => ?_⟩
        rw [h1 hneg] at hn; cases hn
      · rw [if_neg (fun hh => hneg hh.2), if_pos ⟨hne, hneg⟩]
        refine ⟨fun hlt => absurd hlt hneg, h2, fun hn => ?_⟩
        have : s.val ≠ (b : Int) := by simpa using hn
        exact ⟨b, hb, hne, fun e => this e.symm⟩
    · rw [if_neg (fun hh => hne hh.1), if_neg (fun hh => hne hh.1)]
      exact ⟨h1, h2, h3⟩

/-- The sound half of the two-value test: if the scan ends with `needs_threshold` set,
the channel contains more than two distinct values. -/
theorem needs_threshold_sound (img_data : List Nat)
    (h : (thresholdScan img_data).needs_threshold = true) : 2 < img_data.dedup.length := by
  unfold thresholdScan at h
  simp only at h
  obtain ⟨h1, h2, h3⟩ := thresholdScan_inv img_data ((img_data.headD 0 : Nat) : Int) img_data
    { val := -1, needs_threshold := false,
      vmin := ((img_data.headD 0 : Nat) : Int), vmax := ((img_data.headD 0 : Nat) : Int) }
    (fun b hb => hb)
    ⟨fun _ => rfl, fun hge => absurd (show (0 : Int) ≤ -1 from hge) (by decide),
      fun hn => by cases hn⟩
  obtain ⟨c, hc, hc0, hcv⟩ := h3 h
  have hval : 0 ≤ (img_data.foldl (thresholdStep ((img_data.headD 0 : Nat) : Int))
      { val := -1, needs_threshold := false,
        vmin := ((img_data.headD 0 : Nat) : Int),
        vmax := ((img_data.headD 0 : Nat) : Int) }).val := by
    by_contra hlt
    have := h1 (lt_of_not_le hlt)
    rw [this] at h; cases h
  obtain ⟨b, hb, hbv, hb0⟩ := h2 hval
  have ha : img_data.headD 0 ∈ img_data := by
    cases img_data with
    | nil => cases hc
    | cons a rest => simp
  have hab : img_data.headD 0 ≠ b := by
    intro e; apply hb0; rw [← hbv, ← e]
  have hac : img_data.headD 0 ≠ c := by
    intro e; apply hc0; rw [← e]
  have hbc : b ≠ c := by
    intro e; apply hcv; rw [← hbv, e]
  have hsub : ({img_data.headD 0, b, c} : Finset Nat) ⊆ img_data.toFinset := by
    intro z hz
    simp only [Finset.mem_insert, Finset.mem_singleton] at hz
    rw [List.mem_toFinset]
    rcases hz with rfl | rfl | rfl
    · exact ha
    · exact hb
    · exact hc
  have h3' : ({img_data.headD 0, b, c} : Finset Nat).card = 3 :=
    Finset.card_eq_three.2 ⟨_, _, _, hab, hac, hbc, rfl⟩
  have hle := Finset.card_le_card hsub
  rw [h3', List.card_toFinset] at hle
  omega

/-- C13 (two-value detection) at a failing input: the channel `0, 1, 2, 1` holds three
distinct values, yet the scan ends with `needs_threshold == false` (the pixel 2 sets the
flag and the following pixel 1 clears it again), so the channel reaches `get_SDF_radial`
unthresholded, with three distinct values. -/
theorem needs_threshold_failing :
    (thresholdScan [0, 1, 2, 1]).needs_threshold = false ∧
      [0, 1, 2, 1].dedup.length = 3 ∧
      (thresholdScan [0, 1, 2]).needs_threshold = true ∧
      thresholdChannel [0, 1, 2, 1] 1 = [0, 1, 2, 1] := by
  decide

end SDFont
